import Mathlib

/-!
Verification of the brainbug compiler/interpreter core.

This file shallowly embeds the parts of the source relevant to the frozen
claims:
  - the instruction type and the lexer (src/common.rs),
  - the counted-loop rewriter simplify_loops and the scan rewriter
    vectorize_scans (src/compile.rs),
  - the jump-table builder compute_jump_dests, the concrete interpreter's
    read, the loop profiler get_loop_executions, and the partial evaluator
    (src/interp.rs).
Vectors become lists, u8 cells become Nat mod 256, i32 counters become Int
(the source only wraps on cell bytes; the i32 counters are deltas bounded by
the program length), HashMaps become association lists, and the imperative
for-loops become step functions iterated by fuel equal to the loop's trip
count.  Rust panics and runtime errors become Option results.
-/

set_option maxHeartbeats 1000000

/-- The instruction set, mirroring enum Instruction in src/common.rs.
Offsets are i32 in the source and Int here; cell values are u8 there and
Nat (mod 256) here. -/
inductive Instruction where
  | MoveRight
  | MoveLeft
  | Increment
  | Decrement
  | Write
  | Read
  | JumpIfZero
  | JumpUnlessZero
  | Zero
  | Add (offset : Int)
  | Sub (offset : Int)
  | Scan (x : Int)
  | SetHeadPos (x : Int)
  | SetCell (pos : Int) (val : Nat)
  | Output (val : Nat)
  | Nop
deriving DecidableEq, Repr

open Instruction

/-- The lexer of src/common.rs: the eight opcode characters map to opcodes,
everything else is discarded. -/
def lex : List Char → List Instruction
  | [] => []
  | c :: rest =>
    if c = '>' then MoveRight :: lex rest
    else if c = '<' then MoveLeft :: lex rest
    else if c = '+' then Increment :: lex rest
    else if c = '-' then Decrement :: lex rest
    else if c = '.' then Write :: lex rest
    else if c = ',' then Read :: lex rest
    else if c = '[' then JumpIfZero :: lex rest
    else if c = ']' then JumpUnlessZero :: lex rest
    else lex rest

/-! ### List access helper lemmas -/

theorem getD_cons_succ {α : Type} (a : α) (l : List α) (k : Nat) (d : α) :
    (a :: l).getD (k + 1) d = l.getD k d := rfl

theorem getD_set_eq {α : Type} (l : List α) (i : Nat) (a d : α)
    (h : i < l.length) : (l.set i a).getD i d = a := by
  induction l generalizing i with
  | nil => simp at h
  | cons b t ih =>
    cases i with
    | zero => rfl
    | succ k => simpa using ih k (by simpa using h)

theorem getD_set_ne {α : Type} (l : List α) (i j : Nat) (a d : α)
    (h : i ≠ j) : (l.set i a).getD j d = l.getD j d := by
  induction l generalizing i j with
  | nil => simp [List.set]
  | cons b t ih =>
    cases i with
    | zero =>
      cases j with
      | zero => exact absurd rfl h
      | succ k => rfl
    | succ i' =>
      cases j with
      | zero => rfl
      | succ k => simpa using ih i' k (fun hh => h (by omega))

theorem getD_append_add {α : Type} (X Y : List α) (k : Nat) (d : α) :
    (X ++ Y).getD (X.length + k) d = Y.getD k d := by
  induction X with
  | nil => simp
  | cons a t ih => simpa [Nat.succ_add] using ih

theorem getD_append_lt {α : Type} (X Y : List α) (k : Nat) (d : α)
    (h : k < X.length) : (X ++ Y).getD k d = X.getD k d := by
  induction X generalizing k with
  | nil => simp at h
  | cons a t ih =>
    cases k with
    | zero => rfl
    | succ k' => simpa using ih k' (by simpa using h)

/-! ### The counted-loop rewriter (simplify_loops, src/compile.rs) -/

/-- LoopState of src/compile.rs; ptr_changes is a HashMap there and an
association list (no duplicate keys arise) here. -/
structure LoopState where
  start_pc : Nat
  head_delta : Int
  ptr_changes : List (Int × Int)
deriving DecidableEq, Repr

/-- Lookup in the ptr_changes association list (HashMap get). -/
def lookupEntry : List (Int × Int) → Int → Option Int
  | [], _ => none
  | (k, v) :: rest, key => if k = key then some v else lookupEntry rest key

/-- HashMap entry(key).or_insert(0); *curr += delta. -/
def incEntry : List (Int × Int) → Int → Int → List (Int × Int)
  | [], key, delta => [(key, delta)]
  | (k, v) :: rest, key, delta =>
    if k = key then (k, v + delta) :: rest else (k, v) :: incEntry rest key delta

/-- The loop `for i in start..start+n { program[i] = Nop }`. -/
def setRangeNop : List Instruction → Nat → Nat → List Instruction
  | prog, _, 0 => prog
  | prog, a, n + 1 => setRangeNop (prog.set a Nop) (a + 1) n

/-- The loop `for i in 0..n { program[w] = inst; w += 1 }`. -/
def writeN : List Instruction → Nat → Instruction → Nat → List Instruction
  | prog, _, _, 0 => prog
  | prog, w, inst, n + 1 => writeN (prog.set w inst) (w + 1) inst n

/-- The keys of ptr_changes, collected and sorted ascending
(`head_deltas.sort()` in the source). -/
def sortedKeys (m : List (Int × Int)) : List Int :=
  List.insertionSort (fun a b => a ≤ b) (m.map Prod.fst)

/-- The per-offset write loop of the commit branch of simplify_loops: for
each nonzero key in order, write |value_delta| copies of Add/Sub chosen by
the sign rule, advancing the write cursor. -/
def writeChanges (dec : Bool) (m : List (Int × Int)) :
    List Instruction → Nat → List Int → List Instruction × Nat
  | prog, w, [] => (prog, w)
  | prog, w, k :: keys =>
    if k = 0 then writeChanges dec m prog w keys
    else
      let v := (lookupEntry m k).getD 0
      let inst := if dec then (if v > 0 then Add k else Sub k)
                  else (if v > 0 then Sub k else Add k)
      writeChanges dec m (writeN prog w inst v.natAbs) (w + v.natAbs) keys

/-- One iteration of the pc-loop of simplify_loops: the configuration holds
the (mutable) program, the loop index pc, and the in_loop/curr_loop state. -/
structure SCfg where
  prog : List Instruction
  pc : Nat
  in_loop : Bool
  st : LoopState
deriving Repr

/-- The body of `for pc in 0..program.len()` in simplify_loops. -/
def slStep (c : SCfg) : SCfg :=
  match c.prog.getD c.pc Nop with
  | JumpIfZero => { c with pc := c.pc + 1, in_loop := true, st := ⟨c.pc, 0, []⟩ }
  | JumpUnlessZero =>
    if c.in_loop then
      if c.st.head_delta ≠ 0 then { c with pc := c.pc + 1, in_loop := false }
      else
        match lookupEntry c.st.ptr_changes 0 with
        | none => { c with pc := c.pc + 1, in_loop := false }
        | some v =>
          if v = 1 ∨ v = -1 then
            let dec : Bool := decide (v = -1)
            let p1 := setRangeNop c.prog c.st.start_pc (c.pc + 1 - c.st.start_pc)
            let pw := writeChanges dec c.st.ptr_changes p1 c.st.start_pc
                        (sortedKeys c.st.ptr_changes)
            { c with prog := pw.1.set pw.2 Zero, pc := c.pc + 1, in_loop := false }
          else { c with pc := c.pc + 1, in_loop := false }
    else { c with pc := c.pc + 1 }
  | Read => { c with pc := c.pc + 1, in_loop := false }
  | Write => { c with pc := c.pc + 1, in_loop := false }
  | MoveLeft => { c with
      pc := c.pc + 1,
      st := if c.in_loop then { c.st with head_delta := c.st.head_delta - 1 } else c.st }
  | MoveRight => { c with
      pc := c.pc + 1,
      st := if c.in_loop then { c.st with head_delta := c.st.head_delta + 1 } else c.st }
  | Increment => { c with
      pc := c.pc + 1,
      st := if c.in_loop then
        { c.st with ptr_changes := incEntry c.st.ptr_changes c.st.head_delta 1 } else c.st }
  | Decrement => { c with
      pc := c.pc + 1,
      st := if c.in_loop then
        { c.st with ptr_changes := incEntry c.st.ptr_changes c.st.head_delta (-1) } else c.st }
  | _ => { c with pc := c.pc + 1, in_loop := false }

/-- Iterating the loop body n times. -/
def slIter : Nat → SCfg → SCfg
  | 0, c => c
  | n + 1, c => slIter n (slStep c)

/-- simplify_loops of src/compile.rs: run the pc-loop over the whole
program, starting outside any loop. -/
def simplify_loops (prog : List Instruction) : List Instruction :=
  (slIter prog.length { prog := prog, pc := 0, in_loop := false, st := ⟨0, 0, []⟩ }).prog

/-! ### The scan rewriter (vectorize_scans, src/compile.rs) -/

/-- Configuration of the pc-loop of vectorize_scans. -/
structure VCfg where
  prog : List Instruction
  pc : Nat
  in_loop : Bool
  head_delta : Int
  start_pc : Nat
deriving Repr

/-- The body of `for pc in 0..program.len()` in vectorize_scans. -/
def vsStep (c : VCfg) : VCfg :=
  match c.prog.getD c.pc Nop with
  | JumpIfZero => { c with pc := c.pc + 1, in_loop := true, head_delta := 0, start_pc := c.pc }
  | JumpUnlessZero =>
    if c.in_loop then
      if c.head_delta = 0 then { c with pc := c.pc + 1, in_loop := false }
      else
        let p1 := setRangeNop c.prog c.start_pc (c.pc + 1 - c.start_pc)
        { c with
          prog := p1.set c.start_pc (Scan c.head_delta),
          pc := c.pc + 1,
          in_loop := false }
    else { c with pc := c.pc + 1 }
  | MoveLeft => { c with
      pc := c.pc + 1,
      head_delta := if c.in_loop then c.head_delta - 1 else c.head_delta }
  | MoveRight => { c with
      pc := c.pc + 1,
      head_delta := if c.in_loop then c.head_delta + 1 else c.head_delta }
  | _ => { c with pc := c.pc + 1, in_loop := false }

/-- Iterating the vectorize_scans loop body n times. -/
def vsIter : Nat → VCfg → VCfg
  | 0, c => c
  | n + 1, c => vsIter n (vsStep c)

/-- vectorize_scans of src/compile.rs. -/
def vectorize_scans (prog : List Instruction) : List Instruction :=
  (vsIter prog.length
    { prog := prog, pc := 0, in_loop := false, head_delta := 0, start_pc := 0 }).prog

/-! ### Length preservation (claim C7) -/

theorem length_setRangeNop (prog : List Instruction) (a n : Nat) :
    (setRangeNop prog a n).length = prog.length := by
  induction n generalizing prog a with
  | zero => rfl
  | succ n ih => simp [setRangeNop, ih, List.length_set]

theorem length_writeN (prog : List Instruction) (w : Nat) (inst : Instruction) (n : Nat) :
    (writeN prog w inst n).length = prog.length := by
  induction n generalizing prog w with
  | zero => rfl
  | succ n ih => simp [writeN, ih, List.length_set]

theorem length_writeChanges (dec : Bool) (m : List (Int × Int))
    (prog : List Instruction) (w : Nat) (keys : List Int) :
    (writeChanges dec m prog w keys).1.length = prog.length := by
  induction keys generalizing prog w with
  | nil => rfl
  | cons k keys ih =>
    by_cases hk : k = 0
    · simp [writeChanges, hk, ih]
    · simp [writeChanges, hk, ih, length_writeN]

theorem length_slStep (c : SCfg) : (slStep c).prog.length = c.prog.length := by
  unfold slStep
  cases h : c.prog.getD c.pc Nop <;>
    (repeat' split) <;>
    simp_all [List.length_set, length_writeChanges, length_setRangeNop]

theorem length_slIter (n : Nat) (c : SCfg) :
    (slIter n c).prog.length = c.prog.length := by
  induction n generalizing c with
  | zero => rfl
  | succ n ih => rw [slIter, ih, length_slStep]

theorem length_vsStep (c : VCfg) : (vsStep c).prog.length = c.prog.length := by
  unfold vsStep
  cases h : c.prog.getD c.pc Nop <;>
    (repeat' split) <;>
    simp_all [List.length_set, length_setRangeNop]

theorem length_vsIter (n : Nat) (c : VCfg) :
    (vsIter n c).prog.length = c.prog.length := by
  induction n generalizing c with
  | zero => rfl
  | succ n ih => rw [vsIter, ih, length_vsStep]

/-- C7: both rewriter passes preserve the length of the instruction list. -/
theorem rewriters_preserve_length (prog : List Instruction) :
    (simplify_loops prog).length = prog.length ∧
    (vectorize_scans prog).length = prog.length := by
  constructor
  · exact length_slIter prog.length _
  · exact length_vsIter prog.length _

/-! ### The jump-table builder (compute_jump_dests, src/interp.rs) -/

/-- Bracket value of an opcode: the brace_count adjustment of the forward
scan in find_matching_jump_if_zero. -/
def bv : Instruction → Int
  | JumpIfZero => 1
  | JumpUnlessZero => -1
  | _ => 0

/-- Brace_count adjustment of the backward scan in
find_matching_jump_unless_zero. -/
def bvDown : Instruction → Int
  | JumpUnlessZero => 1
  | JumpIfZero => -1
  | _ => 0

/-- Bracket depth before position t: sum of bv over the first t opcodes. -/
def sumBv (prog : List Instruction) (t : Nat) : Int :=
  ((prog.take t).map bv).sum

/-- Forward scan of find_matching_jump_if_zero: process prog[pc], adjust the
count, stop when it reaches 0.  Running out of program or fuel models the
out-of-bounds panic of the Rust loop. -/
def fcAux (prog : List Instruction) : Nat → Nat → Int → Option Nat
  | 0, _, _ => none
  | fuel + 1, pc, count =>
    if pc < prog.length then
      let c2 := count + bv (prog.getD pc Nop)
      if c2 = 0 then some pc else fcAux prog fuel (pc + 1) c2
    else none

/-- Backward scan of find_matching_jump_unless_zero. -/
def foAux (prog : List Instruction) : Nat → Nat → Int → Option Nat
  | 0, _, _ => none
  | fuel + 1, pc, count =>
    if pc < prog.length then
      let c2 := count + bvDown (prog.getD pc Nop)
      if c2 = 0 then some pc
      else if pc = 0 then none else foAux prog fuel (pc - 1) c2
    else none

/-- find_matching_jump_if_zero of src/interp.rs. -/
def find_matching_jump_if_zero (prog : List Instruction) (start_pc : Nat) : Option Nat :=
  fcAux prog prog.length (start_pc + 1) 1

/-- find_matching_jump_unless_zero of src/interp.rs; start_pc = 0 would
underflow pc in the source, modeled as none. -/
def find_matching_jump_unless_zero (prog : List Instruction) (start_pc : Nat) : Option Nat :=
  if start_pc = 0 then none else foAux prog prog.length (start_pc - 1) 1

/-- compute_jump_dests of src/interp.rs, viewed as a partial function from
positions to positions (the source builds the same data as a HashMap whose
domain is exactly the jump positions). -/
def jumpDest (prog : List Instruction) (pc : Nat) : Option Nat :=
  match prog.getD pc Nop with
  | JumpIfZero => find_matching_jump_if_zero prog pc
  | JumpUnlessZero => find_matching_jump_unless_zero prog pc
  | _ => none

/-- Balanced brackets: every prefix has at least as many opening as closing
brackets and the whole program has equally many. -/
def balanced (prog : List Instruction) : Prop :=
  (∀ t, t ≤ prog.length → 0 ≤ sumBv prog t) ∧ sumBv prog prog.length = 0

theorem sumBv_succ (prog : List Instruction) (t : Nat) (h : t < prog.length) :
    sumBv prog (t + 1) = sumBv prog t + bv (prog.getD t Nop) := by
  have hg : prog[t]? = some prog[t] := List.getElem?_eq_getElem h
  have hgd : prog.getD t Nop = prog[t] := by
    rw [List.getD_eq_getElem?_getD, hg]; rfl
  unfold sumBv
  rw [List.take_succ, hg, List.map_append, List.sum_append, hgd]
  simp

theorem sumBv_zero (prog : List Instruction) : sumBv prog 0 = 0 := rfl

theorem bv_bounds (i : Instruction) : -1 ≤ bv i ∧ bv i ≤ 1 := by
  cases i <;> simp [bv]

theorem bv_eq_one (i : Instruction) (h : bv i = 1) : i = JumpIfZero := by
  cases i <;> simp_all [bv]

theorem bv_eq_neg_one (i : Instruction) (h : bv i = -1) : i = JumpUnlessZero := by
  cases i <;> simp_all [bv]

theorem exists_hit_down (prog : List Instruction) :
    ∀ (n a : Nat) (v : Int), a + n ≤ prog.length →
      sumBv prog (a + n) ≤ v → v ≤ sumBv prog a →
      ∃ t, a ≤ t ∧ t ≤ a + n ∧ sumBv prog t = v := by
  intro n
  induction n with
  | zero =>
    intro a v _ h1 h2
    refine ⟨a, le_refl a, by omega, ?_⟩
    simp only [Nat.add_zero] at h1
    omega
  | succ n ih =>
    intro a v hlen h1 h2
    by_cases he : sumBv prog a = v
    · exact ⟨a, le_refl a, by omega, he⟩
    · have hv : v < sumBv prog a := lt_of_le_of_ne h2 (fun hh => he hh.symm)
      have ha : a < prog.length := by omega
      have hstep := sumBv_succ prog a ha
      have hbd := bv_bounds (prog.getD a Nop)
      have h2' : v ≤ sumBv prog (a + 1) := by omega
      have h1' : sumBv prog (a + 1 + n) ≤ v := by
        have : a + 1 + n = a + (n + 1) := by omega
        rw [this]; exact h1
      obtain ⟨t, ht1, ht2, ht3⟩ := ih (a + 1) v (by omega) h1' h2'
      exact ⟨t, by omega, by omega, ht3⟩

theorem exists_hit_up (prog : List Instruction) :
    ∀ (n a : Nat) (v : Int), a + n ≤ prog.length →
      sumBv prog a ≤ v → v ≤ sumBv prog (a + n) →
      ∃ t, a ≤ t ∧ t ≤ a + n ∧ sumBv prog t = v := by
  intro n
  induction n with
  | zero =>
    intro a v _ h1 h2
    refine ⟨a, le_refl a, by omega, ?_⟩
    simp only [Nat.add_zero] at h2
    omega
  | succ n ih =>
    intro a v hlen h1 h2
    by_cases he : sumBv prog a = v
    · exact ⟨a, le_refl a, by omega, he⟩
    · have hv : sumBv prog a < v := lt_of_le_of_ne h1 he
      have ha : a < prog.length := by omega
      have hstep := sumBv_succ prog a ha
      have hbd := bv_bounds (prog.getD a Nop)
      have h1' : sumBv prog (a + 1) ≤ v := by omega
      have h2' : v ≤ sumBv prog (a + 1 + n) := by
        have : a + 1 + n = a + (n + 1) := by omega
        rw [this]; exact h2
      obtain ⟨t, ht1, ht2, ht3⟩ := ih (a + 1) v (by omega) h1' h2'
      exact ⟨t, by omega, by omega, ht3⟩

theorem gt_of_no_hit (prog : List Instruction) :
    ∀ (k a : Nat) (v : Int), a + k ≤ prog.length → v < sumBv prog a →
      (∀ t, a < t → t ≤ a + k → sumBv prog t ≠ v) →
      v < sumBv prog (a + k) := by
  intro k
  induction k with
  | zero => intro a v _ h _; exact h
  | succ k ih =>
    intro a v hlen h hne
    have hk : v < sumBv prog (a + k) :=
      ih a v (by omega) h (fun t h1 h2 => hne t h1 (by omega))
    have hstep := sumBv_succ prog (a + k) (by omega)
    have hbd := bv_bounds (prog.getD (a + k) Nop)
    have hne' : sumBv prog (a + (k + 1)) ≠ v := hne _ (by omega) (le_refl _)
    have : a + (k + 1) = a + k + 1 := by omega
    rw [this] at hne' ⊢
    omega

theorem gt_of_no_hit_down (prog : List Instruction) :
    ∀ (k b : Nat) (v : Int), b ≤ prog.length → v < sumBv prog b →
      (∀ t, b - k ≤ t → t < b → sumBv prog t ≠ v) →
      v < sumBv prog (b - k) := by
  intro k
  induction k with
  | zero => intro b v _ h _; exact h
  | succ k ih =>
    intro b v hlen h hne
    have hk : v < sumBv prog (b - k) :=
      ih b v hlen h (fun t h1 h2 => hne t (by omega) h2)
    by_cases hbk : k < b
    · have heq : b - k = (b - (k + 1)) + 1 := by omega
      have hstep := sumBv_succ prog (b - (k + 1)) (by omega)
      have hbd := bv_bounds (prog.getD (b - (k + 1)) Nop)
      have hne' : sumBv prog (b - (k + 1)) ≠ v := hne _ (le_refl _) (by omega)
      rw [heq] at hk
      omega
    · have : b - (k + 1) = b - k := by omega
      rw [this]; exact hk

theorem fcAux_some (prog : List Instruction) :
    ∀ (fuel pc : Nat) (count : Int) (j : Nat), pc ≤ j → j < prog.length →
      j < pc + fuel →
      count + (sumBv prog (j + 1) - sumBv prog pc) = 0 →
      (∀ t, pc ≤ t → t < j → count + (sumBv prog (t + 1) - sumBv prog pc) ≠ 0) →
      fcAux prog fuel pc count = some j := by
  intro fuel
  induction fuel with
  | zero => intro pc count j h1 _ h3 _ _; omega
  | succ fuel ih =>
    intro pc count j h1 h2 h3 hj hmin
    have hpc : pc < prog.length := by omega
    have hstep := sumBv_succ prog pc hpc
    unfold fcAux
    rw [if_pos hpc]
    simp only []
    by_cases hpj : pc = j
    · subst hpj
      have : count + bv (prog.getD pc Nop) = 0 := by omega
      rw [if_pos this]
    · have hlt : pc < j := by omega
      have hne : count + bv (prog.getD pc Nop) ≠ 0 := by
        have := hmin pc (le_refl pc) hlt
        omega
      rw [if_neg hne]
      apply ih (pc + 1) _ j (by omega) h2 (by omega)
      · omega
      · intro t ht1 ht2
        have := hmin t (by omega) ht2
        omega

theorem foAux_some (prog : List Instruction) :
    ∀ (fuel pc : Nat) (count : Int) (j : Nat), j ≤ pc → pc < prog.length →
      pc - j < fuel →
      count - (sumBv prog (pc + 1) - sumBv prog j) = 0 →
      (∀ t, j < t → t ≤ pc → count - (sumBv prog (pc + 1) - sumBv prog t) ≠ 0) →
      foAux prog fuel pc count = some j := by
  intro fuel
  induction fuel with
  | zero => intro pc count j _ _ h3 _ _; omega
  | succ fuel ih =>
    intro pc count j h1 h2 h3 hj hmin
    have hstep := sumBv_succ prog pc h2
    have hbvd : bvDown (prog.getD pc Nop) = -(bv (prog.getD pc Nop)) := by
      cases prog.getD pc Nop <;> simp [bv, bvDown]
    unfold foAux
    rw [if_pos h2]
    simp only []
    by_cases hpj : pc = j
    · subst hpj
      have : count + bvDown (prog.getD pc Nop) = 0 := by omega
      rw [if_pos this]
    · have hlt : j < pc := by omega
      have hne : count + bvDown (prog.getD pc Nop) ≠ 0 := by
        have := hmin pc hlt (le_refl pc)
        omega
      rw [if_neg hne]
      have hpc0 : pc ≠ 0 := by omega
      rw [if_neg hpc0]
      obtain ⟨q, hq⟩ : ∃ q, pc = q + 1 := ⟨pc - 1, by omega⟩
      subst hq
      simp only [Nat.add_sub_cancel]
      apply ih q _ j (by omega) (by omega) (by omega)
      · have hsq := sumBv_succ prog q (by omega)
        omega
      · intro t ht1 ht2
        have := hmin t ht1 (by omega)
        have hsq := sumBv_succ prog q (by omega)
        omega

theorem exists_greatest_hit (prog : List Instruction) (b : Nat) (v : Int) :
    (∃ t0, t0 ≤ b ∧ sumBv prog t0 = v) →
    ∃ p, p ≤ b ∧ sumBv prog p = v ∧
      ∀ t, p < t → t ≤ b → sumBv prog t ≠ v := by
  induction b with
  | zero =>
    intro ⟨t0, h1, h2⟩
    exact ⟨0, le_refl 0, by rwa [Nat.le_zero.mp h1] at h2, fun t ht1 ht2 => by omega⟩
  | succ b ih =>
    intro ⟨t0, h1, h2⟩
    by_cases hb : sumBv prog (b + 1) = v
    · exact ⟨b + 1, le_refl _, hb, fun t ht1 ht2 => by omega⟩
    · by_cases ht0 : t0 = b + 1
      · rw [ht0] at h2; exact absurd h2 hb
      · obtain ⟨p, hp1, hp2, hp3⟩ := ih ⟨t0, by omega, h2⟩
        refine ⟨p, by omega, hp2, fun t ht1 ht2 => ?_⟩
        by_cases htb : t = b + 1
        · rw [htb]; exact hb
        · exact hp3 t ht1 (by omega)

theorem fcAux_inv (prog : List Instruction) :
    ∀ (fuel pc : Nat) (count : Int) (j : Nat),
      fcAux prog fuel pc count = some j →
      pc ≤ j ∧ j < prog.length ∧
      count + (sumBv prog (j + 1) - sumBv prog pc) = 0 ∧
      (∀ t, pc ≤ t → t < j → count + (sumBv prog (t + 1) - sumBv prog pc) ≠ 0) := by
  intro fuel
  induction fuel with
  | zero => intro pc count j h; simp [fcAux] at h
  | succ fuel ih =>
    intro pc count j h
    unfold fcAux at h
    by_cases hpc : pc < prog.length
    · rw [if_pos hpc] at h
      simp only [] at h
      have hstep := sumBv_succ prog pc hpc
      by_cases hz : count + bv (prog.getD pc Nop) = 0
      · rw [if_pos hz] at h
        have hj : pc = j := Option.some.inj h
        subst hj
        refine ⟨le_refl pc, hpc, by omega, ?_⟩
        intro t h1 h2; omega
      · rw [if_neg hz] at h
        obtain ⟨ih1, ih2, ih3, ih4⟩ := ih (pc + 1) _ j h
        refine ⟨by omega, ih2, by omega, ?_⟩
        intro t ht1 ht2
        by_cases htp : t = pc
        · subst htp; omega
        · have := ih4 t (by omega) ht2
          omega
    · rw [if_neg hpc] at h; exact absurd h (by simp)

/-- C8: on a balanced program the jump table is total on jump opcodes and is
a symmetric involution. -/
theorem jump_table_involution (prog : List Instruction) (hbal : balanced prog)
    (i : Nat) (hi : i < prog.length)
    (hjump : prog.getD i Nop = JumpIfZero ∨ prog.getD i Nop = JumpUnlessZero) :
    ∃ j, jumpDest prog i = some j ∧ jumpDest prog j = some i := by
  obtain ⟨hpre, htot⟩ := hbal
  rcases hjump with hop | hcl
  · -- opening bracket at i
    have hbvi : bv (prog.getD i Nop) = 1 := by rw [hop]; rfl
    have hsi : sumBv prog (i + 1) = sumBv prog i + 1 := by
      rw [sumBv_succ prog i hi, hbvi]
    have hnn : 0 ≤ sumBv prog i := hpre i (by omega)
    -- a later position where the depth returns to sumBv i
    obtain ⟨t0, ht01, ht02, ht03⟩ :=
      exists_hit_down prog (prog.length - (i + 1)) (i + 1) (sumBv prog i)
        (by omega)
        (by
          have : i + 1 + (prog.length - (i + 1)) = prog.length := by omega
          rw [this, htot]; exact hnn)
        (by omega)
    have ht0ne : t0 ≠ i + 1 := by
      intro hh; rw [hh] at ht03; omega
    have hQex : ∃ x, i + 1 ≤ x ∧ x + 1 ≤ prog.length ∧
        sumBv prog (x + 1) = sumBv prog i := by
      refine ⟨t0 - 1, by omega, by omega, ?_⟩
      have : t0 - 1 + 1 = t0 := by omega
      rw [this]; exact ht03
    classical
    set j := Nat.find hQex with hjdef
    obtain ⟨hj1, hj2, hj3⟩ := Nat.find_spec hQex
    have hjmin : ∀ t, t < j → ¬(i + 1 ≤ t ∧ t + 1 ≤ prog.length ∧
        sumBv prog (t + 1) = sumBv prog i) := fun t ht => Nat.find_min hQex ht
    have hjlen : j < prog.length := by omega
    -- no level hit strictly inside (i+1, j]
    have hnohit : ∀ t, i + 1 < t → t ≤ j → sumBv prog t ≠ sumBv prog i := by
      intro t ht1 ht2 heq
      exact hjmin (t - 1) (by omega) ⟨by omega, by omega, by
        have : t - 1 + 1 = t := by omega
        rw [this]; exact heq⟩
    have hgt : ∀ t, i + 1 ≤ t → t ≤ j → sumBv prog i < sumBv prog t := by
      intro t ht1 ht2
      have := gt_of_no_hit prog (t - (i + 1)) (i + 1) (sumBv prog i)
        (by omega) (by omega)
        (fun u hu1 hu2 => hnohit u hu1 (by omega))
      have heq : i + 1 + (t - (i + 1)) = t := by omega
      rwa [heq] at this
    have hfc : find_matching_jump_if_zero prog i = some j := by
      apply fcAux_some prog prog.length (i + 1) 1 j hj1 hjlen (by omega)
      · rw [hj3, hsi]; ring
      · intro t ht1 ht2 heq
        have hzz : sumBv prog (t + 1) = sumBv prog i := by
          rw [hsi] at heq; omega
        exact hjmin t (by omega) ⟨ht1, by omega, hzz⟩
    -- the matched token is a closing bracket
    have hsj1 : sumBv prog (j + 1) = sumBv prog i := hj3
    have hsj : sumBv prog j = sumBv prog i + 1 := by
      have hstep := sumBv_succ prog j hjlen
      have hbd := bv_bounds (prog.getD j Nop)
      have h1 := hgt j (by omega) (le_refl j)
      omega
    have hbvj : bv (prog.getD j Nop) = -1 := by
      have hstep := sumBv_succ prog j hjlen
      omega
    have hclj : prog.getD j Nop = JumpUnlessZero := bv_eq_neg_one _ hbvj
    have hfo : find_matching_jump_unless_zero prog j = some i := by
      unfold find_matching_jump_unless_zero
      rw [if_neg (by omega : ¬ j = 0)]
      apply foAux_some prog prog.length (j - 1) 1 i (by omega) (by omega) (by omega)
      · have : j - 1 + 1 = j := by omega
        rw [this, hsj]; ring
      · intro t ht1 ht2 heq
        have : j - 1 + 1 = j := by omega
        rw [this, hsj] at heq
        have : sumBv prog t = sumBv prog i := by omega
        have := hgt t (by omega) (by omega)
        omega
    refine ⟨j, ?_, ?_⟩
    · unfold jumpDest; rw [hop]; exact hfc
    · unfold jumpDest; rw [hclj]; exact hfo
  · -- closing bracket at i (called j in the sketch; keep the name i)
    have hbvi : bv (prog.getD i Nop) = -1 := by rw [hcl]; rfl
    have hsi1 : sumBv prog (i + 1) = sumBv prog i - 1 := by
      rw [sumBv_succ prog i hi, hbvi]; ring
    have hge1 : 1 ≤ sumBv prog i := by
      have := hpre (i + 1) (by omega)
      omega
    -- an earlier position at depth (sumBv i) - 1
    obtain ⟨t0, ht01, ht02, ht03⟩ :=
      exists_hit_up prog i 0 (sumBv prog i - 1) (by omega)
        (by rw [sumBv_zero]; omega)
        (by rw [Nat.zero_add]; omega)
    have ht02' : t0 ≤ i := by omega
    have ht0ne : t0 ≠ i := by
      intro hh; rw [hh] at ht03; omega
    obtain ⟨io, hiole, hio3, hiomax⟩ :=
      exists_greatest_hit prog (i - 1) (sumBv prog i - 1) ⟨t0, by omega, ht03⟩
    have hnohit : ∀ t, io < t → t ≤ i → sumBv prog t ≠ sumBv prog i - 1 := by
      intro t ht1 ht2
      by_cases hti : t = i
      · rw [hti]; omega
      · exact hiomax t ht1 (by omega)
    have hgt : ∀ t, io < t → t ≤ i → sumBv prog i - 1 < sumBv prog t := by
      intro t ht1 ht2
      have := gt_of_no_hit_down prog (i - t) i (sumBv prog i - 1)
        (by omega) (by omega)
        (fun u hu1 hu2 => hnohit u (by omega) (by omega))
      have heq : i - (i - t) = t := by omega
      rwa [heq] at this
    have hioi : io < i := by omega
    have hsio1 : sumBv prog (io + 1) = sumBv prog io + 1 := by
      have hstep := sumBv_succ prog io (by omega)
      have hbd := bv_bounds (prog.getD io Nop)
      have h1 := hgt (io + 1) (by omega) (by omega)
      omega
    have hbvio : bv (prog.getD io Nop) = 1 := by
      have hstep := sumBv_succ prog io (by omega)
      omega
    have hopio : prog.getD io Nop = JumpIfZero := bv_eq_one _ hbvio
    have hine0 : i ≠ 0 := by
      intro hh
      rw [hh, sumBv_zero] at hge1
      omega
    have hfo : find_matching_jump_unless_zero prog i = some io := by
      unfold find_matching_jump_unless_zero
      rw [if_neg hine0]
      apply foAux_some prog prog.length (i - 1) 1 io (by omega) (by omega) (by omega)
      · have : i - 1 + 1 = i := by omega
        rw [this, hio3]; ring
      · intro t ht1 ht2 heq
        have : i - 1 + 1 = i := by omega
        rw [this] at heq
        have : sumBv prog t = sumBv prog i - 1 := by omega
        exact hnohit t ht1 (by omega) this
    have hfc : find_matching_jump_if_zero prog io = some i := by
      apply fcAux_some prog prog.length (io + 1) 1 i (by omega) hi (by omega)
      · rw [hsio1, hio3, hsi1]; ring
      · intro t ht1 ht2 heq
        rw [hsio1, hio3] at heq
        have : sumBv prog (t + 1) = sumBv prog i - 1 := by omega
        exact hnohit (t + 1) (by omega) (by omega) this
    refine ⟨io, ?_, ?_⟩
    · unfold jumpDest; rw [hcl]; exact hfo
    · unfold jumpDest; rw [hopio]; exact hfc

/-- Witness for C8 at the program lexed from two nested bracket pairs. -/
theorem jump_table_involution_witness :
    balanced [JumpIfZero, JumpIfZero, JumpUnlessZero, JumpUnlessZero] ∧
    (0 : Nat) < 4 ∧
    ([JumpIfZero, JumpIfZero, JumpUnlessZero, JumpUnlessZero].getD 0 Nop = JumpIfZero ∨
     [JumpIfZero, JumpIfZero, JumpUnlessZero, JumpUnlessZero].getD 0 Nop = JumpUnlessZero) ∧
    ∃ j, jumpDest [JumpIfZero, JumpIfZero, JumpUnlessZero, JumpUnlessZero] 0 = some j ∧
         jumpDest [JumpIfZero, JumpIfZero, JumpUnlessZero, JumpUnlessZero] j = some 0 := by
  have hb : balanced [JumpIfZero, JumpIfZero, JumpUnlessZero, JumpUnlessZero] := by
    unfold balanced
    refine ⟨?_, by decide⟩
    decide
  refine ⟨hb, by omega, Or.inl rfl, ?_⟩
  exact jump_table_involution _ hb 0 (by decide) (Or.inl rfl)

/-! ### The interpreter state (struct State, src/interp.rs) -/

/-- Cell of src/interp.rs: a concrete byte or an input-tainted unknown. -/
inductive Cell where
  | Unknown
  | Val (x : Nat)
deriving DecidableEq, Repr

/-- LoopEnterState of src/interp.rs: the snapshot taken when the partial
evaluator enters an outermost loop. -/
structure LoopEnterState where
  tape : List Cell
  head_pos : Nat
  outputted_head_pos : Nat
  tape_offset : Int
  program_counter : Nat
  emitted_insts : List Instruction
deriving DecidableEq, Repr

/-- State of src/interp.rs (jump_dests is recomputed by jumpDest instead of
being stored). -/
structure State where
  tape : List Cell
  head_pos : Nat
  outputted_head_pos : Nat
  tape_offset : Int
  program_counter : Nat
  program : List Instruction
  execution_counter : List Nat
  loop_enter_state : Option LoopEnterState
  loop_level : Int
deriving DecidableEq, Repr

/-- State::new. -/
def State.new (program : List Instruction) : State where
  tape := [Cell.Val 0]
  head_pos := 0
  outputted_head_pos := 0
  tape_offset := 0
  program_counter := 0
  program := program
  execution_counter := List.replicate program.length 0
  loop_enter_state := none
  loop_level := 0

/-- The cell under the head. -/
def cellAt (st : State) : Cell := st.tape.getD st.head_pos (Cell.Val 0)

/-- State::move_right. -/
def move_right (st : State) : State where
  tape := if st.head_pos + 1 ≥ st.tape.length then st.tape ++ [Cell.Val 0] else st.tape
  head_pos := st.head_pos + 1
  outputted_head_pos := st.outputted_head_pos
  tape_offset := st.tape_offset
  program_counter := st.program_counter + 1
  program := st.program
  execution_counter := st.execution_counter
  loop_enter_state := st.loop_enter_state
  loop_level := st.loop_level

/-- State::move_left. -/
def move_left (st : State) : State :=
  if st.head_pos = 0 then
    { st with
      tape := Cell.Val 0 :: st.tape,
      tape_offset := st.tape_offset + 1,
      program_counter := st.program_counter + 1 }
  else
    { st with
      head_pos := st.head_pos - 1,
      program_counter := st.program_counter + 1 }

/-- State::increment (panics on an unknown cell). -/
def increment (st : State) : Option State :=
  match cellAt st with
  | Cell.Unknown => none
  | Cell.Val x => some { st with
      tape := st.tape.set st.head_pos (Cell.Val ((x + 1) % 256)),
      program_counter := st.program_counter + 1 }

/-- State::decrement (u8 wrapping subtraction). -/
def decrement (st : State) : Option State :=
  match cellAt st with
  | Cell.Unknown => none
  | Cell.Val x => some { st with
      tape := st.tape.set st.head_pos (Cell.Val ((x + 255) % 256)),
      program_counter := st.program_counter + 1 }

/-- State::jump_if_zero (panics on an unknown cell or a missing jump dest). -/
def jump_if_zero (st : State) : Option State :=
  match cellAt st with
  | Cell.Unknown => none
  | Cell.Val v =>
    if v = 0 then
      (jumpDest st.program st.program_counter).map
        (fun d => { st with program_counter := d })
    else some { st with program_counter := st.program_counter + 1 }

/-- State::jump_unless_zero. -/
def jump_unless_zero (st : State) : Option State :=
  match cellAt st with
  | Cell.Unknown => none
  | Cell.Val v =>
    if v ≠ 0 then
      (jumpDest st.program st.program_counter).map
        (fun d => { st with program_counter := d })
    else some { st with program_counter := st.program_counter + 1 }

/-- State::write: emit the concrete cell to the writer. -/
def writeOp (st : State) (output : List Nat) : Option (State × List Nat) :=
  match cellAt st with
  | Cell.Unknown => none
  | Cell.Val x =>
    some ({ st with program_counter := st.program_counter + 1 }, output ++ [x])

/-- State::read: take a byte from the reader; end-of-input yields 255. -/
def readOp (st : State) (input : List Nat) : State × List Nat :=
  match input with
  | [] => ({ st with
      tape := st.tape.set st.head_pos (Cell.Val 255),
      program_counter := st.program_counter + 1 }, [])
  | b :: rest => ({ st with
      tape := st.tape.set st.head_pos (Cell.Val b),
      program_counter := st.program_counter + 1 }, rest)

/-- The execution-counter increment done before each dispatch of interp. -/
def tickCounter (st : State) : State :=
  { st with
    execution_counter :=
      st.execution_counter.set st.program_counter (st.execution_counter.getD st.program_counter 0 + 1) }

/-- One iteration of the dispatch loop of State::interp; none models a
panic (an unhandled instruction, an unknown cell, or a missing jump dest).
The counter tick changes neither the program nor the program counter, so
dispatching on the pre-tick state reads the same opcode as the source. -/
def interpStep (st : State) (input output : List Nat) :
    Option (State × List Nat × List Nat) :=
  match st.program.getD st.program_counter Nop with
  | MoveRight => some (move_right (tickCounter st), input, output)
  | MoveLeft => some (move_left (tickCounter st), input, output)
  | Increment => (increment (tickCounter st)).map (fun s => (s, input, output))
  | Decrement => (decrement (tickCounter st)).map (fun s => (s, input, output))
  | Write => (writeOp (tickCounter st) output).map (fun p => (p.1, input, p.2))
  | Read => some ((readOp (tickCounter st) input).1, (readOp (tickCounter st) input).2, output)
  | JumpIfZero => (jump_if_zero (tickCounter st)).map (fun s => (s, input, output))
  | JumpUnlessZero => (jump_unless_zero (tickCounter st)).map (fun s => (s, input, output))
  | _ => none

/-- C9: in the concrete interpreter, Read at end-of-input is not an error:
it stores 255 in the cell under the head and advances the program counter,
behaving exactly like a successful read of the byte 255. -/
theorem read_eof_yields_255 (st : State) (input255 output : List Nat)
    (h : st.program.getD st.program_counter Nop = Read)
    (h255 : input255 = [255]) :
    interpStep st [] output =
      some ({ tickCounter st with
              tape := st.tape.set st.head_pos (Cell.Val 255),
              program_counter := st.program_counter + 1 }, [], output) ∧
    interpStep st [] output = interpStep st input255 output := by
  subst h255
  constructor
  · unfold interpStep
    rw [h]
    rfl
  · unfold interpStep
    rw [h]
    rfl

/-- Witness for C9 on the one-instruction program consisting of Read. -/
theorem read_eof_yields_255_witness :
    ((State.new [Read]).program.getD (State.new [Read]).program_counter Nop = Read ∧
      ([255] : List Nat) = [255]) ∧
    (interpStep (State.new [Read]) [] [] =
      some ({ tickCounter (State.new [Read]) with
              tape := [Cell.Val 255],
              program_counter := 1 }, [], []) ∧
     interpStep (State.new [Read]) [] [] = interpStep (State.new [Read]) [255] []) := by
  constructor
  · exact ⟨rfl, rfl⟩
  · exact read_eof_yields_255 (State.new [Read]) [255] [] rfl rfl

/-! ### The partial evaluator (State::partial_eval, src/interp.rs) -/

/-- State::sync_compiled_head_pos: when the real head differs from the last
head position materialized into the output buffer, emit a SetHeadPos of the
head adjusted by the tape-origin shift and record the new outputted head. -/
def syncHead (st : State) (insts : List Instruction) : State × List Instruction :=
  if st.head_pos ≠ st.outputted_head_pos then
    ({ st with outputted_head_pos := st.head_pos },
     insts ++ [SetHeadPos ((st.head_pos : Int) - st.tape_offset)])
  else (st, insts)

/-- One iteration of the main loop of partial_eval, on a non-stopping state;
the configuration is the interpreter state plus the emitted instruction
buffer.  none models a panic (unhandled opcode or missing jump dest); the
Unknown-cell jump arms are unreachable because the runner stops there first. -/
def pstep (st : State) (insts : List Instruction) : Option (State × List Instruction) :=
  match st.program.getD st.program_counter Nop with
  | MoveRight => some (move_right st, insts)
  | MoveLeft => some (move_left st, insts)
  | Increment =>
    match cellAt st with
    | Cell.Unknown =>
      let si := syncHead st insts
      some ({ si.1 with program_counter := st.program_counter + 1 }, si.2 ++ [Increment])
    | Cell.Val _ => (increment st).map (fun s => (s, insts))
  | Decrement =>
    match cellAt st with
    | Cell.Unknown =>
      let si := syncHead st insts
      some ({ si.1 with program_counter := st.program_counter + 1 }, si.2 ++ [Decrement])
    | Cell.Val _ => (decrement st).map (fun s => (s, insts))
  | Write =>
    match cellAt st with
    | Cell.Unknown =>
      let si := syncHead st insts
      some ({ si.1 with program_counter := st.program_counter + 1 }, si.2 ++ [Write])
    | Cell.Val x =>
      some ({ st with program_counter := st.program_counter + 1 }, insts ++ [Output x])
  | Read =>
    let si := syncHead st insts
    some ({ si.1 with
            tape := si.1.tape.set si.1.head_pos Cell.Unknown,
            program_counter := st.program_counter + 1 }, si.2 ++ [Read])
  | JumpIfZero =>
    match cellAt st with
    | Cell.Unknown => none
    | Cell.Val _ =>
      let st1 :=
        match st.loop_enter_state with
        | none => { st with
            loop_enter_state := some ⟨st.tape, st.head_pos, st.outputted_head_pos,
              st.tape_offset, st.program_counter, insts⟩ }
        | some _ => st
      (jump_if_zero { st1 with loop_level := st1.loop_level + 1 }).map (fun s => (s, insts))
  | JumpUnlessZero =>
    match cellAt st with
    | Cell.Unknown => none
    | Cell.Val _ =>
      (jump_unless_zero st).map (fun s =>
        let s2 := { s with loop_level := s.loop_level - 1 }
        (if s2.loop_level = 0 then { s2 with loop_enter_state := none } else s2, insts))
  | _ => none

/-- The stopping condition of the main loop of partial_eval: the program is
exhausted, or a jump is reached whose current cell is Unknown (the bail-out
breaks of the source). -/
def stopHere (st : State) : Bool :=
  if st.program_counter ≥ st.program.length then true
  else
    match st.program.getD st.program_counter Nop, cellAt st with
    | JumpIfZero, Cell.Unknown => true
    | JumpUnlessZero, Cell.Unknown => true
    | _, _ => false

/-- The main loop of partial_eval, driven by fuel (the source loop can run
forever on a diverging program); some is the state at the break. -/
def prunAux : Nat → State × List Instruction → Option (State × List Instruction)
  | 0, _ => none
  | n + 1, p => if stopHere p.1 then some p else (pstep p.1 p.2).bind (prunAux n)

/-- k successful steps of the main loop of partial_eval. -/
def pIter : Nat → State × List Instruction → Option (State × List Instruction)
  | 0, p => some p
  | k + 1, p => (pIter k p).bind (fun q => pstep q.1 q.2)

/-- The restore block of partial_eval: if the loop-entry snapshot is live at
the break, reset the tape, heads, origin shift, program counter and the
emitted buffer from it. -/
def restoreSnap (p : State × List Instruction) : State × List Instruction :=
  match p.1.loop_enter_state with
  | none => p
  | some s =>
    ({ p.1 with
        tape := s.tape,
        head_pos := s.head_pos,
        outputted_head_pos := s.outputted_head_pos,
        tape_offset := s.tape_offset,
        program_counter := s.program_counter }, s.emitted_insts)

/-- The tape-writeout loop of the finalization of partial_eval:
`for idx in 0..tape.len()`, emitting SetCell(idx - offset, x) for every
concrete cell and skipping Unknown cells. -/
def finCellsAux (tape : List Cell) (offset : Int) : Nat → Nat → List Instruction → List Instruction
  | _, 0, insts => insts
  | idx, n + 1, insts =>
    match tape.getD idx Cell.Unknown with
    | Cell.Unknown => finCellsAux tape offset (idx + 1) n insts
    | Cell.Val x => finCellsAux tape offset (idx + 1) n (insts ++ [SetCell ((idx : Int) - offset) x])

/-- The suffix-copy loop of the finalization of partial_eval:
`for pc in program_counter..program.len() { insts.push(program[pc]) }`. -/
def finSufAux (prog : List Instruction) : Nat → Nat → List Instruction → List Instruction
  | _, 0, insts => insts
  | pc, n + 1, insts => finSufAux prog (pc + 1) n (insts ++ [prog.getD pc Nop])

/-- The finalization of partial_eval: when the program counter has not
reached the end, sync the head and write out the concrete tape cells; then
copy the unexecuted suffix of the program verbatim.  (syncHead changes
neither the program nor the program counter, so the suffix loop below may
read them off the incoming state.) -/
def finalize (p : State × List Instruction) : List Instruction :=
  if p.1.program_counter < p.1.program.length then
    finSufAux p.1.program p.1.program_counter (p.1.program.length - p.1.program_counter)
      (finCellsAux (syncHead p.1 p.2).1.tape (syncHead p.1 p.2).1.tape_offset 0
        (syncHead p.1 p.2).1.tape.length (syncHead p.1 p.2).2)
  else
    finSufAux p.1.program p.1.program_counter (p.1.program.length - p.1.program_counter) p.2

/-- State::partial_eval, fuel-driven: run the main loop, restore from a live
snapshot, finalize.  none when the fuel does not reach the break point. -/
def peval (fuel : Nat) (prog : List Instruction) : Option (List Instruction) :=
  (prunAux fuel (State.new prog, [])).map (fun p => finalize (restoreSnap p))

/-! ### C2: abort/restore discipline of the partial evaluator -/

theorem pIter_succ_front (k : Nat) (p : State × List Instruction) :
    pIter (k + 1) p = (pstep p.1 p.2).bind (pIter k) := by
  induction k generalizing p with
  | zero =>
    show (pIter 0 p).bind (fun q => pstep q.1 q.2) = _
    cases h : pstep p.1 p.2 <;> simp [pIter, h]
  | succ k ih =>
    show (pIter (k + 1) p).bind (fun q => pstep q.1 q.2) = _
    rw [ih]
    cases h : pstep p.1 p.2 with
    | none => simp
    | some q =>
      simp only [Option.some_bind]
      rfl

theorem prunAux_to_pIter : ∀ (n : Nat) (p p' : State × List Instruction),
    prunAux n p = some p' →
    ∃ k, pIter k p = some p' ∧ stopHere p'.1 = true := by
  intro n
  induction n with
  | zero => intro p p' h; simp [prunAux] at h
  | succ n ih =>
    intro p p' h
    unfold prunAux at h
    by_cases hs : stopHere p.1
    · rw [if_pos hs] at h
      exact ⟨0, by rw [← Option.some.inj h]; rfl, by rw [← Option.some.inj h]; exact hs⟩
    · rw [if_neg hs] at h
      cases hq : pstep p.1 p.2 with
      | none => rw [hq] at h; simp at h
      | some q =>
        rw [hq] at h
        simp only [Option.some_bind] at h
        obtain ⟨k, hk1, hk2⟩ := ih q p' h
        exact ⟨k + 1, by rw [pIter_succ_front, hq]; simpa using hk1, hk2⟩

theorem jump_if_zero_snap (st s : State) (h : jump_if_zero st = some s) :
    s.loop_enter_state = st.loop_enter_state := by
  unfold jump_if_zero at h
  split at h
  · exact absurd h (by simp)
  · split at h
    · cases hd : jumpDest st.program st.program_counter with
      | none => rw [hd] at h; exact absurd h (by simp)
      | some d =>
        rw [hd, Option.map_some'] at h
        rw [← Option.some.inj h]
    · rw [← Option.some.inj h]

theorem jump_unless_zero_parts (st s : State) (h : jump_unless_zero st = some s) :
    s.loop_enter_state = st.loop_enter_state ∧ s.loop_level = st.loop_level := by
  unfold jump_unless_zero at h
  split at h
  · exact absurd h (by simp)
  · split at h
    · cases hd : jumpDest st.program st.program_counter with
      | none => rw [hd] at h; exact absurd h (by simp)
      | some d =>
        rw [hd, Option.map_some'] at h
        rw [← Option.some.inj h]
        exact ⟨rfl, rfl⟩
    · rw [← Option.some.inj h]
      exact ⟨rfl, rfl⟩

theorem increment_of_val (st : State) (x : Nat) (h : cellAt st = Cell.Val x) :
    increment st = some { st with
      tape := st.tape.set st.head_pos (Cell.Val ((x + 1) % 256)),
      program_counter := st.program_counter + 1 } := by
  unfold increment; rw [h]

theorem decrement_of_val (st : State) (x : Nat) (h : cellAt st = Cell.Val x) :
    decrement st = some { st with
      tape := st.tape.set st.head_pos (Cell.Val ((x + 255) % 256)),
      program_counter := st.program_counter + 1 } := by
  unfold decrement; rw [h]

theorem syncHead_snap (st : State) (insts : List Instruction) :
    (syncHead st insts).1.loop_enter_state = st.loop_enter_state := by
  unfold syncHead; split <;> rfl

/-- How one partial-evaluation step treats the loop-entry snapshot: it is
kept unchanged, or created at an outermost JumpIfZero with the current
state's fields, or discarded. -/
theorem pstep_snap (st : State) (insts : List Instruction)
    (p' : State × List Instruction) (h : pstep st insts = some p') :
    p'.1.loop_enter_state = st.loop_enter_state ∨
    (st.loop_enter_state = none ∧
      p'.1.loop_enter_state = some ⟨st.tape, st.head_pos, st.outputted_head_pos,
        st.tape_offset, st.program_counter, insts⟩ ∧
      st.program.getD st.program_counter Nop = JumpIfZero ∧
      ∃ v, cellAt st = Cell.Val v) ∨
    p'.1.loop_enter_state = none := by
  cases hop : st.program.getD st.program_counter Nop <;>
    simp only [pstep, hop] at h <;>
    try exact Option.noConfusion h
  case MoveRight =>
    left; rw [← Option.some.inj h]; rfl
  case MoveLeft =>
    left; rw [← Option.some.inj h]
    unfold move_left; split <;> rfl
  case Increment =>
    cases hc : cellAt st with
    | Unknown =>
      rw [hc] at h
      left; rw [← Option.some.inj h]
      exact syncHead_snap st insts
    | Val x =>
      rw [hc] at h
      rw [increment_of_val st x hc] at h
      rw [Option.map_some'] at h
      left; rw [← Option.some.inj h]
  case Decrement =>
    cases hc : cellAt st with
    | Unknown =>
      rw [hc] at h
      left; rw [← Option.some.inj h]
      exact syncHead_snap st insts
    | Val x =>
      rw [hc] at h
      rw [decrement_of_val st x hc] at h
      rw [Option.map_some'] at h
      left; rw [← Option.some.inj h]
  case Write =>
    cases hc : cellAt st with
    | Unknown =>
      rw [hc] at h
      left; rw [← Option.some.inj h]
      exact syncHead_snap st insts
    | Val x =>
      rw [hc] at h
      left; rw [← Option.some.inj h]
  case Read =>
    left; rw [← Option.some.inj h]
    exact syncHead_snap st insts
  case JumpIfZero =>
    cases hc : cellAt st with
    | Unknown => rw [hc] at h; exact Option.noConfusion h
    | Val v =>
      rw [hc] at h
      cases hsnap : st.loop_enter_state with
      | none =>
        rw [hsnap] at h
        cases hj : jump_if_zero { st with
            loop_enter_state := some ⟨st.tape, st.head_pos, st.outputted_head_pos,
              st.tape_offset, st.program_counter, insts⟩,
            loop_level := st.loop_level + 1 } with
        | none => rw [hj] at h; exact Option.noConfusion h
        | some s =>
          rw [hj] at h
          rw [Option.map_some'] at h
          have hs := jump_if_zero_snap _ _ hj
          right; left
          refine ⟨rfl, ?_, rfl, ⟨v, rfl⟩⟩
          rw [← Option.some.inj h]
          exact hs
      | some s0 =>
        rw [hsnap] at h
        cases hj : jump_if_zero { st with loop_level := st.loop_level + 1 } with
        | none => rw [hj] at h; exact Option.noConfusion h
        | some s =>
          rw [hj] at h
          rw [Option.map_some'] at h
          have hs := jump_if_zero_snap _ _ hj
          left
          rw [← Option.some.inj h]
          rw [hs, hsnap]
  case JumpUnlessZero =>
    cases hc : cellAt st with
    | Unknown => rw [hc] at h; exact Option.noConfusion h
    | Val v =>
      rw [hc] at h
      cases hj : jump_unless_zero st with
      | none => rw [hj] at h; exact Option.noConfusion h
      | some s =>
        rw [hj] at h
        rw [Option.map_some'] at h
        obtain ⟨hs1, _⟩ := jump_unless_zero_parts _ _ hj
        rw [← Option.some.inj h]
        by_cases hl : s.loop_level - 1 = 0
        · rw [if_pos hl]; right; right; rfl
        · rw [if_neg hl]; left; exact hs1

/-- Along any run of the partial evaluator, a live snapshot was taken at a
reachable state that sat on a JumpIfZero with a concrete cell and no live
snapshot (the entry of the outermost enclosing loop), and it records exactly
that state's tape, heads, origin shift, program counter and emitted buffer. -/
theorem snap_inv (prog : List Instruction) :
    ∀ (k : Nat) (p : State × List Instruction),
      pIter k (State.new prog, []) = some p →
      ∀ s, p.1.loop_enter_state = some s →
      ∃ m X, pIter m (State.new prog, []) = some X ∧
        X.1.loop_enter_state = none ∧
        X.1.program.getD X.1.program_counter Nop = JumpIfZero ∧
        (∃ v, cellAt X.1 = Cell.Val v) ∧
        s.tape = X.1.tape ∧ s.head_pos = X.1.head_pos ∧
        s.outputted_head_pos = X.1.outputted_head_pos ∧
        s.tape_offset = X.1.tape_offset ∧
        s.program_counter = X.1.program_counter ∧
        s.emitted_insts = X.2 := by
  intro k
  induction k with
  | zero =>
    intro p hp s hs
    rw [← Option.some.inj hp] at hs
    exact Option.noConfusion hs
  | succ k ih =>
    intro p hp s hs
    simp only [pIter] at hp
    cases hq : pIter k (State.new prog, []) with
    | none => rw [hq] at hp; exact Option.noConfusion hp
    | some q =>
      rw [hq, Option.some_bind] at hp
      rcases pstep_snap q.1 q.2 p hp with hkeep | hmade | hnone
      · rw [hkeep] at hs
        exact ih q hq s hs
      · obtain ⟨hqnone, hset, hopq, v, hv⟩ := hmade
        rw [hset] at hs
        have hs' := Option.some.inj hs
        refine ⟨k, q, hq, hqnone, hopq, ⟨v, hv⟩, ?_⟩
        rw [← hs']
        exact ⟨rfl, rfl, rfl, rfl, rfl, rfl⟩
      · rw [hnone] at hs
        exact Option.noConfusion hs

/-- C2: if the partial evaluator stops at a jump with a live snapshot, then
the state handed to finalization (after the restore block) carries exactly
the tape, head, outputted head, origin shift, program counter and emitted
buffer of the reachable state at which the outermost enclosing loop was
entered (the state whose JumpIfZero created the snapshot while none was
live) - as if that loop had never been entered. -/
theorem pe_abort_restores (prog : List Instruction) (fuel : Nat)
    (p' : State × List Instruction) (s : LoopEnterState)
    (hrun : prunAux fuel (State.new prog, []) = some p')
    (hsnap : p'.1.loop_enter_state = some s)
    (_habort : p'.1.program_counter < p'.1.program.length) :
    ∃ m X, pIter m (State.new prog, []) = some X ∧
      X.1.loop_enter_state = none ∧
      X.1.program.getD X.1.program_counter Nop = JumpIfZero ∧
      (∃ v, cellAt X.1 = Cell.Val v) ∧
      (restoreSnap p').1.tape = X.1.tape ∧
      (restoreSnap p').1.head_pos = X.1.head_pos ∧
      (restoreSnap p').1.outputted_head_pos = X.1.outputted_head_pos ∧
      (restoreSnap p').1.tape_offset = X.1.tape_offset ∧
      (restoreSnap p').1.program_counter = X.1.program_counter ∧
      (restoreSnap p').2 = X.2 ∧
      peval fuel prog = some (finalize (restoreSnap p')) := by
  obtain ⟨k, hk, _⟩ := prunAux_to_pIter fuel _ p' hrun
  obtain ⟨m, X, h1, h2, h3, h4, f1, f2, f3, f4, f5, f6⟩ := snap_inv prog k p' hk s hsnap
  have hres : restoreSnap p' =
      ({ p'.1 with
          tape := s.tape,
          head_pos := s.head_pos,
          outputted_head_pos := s.outputted_head_pos,
          tape_offset := s.tape_offset,
          program_counter := s.program_counter }, s.emitted_insts) := by
    unfold restoreSnap
    rw [hsnap]
  refine ⟨m, X, h1, h2, h3, h4, ?_, ?_, ?_, ?_, ?_, ?_, ?_⟩
  · rw [hres]; exact f1
  · rw [hres]; exact f2
  · rw [hres]; exact f3
  · rw [hres]; exact f4
  · rw [hres]; exact f5
  · rw [hres]; exact f6
  · unfold peval
    rw [hrun]
    rfl

/-- The program of the C2 witness: the lexing of the nested-loop program
whose inner loop entry reads an input-tainted cell. -/
def c2prog : List Instruction :=
  [MoveRight, Increment, Increment, Increment, JumpIfZero, Decrement, MoveRight,
   Read, JumpIfZero, Decrement, MoveRight, Increment, MoveLeft, JumpUnlessZero,
   JumpUnlessZero, MoveRight, Write]

/-- The snapshot live at the break of the C2 witness run. -/
def c2snap : LoopEnterState :=
  ⟨[Cell.Val 0, Cell.Val 3], 1, 0, 0, 4, []⟩

/-- The break state of the C2 witness run. -/
def c2break : State × List Instruction :=
  (⟨[Cell.Val 0, Cell.Val 2, Cell.Unknown], 2, 2, 0, 8, c2prog,
    List.replicate 17 0, some c2snap, 1⟩,
   [SetHeadPos 2, Read])

/-- Witness for C2 on a nested loop aborted by a Read-tainted inner entry. -/
theorem pe_abort_restores_witness :
    (prunAux 200 (State.new c2prog, []) = some c2break ∧
     c2break.1.loop_enter_state = some c2snap ∧
     c2break.1.program_counter < c2break.1.program.length) ∧
    (∃ m X, pIter m (State.new c2prog, []) = some X ∧
      X.1.loop_enter_state = none ∧
      X.1.program.getD X.1.program_counter Nop = JumpIfZero ∧
      (∃ v, cellAt X.1 = Cell.Val v) ∧
      (restoreSnap c2break).1.tape = X.1.tape ∧
      (restoreSnap c2break).1.head_pos = X.1.head_pos ∧
      (restoreSnap c2break).1.outputted_head_pos = X.1.outputted_head_pos ∧
      (restoreSnap c2break).1.tape_offset = X.1.tape_offset ∧
      (restoreSnap c2break).1.program_counter = X.1.program_counter ∧
      (restoreSnap c2break).2 = X.2 ∧
      peval 200 c2prog = some (finalize (restoreSnap c2break))) :=
  ⟨⟨by decide, by decide, by decide⟩,
   pe_abort_restores c2prog 200 c2break c2snap (by decide) (by decide) (by decide)⟩

/-! ### C3: shape of the finalized residual buffer -/

/-- The head-sync emission of the finalization, as an explicit list. -/
def headSyncList (st : State) : List Instruction :=
  if st.head_pos ≠ st.outputted_head_pos then
    [SetHeadPos ((st.head_pos : Int) - st.tape_offset)]
  else []

/-- One SetCell(i - origin shift, v) for every concrete cell of the
symbolic tape, in tape order, Unknown cells skipped: a direct structural
description of the cell-writeout segment. -/
def cellListGo (offset : Int) (i : Nat) : List Cell -> List Instruction
  | [] => []
  | Cell.Unknown :: rest => cellListGo offset (i + 1) rest
  | Cell.Val x :: rest => SetCell ((i : Int) - offset) x :: cellListGo offset (i + 1) rest

/-- The cell-writeout segment of a state's symbolic tape. -/
def cellList (st : State) : List Instruction := cellListGo st.tape_offset 0 st.tape

theorem drop_eq_getD_cons {a : Type} (d : a) :
    forall (l : List a) (n : Nat), n < l.length -> l.drop n = l.getD n d :: l.drop (n + 1) := by
  intro l
  induction l with
  | nil => intro n h; simp at h
  | cons a t ih =>
    intro n h
    cases n with
    | zero => rfl
    | succ k => simpa using ih k (by simpa using h)

theorem finCellsAux_step (tape : List Cell) (offset : Int) (idx n : Nat)
    (insts : List Instruction) :
    finCellsAux tape offset idx (n + 1) insts =
      match tape.getD idx Cell.Unknown with
      | Cell.Unknown => finCellsAux tape offset (idx + 1) n insts
      | Cell.Val x => finCellsAux tape offset (idx + 1) n (insts ++ [SetCell ((idx : Int) - offset) x]) :=
  rfl

theorem finCellsAux_unknown (tape : List Cell) (offset : Int) (idx n : Nat)
    (insts : List Instruction) (h : tape.getD idx Cell.Unknown = Cell.Unknown) :
    finCellsAux tape offset idx (n + 1) insts = finCellsAux tape offset (idx + 1) n insts := by
  conv_lhs => rw [finCellsAux_step tape offset idx n insts]
  rw [h]

theorem finCellsAux_val (tape : List Cell) (offset : Int) (idx n : Nat)
    (insts : List Instruction) (x : Nat) (h : tape.getD idx Cell.Unknown = Cell.Val x) :
    finCellsAux tape offset idx (n + 1) insts =
      finCellsAux tape offset (idx + 1) n (insts ++ [SetCell ((idx : Int) - offset) x]) := by
  conv_lhs => rw [finCellsAux_step tape offset idx n insts]
  rw [h]

theorem finCells_go : forall (rest pre : List Cell) (offset : Int) (insts : List Instruction),
    finCellsAux (pre ++ rest) offset pre.length rest.length insts =
      insts ++ cellListGo offset pre.length rest := by
  intro rest
  induction rest with
  | nil => intro pre offset insts; simp [finCellsAux, cellListGo]
  | cons c rest ih =>
    intro pre offset insts
    have hget : (pre ++ c :: rest).getD pre.length Cell.Unknown = c := by
      have h0 := getD_append_add pre (c :: rest) 0 Cell.Unknown
      simpa using h0
    have hassoc : pre ++ c :: rest = (pre ++ [c]) ++ rest := by simp
    have hlen : pre.length + 1 = (pre ++ [c]).length := by simp
    simp only [List.length_cons]
    cases c with
    | Unknown =>
      rw [finCellsAux_unknown _ _ _ _ _ hget]
      rw [hassoc, hlen, ih (pre ++ [Cell.Unknown]) offset insts]
      simp [cellListGo]
    | Val x =>
      rw [finCellsAux_val _ _ _ _ _ _ hget]
      rw [hassoc, hlen,
        ih (pre ++ [Cell.Val x]) offset (insts ++ [SetCell ((pre.length : Int) - offset) x])]
      simp [cellListGo]

theorem finCells_cellList (tape : List Cell) (offset : Int) (insts : List Instruction) :
    finCellsAux tape offset 0 tape.length insts = insts ++ cellListGo offset 0 tape := by
  have h := finCells_go tape [] offset insts
  simpa using h

theorem finSuf_drop (prog : List Instruction) :
    ∀ (n pc : Nat) (insts : List Instruction), n = prog.length - pc →
      finSufAux prog pc n insts = insts ++ prog.drop pc := by
  intro n
  induction n with
  | zero =>
    intro pc insts h
    have hle : prog.length ≤ pc := by omega
    simp [finSufAux, List.drop_eq_nil_of_le hle]
  | succ n ih =>
    intro pc insts h
    have hpc : pc < prog.length := by omega
    show finSufAux prog (pc + 1) n (insts ++ [prog.getD pc Nop]) = _
    rw [ih (pc + 1) _ (by omega), drop_eq_getD_cons Nop prog pc hpc]
    simp

theorem syncHead_parts (st : State) (insts : List Instruction) :
    (syncHead st insts).2 = insts ++ headSyncList st ∧
    (syncHead st insts).1.tape = st.tape ∧
    (syncHead st insts).1.tape_offset = st.tape_offset ∧
    (syncHead st insts).1.program = st.program ∧
    (syncHead st insts).1.program_counter = st.program_counter := by
  unfold syncHead headSyncList
  split <;> simp

/-- C3 (amended): whenever the partial evaluator's main loop stops, the
returned residual buffer is the restored emitted buffer, then - only when
the program counter has not reached the end of the program - a head sync
(emitted when the outputted head differs from the real head) followed by
one SetCell(i - origin shift, v) per concrete cell of the symbolic tape
(Unknown cells skipped), then the unexecuted program suffix from the
current pc, copied verbatim. -/
theorem pe_finalization_shape (prog : List Instruction) (fuel : Nat)
    (p' : State × List Instruction)
    (hrun : prunAux fuel (State.new prog, []) = some p') :
    peval fuel prog = some (
      (restoreSnap p').2 ++
      (if (restoreSnap p').1.program_counter < (restoreSnap p').1.program.length
       then headSyncList (restoreSnap p').1 ++ cellList (restoreSnap p').1
       else []) ++
      (restoreSnap p').1.program.drop (restoreSnap p').1.program_counter) := by
  unfold peval
  rw [hrun, Option.map_some']
  congr 1
  unfold finalize
  obtain ⟨e1, e2, e3, e4, e5⟩ := syncHead_parts (restoreSnap p').1 (restoreSnap p').2
  by_cases hpc : (restoreSnap p').1.program_counter < (restoreSnap p').1.program.length
  · rw [if_pos hpc, if_pos hpc]
    rw [e2, e3, e1, finCells_cellList, finSuf_drop _ _ _ _ rfl]
    unfold cellList
    simp
  · rw [if_neg hpc, if_neg hpc]
    rw [finSuf_drop _ _ _ _ rfl]
    simp

/-- C3 counterexample: on the program [Increment, Write] the evaluator
reaches the end of the program with the concrete cell Val 1 on the symbolic
tape, yet the returned buffer is [Output 1] and contains no SetCell at all -
against the unconditional cell-writeout of the claim. -/
theorem pe_finalization_cex :
    peval 10 [Increment, Write] = some [Output 1] ∧
    (prunAux 10 (State.new [Increment, Write], [])).map
      (fun p => (restoreSnap p).1.tape) = some [Cell.Val 1] ∧
    SetCell 0 1 ∉ [Output 1] := by
  refine ⟨by decide, by decide, by decide⟩

/-- The program of the C3 witness (an abort at a loop entry tainted by Read). -/
def c3prog : List Instruction :=
  [Read, JumpIfZero, Decrement, MoveRight, Increment, MoveLeft, JumpUnlessZero,
   MoveRight, Write]

/-- The break state of the C3 witness run. -/
def c3break : State × List Instruction :=
  (⟨[Cell.Unknown], 0, 0, 0, 1, c3prog, List.replicate 9 0, none, 0⟩, [Read])

/-- Witness for C3 (amended) on the program of the C3 witness. -/
theorem pe_finalization_shape_witness :
    prunAux 50 (State.new c3prog, []) = some c3break ∧
    peval 50 c3prog = some (
      (restoreSnap c3break).2 ++
      (if (restoreSnap c3break).1.program_counter < (restoreSnap c3break).1.program.length
       then headSyncList (restoreSnap c3break).1 ++ cellList (restoreSnap c3break).1
       else []) ++
      (restoreSnap c3break).1.program.drop (restoreSnap c3break).1.program_counter) :=
  ⟨by decide, pe_finalization_shape c3prog 50 c3break (by decide)⟩

/-! ### Dispatch equations for the simplify_loops step -/

theorem slStep_jiz (c : SCfg) (h : c.prog.getD c.pc Nop = JumpIfZero) :
    slStep c = { c with pc := c.pc + 1, in_loop := true, st := ⟨c.pc, 0, []⟩ } := by
  unfold slStep; rw [h]

theorem slStep_ml (c : SCfg) (h : c.prog.getD c.pc Nop = MoveLeft)
    (hin : c.in_loop = true) :
    slStep c = { c with
      pc := c.pc + 1,
      st := { c.st with head_delta := c.st.head_delta - 1 } } := by
  unfold slStep; rw [h, hin]; rfl

theorem slStep_mr (c : SCfg) (h : c.prog.getD c.pc Nop = MoveRight)
    (hin : c.in_loop = true) :
    slStep c = { c with
      pc := c.pc + 1,
      st := { c.st with head_delta := c.st.head_delta + 1 } } := by
  unfold slStep; rw [h, hin]; rfl

theorem slStep_inc (c : SCfg) (h : c.prog.getD c.pc Nop = Increment)
    (hin : c.in_loop = true) :
    slStep c = { c with
      pc := c.pc + 1,
      st := { c.st with ptr_changes := incEntry c.st.ptr_changes c.st.head_delta 1 } } := by
  unfold slStep; rw [h, hin]; rfl

theorem slStep_dec (c : SCfg) (h : c.prog.getD c.pc Nop = Decrement)
    (hin : c.in_loop = true) :
    slStep c = { c with
      pc := c.pc + 1,
      st := { c.st with ptr_changes := incEntry c.st.ptr_changes c.st.head_delta (-1) } } := by
  unfold slStep; rw [h, hin]; rfl

theorem slStep_juz_notin (c : SCfg) (h : c.prog.getD c.pc Nop = JumpUnlessZero)
    (hin : c.in_loop = false) :
    slStep c = { c with pc := c.pc + 1 } := by
  unfold slStep; rw [h, hin]; rfl

theorem slStep_juz_hd (c : SCfg) (h : c.prog.getD c.pc Nop = JumpUnlessZero)
    (hin : c.in_loop = true) (hhd : c.st.head_delta ≠ 0) :
    slStep c = { c with pc := c.pc + 1, in_loop := false } := by
  unfold slStep; rw [h, hin]
  rw [if_pos hhd]
  rfl

theorem slStep_juz_some (c : SCfg) (v : Int)
    (h : c.prog.getD c.pc Nop = JumpUnlessZero)
    (hin : c.in_loop = true) (hhd : c.st.head_delta = 0)
    (hv : lookupEntry c.st.ptr_changes 0 = some v) :
    slStep c = if v = 1 ∨ v = -1 then
      { c with
        prog := (writeChanges (decide (v = -1)) c.st.ptr_changes
            (setRangeNop c.prog c.st.start_pc (c.pc + 1 - c.st.start_pc)) c.st.start_pc
            (sortedKeys c.st.ptr_changes)).1.set
          (writeChanges (decide (v = -1)) c.st.ptr_changes
            (setRangeNop c.prog c.st.start_pc (c.pc + 1 - c.st.start_pc)) c.st.start_pc
            (sortedKeys c.st.ptr_changes)).2 Zero,
        pc := c.pc + 1,
        in_loop := false }
    else { c with pc := c.pc + 1, in_loop := false } := by
  unfold slStep
  rw [h, hin, hhd, hv]
  rfl

theorem slStep_juz_badv (c : SCfg) (v : Int)
    (h : c.prog.getD c.pc Nop = JumpUnlessZero)
    (hin : c.in_loop = true) (hhd : c.st.head_delta = 0)
    (hv : lookupEntry c.st.ptr_changes 0 = some v)
    (hv1 : ¬(v = 1 ∨ v = -1)) :
    slStep c = { c with pc := c.pc + 1, in_loop := false } := by
  rw [slStep_juz_some c v h hin hhd hv, if_neg hv1]

theorem slStep_juz_nokey (c : SCfg)
    (h : c.prog.getD c.pc Nop = JumpUnlessZero)
    (hin : c.in_loop = true) (hhd : c.st.head_delta = 0)
    (hv : lookupEntry c.st.ptr_changes 0 = none) :
    slStep c = { c with pc := c.pc + 1, in_loop := false } := by
  unfold slStep
  rw [h, hin, hhd, hv]
  rfl

/-- Which opcodes keep the in_loop flag of simplify_loops unchanged. -/
def slKeeps : Instruction → Bool
  | MoveLeft => true
  | MoveRight => true
  | Increment => true
  | Decrement => true
  | _ => false

theorem slStep_nonjump (c : SCfg)
    (h1 : c.prog.getD c.pc Nop ≠ JumpIfZero)
    (h2 : c.prog.getD c.pc Nop ≠ JumpUnlessZero) :
    (slStep c).prog = c.prog ∧ (slStep c).pc = c.pc + 1 ∧
    (slStep c).st.start_pc = c.st.start_pc ∧
    (slStep c).in_loop = (c.in_loop && slKeeps (c.prog.getD c.pc Nop)) := by
  cases hb : c.in_loop <;> cases hop : c.prog.getD c.pc Nop <;>
    first
      | exact absurd hop h1
      | exact absurd hop h2
      | (unfold slStep; rw [hop, hb]; exact ⟨rfl, rfl, rfl, rfl⟩)

/-! ### The commit writes as one contiguous overwrite -/

/-- Overwrite consecutive positions starting at w with the given list. -/
def setSeq (prog : List Instruction) (w : Nat) : List Instruction → List Instruction
  | [] => prog
  | i :: rest => setSeq (prog.set w i) (w + 1) rest

/-- The copies written for one offset: |v| repetitions of the Add/Sub chosen
by the sign rule of the commit branch. -/
def copiesFor (dec : Bool) (d v : Int) : List Instruction :=
  List.replicate v.natAbs
    (if dec then (if v > 0 then Add d else Sub d) else (if v > 0 then Sub d else Add d))

/-- All copies written by the commit, offsets taken in key order, offset 0
skipped. -/
def flatCopies (dec : Bool) (m : List (Int × Int)) : List Int → List Instruction
  | [] => []
  | k :: keys =>
    if k = 0 then flatCopies dec m keys
    else copiesFor dec k ((lookupEntry m k).getD 0) ++ flatCopies dec m keys

theorem writeN_eq_setSeq (inst : Instruction) :
    ∀ (n : Nat) (prog : List Instruction) (w : Nat),
      writeN prog w inst n = setSeq prog w (List.replicate n inst) := by
  intro n
  induction n with
  | zero => intro prog w; rfl
  | succ n ih => intro prog w; rw [List.replicate_succ]; exact ih (prog.set w inst) (w + 1)

theorem setSeq_append (L1 L2 : List Instruction) :
    ∀ (prog : List Instruction) (w : Nat),
      setSeq prog w (L1 ++ L2) = setSeq (setSeq prog w L1) (w + L1.length) L2 := by
  induction L1 with
  | nil => intro prog w; rfl
  | cons i rest ih =>
    intro prog w
    show setSeq (prog.set w i) (w + 1) (rest ++ L2) = _
    rw [ih (prog.set w i) (w + 1)]
    have : w + 1 + rest.length = w + (rest.length + 1) := by omega
    rw [this]
    rfl

theorem writeChanges_eq (dec : Bool) (m : List (Int × Int)) :
    ∀ (keys : List Int) (prog : List Instruction) (w : Nat),
      writeChanges dec m prog w keys =
        (setSeq prog w (flatCopies dec m keys), w + (flatCopies dec m keys).length) := by
  intro keys
  induction keys with
  | nil => intro prog w; simp [writeChanges, flatCopies, setSeq]
  | cons k keys ih =>
    intro prog w
    by_cases hk : k = 0
    · simp only [writeChanges, flatCopies, if_pos hk]
      exact ih prog w
    · simp only [writeChanges, flatCopies, if_neg hk]
      rw [ih, writeN_eq_setSeq, setSeq_append]
      simp only [copiesFor, List.length_replicate, List.length_append, Prod.mk.injEq]
      constructor
      · trivial
      · omega

theorem setSeq_length (L : List Instruction) :
    ∀ (prog : List Instruction) (w : Nat), (setSeq prog w L).length = prog.length := by
  induction L with
  | nil => intro prog w; rfl
  | cons i rest ih => intro prog w; rw [setSeq, ih, List.length_set]

theorem setSeq_getD_lt (L : List Instruction) :
    ∀ (prog : List Instruction) (w j : Nat) (d : Instruction), j < w →
      (setSeq prog w L).getD j d = prog.getD j d := by
  induction L with
  | nil => intro prog w j d _; rfl
  | cons i rest ih =>
    intro prog w j d hj
    rw [setSeq, ih _ _ _ _ (by omega), getD_set_ne _ _ _ _ _ (by omega)]

theorem setSeq_getD_ge (L : List Instruction) :
    ∀ (prog : List Instruction) (w j : Nat) (d : Instruction), w + L.length ≤ j →
      (setSeq prog w L).getD j d = prog.getD j d := by
  induction L with
  | nil => intro prog w j d _; rfl
  | cons i rest ih =>
    intro prog w j d hj
    simp only [List.length_cons] at hj
    rw [setSeq, ih _ _ _ _ (by omega), getD_set_ne _ _ _ _ _ (by omega)]

theorem setSeq_getD_in (L : List Instruction) :
    ∀ (prog : List Instruction) (w k : Nat) (d : Instruction),
      k < L.length → w + k < prog.length →
      (setSeq prog w L).getD (w + k) d = L.getD k d := by
  induction L with
  | nil => intro prog w k d hk _; simp at hk
  | cons i rest ih =>
    intro prog w k d hk hlen
    cases k with
    | zero =>
      rw [setSeq, setSeq_getD_lt rest _ _ _ _ (by omega)]
      simpa using getD_set_eq prog w i d (by omega)
    | succ k' =>
      have := ih (prog.set w i) (w + 1) k' d (by simpa using hk)
        (by rw [List.length_set]; omega)
      rw [setSeq]
      rw [show w + (k' + 1) = w + 1 + k' from by omega]
      rw [this]
      rfl

theorem setRangeNop_getD_lt :
    ∀ (n : Nat) (prog : List Instruction) (a j : Nat) (d : Instruction), j < a →
      (setRangeNop prog a n).getD j d = prog.getD j d := by
  intro n
  induction n with
  | zero => intro prog a j d _; rfl
  | succ n ih =>
    intro prog a j d hj
    rw [setRangeNop, ih _ _ _ _ (by omega), getD_set_ne _ _ _ _ _ (by omega)]

theorem setRangeNop_getD_ge :
    ∀ (n : Nat) (prog : List Instruction) (a j : Nat) (d : Instruction), a + n ≤ j →
      (setRangeNop prog a n).getD j d = prog.getD j d := by
  intro n
  induction n with
  | zero => intro prog a j d _; rfl
  | succ n ih =>
    intro prog a j d hj
    rw [setRangeNop, ih _ _ _ _ (by omega), getD_set_ne _ _ _ _ _ (by omega)]

theorem setRangeNop_getD_in :
    ∀ (n : Nat) (prog : List Instruction) (a j : Nat) (d : Instruction),
      a ≤ j → j < a + n → j < prog.length →
      (setRangeNop prog a n).getD j d = Nop := by
  intro n
  induction n with
  | zero => intro prog a j d h1 h2 _; omega
  | succ n ih =>
    intro prog a j d h1 h2 hlen
    by_cases hja : j = a
    · rw [setRangeNop, setRangeNop_getD_lt _ _ _ _ _ (by omega), hja]
      exact getD_set_eq prog a Nop d (by omega)
    · rw [setRangeNop]
      exact ih _ _ _ _ (by omega) (by omega) (by rw [List.length_set]; omega)

theorem slStep_commit (c : SCfg) (v : Int)
    (h : c.prog.getD c.pc Nop = JumpUnlessZero)
    (hin : c.in_loop = true) (hhd : c.st.head_delta = 0)
    (hv : lookupEntry c.st.ptr_changes 0 = some v) (hv1 : v = 1 ∨ v = -1) :
    slStep c = { c with
      prog := (setSeq (setRangeNop c.prog c.st.start_pc (c.pc + 1 - c.st.start_pc))
          c.st.start_pc
          (flatCopies (decide (v = -1)) c.st.ptr_changes (sortedKeys c.st.ptr_changes))).set
        (c.st.start_pc +
          (flatCopies (decide (v = -1)) c.st.ptr_changes (sortedKeys c.st.ptr_changes)).length)
        Zero,
      pc := c.pc + 1,
      in_loop := false } := by
  rw [slStep_juz_some c v h hin hhd hv, if_pos hv1, writeChanges_eq]

/-! ### Size bookkeeping for the commit -/

/-- Total variation of the ptr_changes map: the sum of the absolute value
deltas. -/
def tvList : List (Int × Int) → Nat
  | [] => 0
  | (_, v) :: rest => v.natAbs + tvList rest

theorem tvList_incEntry : ∀ (m : List (Int × Int)) (k delta : Int),
    tvList (incEntry m k delta) ≤ tvList m + delta.natAbs := by
  intro m
  induction m with
  | nil => intro k delta; simp [incEntry, tvList]
  | cons kv rest ih =>
    intro k delta
    obtain ⟨k', v⟩ := kv
    by_cases hk : k' = k
    · simp only [incEntry, if_pos hk, tvList]
      have := Int.natAbs_add_le v delta
      omega
    · simp only [incEntry, if_neg hk, tvList]
      have := ih k delta
      omega

theorem mem_keys_incEntry : ∀ (m : List (Int × Int)) (k delta x : Int),
    x ∈ (incEntry m k delta).map Prod.fst → x ∈ m.map Prod.fst ∨ x = k := by
  intro m
  induction m with
  | nil => intro k delta x hx; simp [incEntry] at hx; right; exact hx
  | cons kv rest ih =>
    intro k delta x hx
    obtain ⟨k', v⟩ := kv
    by_cases hk : k' = k
    · simp only [incEntry, if_pos hk] at hx
      simp at hx ⊢
      tauto
    · simp only [incEntry, if_neg hk] at hx
      simp at hx ⊢
      rcases hx with hx | hx
      · tauto
      · rcases ih k delta x (by simpa using hx) with hh | hh
        · simp at hh; tauto
        · tauto

theorem nodup_keys_incEntry : ∀ (m : List (Int × Int)) (k delta : Int),
    (m.map Prod.fst).Nodup → ((incEntry m k delta).map Prod.fst).Nodup := by
  intro m
  induction m with
  | nil => intro k delta _; simp [incEntry]
  | cons kv rest ih =>
    intro k delta h
    obtain ⟨k', v⟩ := kv
    simp only [List.map_cons, List.nodup_cons] at h
    by_cases hk : k' = k
    · simp only [incEntry, if_pos hk]
      simp only [List.map_cons, List.nodup_cons]
      exact h
    · simp only [incEntry, if_neg hk]
      simp only [List.map_cons, List.nodup_cons]
      refine ⟨?_, ih k delta h.2⟩
      intro hmem
      rcases mem_keys_incEntry rest k delta k' hmem with hh | hh
      · exact h.1 hh
      · exact hk hh

/-- The sum of absolute looked-up deltas over a list of keys. -/
def sumLk (m : List (Int × Int)) : List Int → Nat
  | [] => 0
  | k :: keys => ((lookupEntry m k).getD 0).natAbs + sumLk m keys

theorem sumLk_congr (m1 m2 : List (Int × Int)) :
    ∀ keys : List Int, (∀ x ∈ keys, lookupEntry m1 x = lookupEntry m2 x) →
      sumLk m1 keys = sumLk m2 keys := by
  intro keys
  induction keys with
  | nil => intro _; rfl
  | cons k keys ih =>
    intro h
    simp only [sumLk, h k (by simp)]
    rw [ih (fun x hx => h x (by simp [hx]))]

theorem sumLk_self : ∀ m : List (Int × Int), (m.map Prod.fst).Nodup →
    sumLk m (m.map Prod.fst) = tvList m := by
  intro m
  induction m with
  | nil => intro _; rfl
  | cons kv rest ih =>
    intro h
    obtain ⟨k, v⟩ := kv
    simp only [List.map_cons, List.nodup_cons] at h
    simp only [List.map_cons, sumLk, tvList]
    have hlk : lookupEntry ((k, v) :: rest) k = some v := by simp [lookupEntry]
    rw [hlk]
    have hcongr : sumLk ((k, v) :: rest) (rest.map Prod.fst) =
        sumLk rest (rest.map Prod.fst) := by
      apply sumLk_congr
      intro x hx
      have hxk : ¬(k = x) := fun hh => h.1 (hh ▸ hx)
      simp [lookupEntry, hxk]
    rw [hcongr, ih h.2]
    rfl

theorem sumLk_eq_sum_map (m : List (Int × Int)) :
    ∀ keys : List Int,
      sumLk m keys = (keys.map (fun k => ((lookupEntry m k).getD 0).natAbs)).sum := by
  intro keys
  induction keys with
  | nil => rfl
  | cons k keys ih => simp [sumLk, ih]

theorem sumLk_perm (m : List (Int × Int)) (l1 l2 : List Int) (h : l1.Perm l2) :
    sumLk m l1 = sumLk m l2 := by
  rw [sumLk_eq_sum_map, sumLk_eq_sum_map]
  exact (h.map (fun k => ((lookupEntry m k).getD 0).natAbs)).sum_eq

theorem flatLen_le (dec : Bool) (m : List (Int × Int)) :
    ∀ keys : List Int, (flatCopies dec m keys).length ≤ sumLk m keys := by
  intro keys
  induction keys with
  | nil => simp [flatCopies, sumLk]
  | cons k keys ih =>
    by_cases hk : k = 0
    · simp only [flatCopies, if_pos hk, sumLk]
      omega
    · simp only [flatCopies, if_neg hk, sumLk, List.length_append]
      have : (copiesFor dec k ((lookupEntry m k).getD 0)).length =
          ((lookupEntry m k).getD 0).natAbs := by simp [copiesFor]
      omega

theorem flatLen_le_tv (dec : Bool) (m : List (Int × Int))
    (h : (m.map Prod.fst).Nodup) :
    (flatCopies dec m (sortedKeys m)).length ≤ tvList m := by
  have h1 := flatLen_le dec m (sortedKeys m)
  have h2 : sumLk m (sortedKeys m) = sumLk m (m.map Prod.fst) :=
    sumLk_perm m _ _ (List.perm_insertionSort _ _)
  have h3 := sumLk_self m h
  omega

/-- The invariant of the simplify_loops scan: while in a loop, the pending
writes (bounded by the total variation of the map) stay strictly below the
scan position, and the map's keys are distinct. -/
def SInv (c : SCfg) : Prop :=
  c.in_loop = true →
    c.st.start_pc + tvList c.st.ptr_changes < c.pc ∧
    (c.st.ptr_changes.map Prod.fst).Nodup

theorem SInv_of_false (c : SCfg) (h : c.in_loop = false) : SInv c :=
  fun hh => Bool.noConfusion (h.symm.trans hh)

theorem slStep_pc (c : SCfg) : (slStep c).pc = c.pc + 1 := by
  unfold slStep
  cases h : c.prog.getD c.pc Nop <;> (repeat' split) <;> simp_all

theorem slStep_SInv (c : SCfg) (h : SInv c) : SInv (slStep c) := by
  cases hop : c.prog.getD c.pc Nop
  case JumpIfZero =>
    rw [slStep_jiz c hop]
    intro _
    constructor
    · show c.pc + tvList [] < c.pc + 1
      simp [tvList]
    · simp
  case JumpUnlessZero =>
    cases hb : c.in_loop
    · rw [slStep_juz_notin c hop hb]
      intro hh
      exact absurd (hb.symm.trans hh) (by simp)
    · by_cases hhd : c.st.head_delta = 0
      · cases hv : lookupEntry c.st.ptr_changes 0 with
        | none => rw [slStep_juz_nokey c hop hb hhd hv]; exact SInv_of_false _ rfl
        | some v =>
          by_cases hv1 : v = 1 ∨ v = -1
          · rw [slStep_commit c v hop hb hhd hv hv1]; exact SInv_of_false _ rfl
          · rw [slStep_juz_badv c v hop hb hhd hv hv1]; exact SInv_of_false _ rfl
      · rw [slStep_juz_hd c hop hb hhd]; exact SInv_of_false _ rfl
  case MoveLeft =>
    cases hb : c.in_loop
    · obtain ⟨_, _, _, hin⟩ := slStep_nonjump c (by rw [hop]; simp) (by rw [hop]; simp)
      exact SInv_of_false _ (by rw [hin, hb]; rfl)
    · rw [slStep_ml c hop hb]
      intro _
      obtain ⟨h1, h2⟩ := h hb
      refine ⟨?_, h2⟩
      show c.st.start_pc + tvList c.st.ptr_changes < c.pc + 1
      omega
  case MoveRight =>
    cases hb : c.in_loop
    · obtain ⟨_, _, _, hin⟩ := slStep_nonjump c (by rw [hop]; simp) (by rw [hop]; simp)
      exact SInv_of_false _ (by rw [hin, hb]; rfl)
    · rw [slStep_mr c hop hb]
      intro _
      obtain ⟨h1, h2⟩ := h hb
      refine ⟨?_, h2⟩
      show c.st.start_pc + tvList c.st.ptr_changes < c.pc + 1
      omega
  case Increment =>
    cases hb : c.in_loop
    · obtain ⟨_, _, _, hin⟩ := slStep_nonjump c (by rw [hop]; simp) (by rw [hop]; simp)
      exact SInv_of_false _ (by rw [hin, hb]; rfl)
    · rw [slStep_inc c hop hb]
      intro _
      obtain ⟨h1, h2⟩ := h hb
      have h3 := tvList_incEntry c.st.ptr_changes c.st.head_delta 1
      refine ⟨?_, nodup_keys_incEntry _ _ _ h2⟩
      show c.st.start_pc + tvList (incEntry c.st.ptr_changes c.st.head_delta 1) < c.pc + 1
      have : (1 : Int).natAbs = 1 := rfl
      omega
  case Decrement =>
    cases hb : c.in_loop
    · obtain ⟨_, _, _, hin⟩ := slStep_nonjump c (by rw [hop]; simp) (by rw [hop]; simp)
      exact SInv_of_false _ (by rw [hin, hb]; rfl)
    · rw [slStep_dec c hop hb]
      intro _
      obtain ⟨h1, h2⟩ := h hb
      have h3 := tvList_incEntry c.st.ptr_changes c.st.head_delta (-1)
      refine ⟨?_, nodup_keys_incEntry _ _ _ h2⟩
      show c.st.start_pc + tvList (incEntry c.st.ptr_changes c.st.head_delta (-1)) < c.pc + 1
      have : (-1 : Int).natAbs = 1 := rfl
      omega
  all_goals
    obtain ⟨_, _, _, hin⟩ := slStep_nonjump c (by rw [hop]; simp) (by rw [hop]; simp)
    exact SInv_of_false _ (by rw [hin, hop]; simp [slKeeps])

theorem slStep_above (c : SCfg) (hInv : SInv c) (i : Nat) (hi : c.pc < i) (d : Instruction) :
    (slStep c).prog.getD i d = c.prog.getD i d := by
  cases hop : c.prog.getD c.pc Nop
  case JumpIfZero => rw [slStep_jiz c hop]
  case JumpUnlessZero =>
    cases hb : c.in_loop
    · rw [slStep_juz_notin c hop hb]
    · obtain ⟨hlt, hnd⟩ := hInv hb
      by_cases hhd : c.st.head_delta = 0
      · cases hv : lookupEntry c.st.ptr_changes 0 with
        | none => rw [slStep_juz_nokey c hop hb hhd hv]
        | some v =>
          by_cases hv1 : v = 1 ∨ v = -1
          · rw [slStep_commit c v hop hb hhd hv hv1]
            have hfl := flatLen_le_tv (decide (v = -1)) c.st.ptr_changes hnd
            show ((setSeq _ _ _).set _ Zero).getD i d = _
            rw [getD_set_ne _ _ _ _ _ (by omega)]
            rw [setSeq_getD_ge _ _ _ _ _ (by omega)]
            rw [setRangeNop_getD_ge _ _ _ _ _ (by omega)]
          · rw [slStep_juz_badv c v hop hb hhd hv hv1]
      · rw [slStep_juz_hd c hop hb hhd]
  all_goals
    obtain ⟨hp, _, _, _⟩ := slStep_nonjump c (by rw [hop]; simp) (by rw [hop]; simp)
    rw [hp]

theorem slStep_below (c : SCfg) (i : Nat) (d : Instruction)
    (h : c.in_loop = false ∨ i < c.st.start_pc) :
    (slStep c).prog.getD i d = c.prog.getD i d := by
  cases hop : c.prog.getD c.pc Nop
  case JumpIfZero => rw [slStep_jiz c hop]
  case JumpUnlessZero =>
    cases hb : c.in_loop
    · rw [slStep_juz_notin c hop hb]
    · have hi : i < c.st.start_pc := by
        rcases h with h | h
        · exact absurd (hb.symm.trans h) (by simp)
        · exact h
      by_cases hhd : c.st.head_delta = 0
      · cases hv : lookupEntry c.st.ptr_changes 0 with
        | none => rw [slStep_juz_nokey c hop hb hhd hv]
        | some v =>
          by_cases hv1 : v = 1 ∨ v = -1
          · rw [slStep_commit c v hop hb hhd hv hv1]
            show ((setSeq _ _ _).set _ Zero).getD i d = _
            rw [getD_set_ne _ _ _ _ _ (by omega)]
            rw [setSeq_getD_lt _ _ _ _ _ (by omega)]
            rw [setRangeNop_getD_lt _ _ _ _ _ (by omega)]
          · rw [slStep_juz_badv c v hop hb hhd hv hv1]
      · rw [slStep_juz_hd c hop hb hhd]
  all_goals
    obtain ⟨hp, _, _, _⟩ := slStep_nonjump c (by rw [hop]; simp) (by rw [hop]; simp)
    rw [hp]

theorem slStep_start (c : SCfg) (h : (slStep c).in_loop = true) :
    (slStep c).st.start_pc = c.pc ∨
    ((slStep c).st.start_pc = c.st.start_pc ∧ c.in_loop = true) := by
  cases hop : c.prog.getD c.pc Nop
  case JumpIfZero => rw [slStep_jiz c hop]; left; rfl
  case JumpUnlessZero =>
    cases hb : c.in_loop
    · rw [slStep_juz_notin c hop hb] at h ⊢
      exact absurd (hb.symm.trans h) (by simp)
    · by_cases hhd : c.st.head_delta = 0
      · cases hv : lookupEntry c.st.ptr_changes 0 with
        | none =>
          rw [slStep_juz_nokey c hop hb hhd hv] at h
          exact absurd h (by simp)
        | some v =>
          by_cases hv1 : v = 1 ∨ v = -1
          · rw [slStep_commit c v hop hb hhd hv hv1] at h
            exact absurd h (by simp)
          · rw [slStep_juz_badv c v hop hb hhd hv hv1] at h
            exact absurd h (by simp)
      · rw [slStep_juz_hd c hop hb hhd] at h
        exact absurd h (by simp)
  all_goals
    obtain ⟨_, _, hst, hin⟩ := slStep_nonjump c (by rw [hop]; simp) (by rw [hop]; simp)
    rw [hin] at h
    right
    exact ⟨hst, by
      cases hb : c.in_loop
      · rw [hb] at h; simp at h
      · rfl⟩

theorem slIter_add (a b : Nat) (c : SCfg) : slIter (a + b) c = slIter b (slIter a c) := by
  induction a generalizing c with
  | zero => rw [Nat.zero_add]; rfl
  | succ a ih =>
    rw [show a + 1 + b = (a + b) + 1 from by omega]
    show slIter (a + b) (slStep c) = _
    rw [ih (slStep c)]
    rfl

theorem slIter_pc : ∀ (n : Nat) (c : SCfg), (slIter n c).pc = c.pc + n := by
  intro n
  induction n with
  | zero => intro c; rfl
  | succ n ih =>
    intro c
    show (slIter n (slStep c)).pc = _
    rw [ih (slStep c), slStep_pc]
    omega

theorem slIter_SInv : ∀ (n : Nat) (c : SCfg), SInv c → SInv (slIter n c) := by
  intro n
  induction n with
  | zero => intro c h; exact h
  | succ n ih => intro c h; exact ih (slStep c) (slStep_SInv c h)

theorem slIter_above : ∀ (n : Nat) (c : SCfg), SInv c → ∀ (i : Nat) (d : Instruction),
    c.pc + n ≤ i → (slIter n c).prog.getD i d = c.prog.getD i d := by
  intro n
  induction n with
  | zero => intro c _ i d _; rfl
  | succ n ih =>
    intro c h i d hi
    show (slIter n (slStep c)).prog.getD i d = _
    rw [ih (slStep c) (slStep_SInv c h) i d (by rw [slStep_pc]; omega)]
    exact slStep_above c h i (by omega) d

theorem slIter_below : ∀ (n : Nat) (c : SCfg) (s : Nat), s ≤ c.pc →
    (c.in_loop = true → s ≤ c.st.start_pc) → ∀ (i : Nat) (d : Instruction), i < s →
    (slIter n c).prog.getD i d = c.prog.getD i d := by
  intro n
  induction n with
  | zero => intro c s _ _ i d _; rfl
  | succ n ih =>
    intro c s hs hstart i d hi
    show (slIter n (slStep c)).prog.getD i d = _
    have hbelow : (slStep c).prog.getD i d = c.prog.getD i d := by
      apply slStep_below
      cases hb : c.in_loop
      · left; rfl
      · right
        have := hstart hb
        omega
    rw [ih (slStep c) s (by rw [slStep_pc]; omega) ?_ i d hi, hbelow]
    intro hin'
    rcases slStep_start c hin' with hh | ⟨hh, hb⟩
    · omega
    · rw [hh]
      exact hstart hb

/-- The head_delta / ptr_changes accumulation of simplify_loops over a run of
MoveRight/MoveLeft/Increment/Decrement tokens while in a loop. -/
def scanBody : Int → List (Int × Int) → List Instruction → Int × List (Int × Int)
  | hd, m, [] => (hd, m)
  | hd, m, MoveLeft :: rest => scanBody (hd - 1) m rest
  | hd, m, MoveRight :: rest => scanBody (hd + 1) m rest
  | hd, m, Increment :: rest => scanBody hd (incEntry m hd 1) rest
  | hd, m, Decrement :: rest => scanBody hd (incEntry m hd (-1)) rest
  | hd, m, _ :: rest => scanBody hd m rest

theorem scan_flat : ∀ (body : List Instruction) (c : SCfg),
    c.in_loop = true →
    (∀ t ∈ body, t = MoveRight ∨ t = MoveLeft ∨ t = Increment ∨ t = Decrement) →
    (∀ k, k < body.length → c.prog.getD (c.pc + k) Nop = body.getD k Nop) →
    slIter body.length c = { c with
      pc := c.pc + body.length,
      st := ⟨c.st.start_pc, (scanBody c.st.head_delta c.st.ptr_changes body).1,
            (scanBody c.st.head_delta c.st.ptr_changes body).2⟩ } := by
  intro body
  induction body with
  | nil =>
    intro c _ _ _
    show c = _
    simp only [List.length_nil, Nat.add_zero, scanBody]
  | cons t rest ih =>
    intro c hin hflat halign
    have hop : c.prog.getD c.pc Nop = t := by
      have h0 := halign 0 (by simp)
      simpa using h0
    have hflat' : ∀ u ∈ rest, u = MoveRight ∨ u = MoveLeft ∨ u = Increment ∨ u = Decrement :=
      fun u hu => hflat u (List.mem_cons_of_mem _ hu)
    have halign' : ∀ (c' : SCfg), c'.prog = c.prog → c'.pc = c.pc + 1 →
        ∀ k, k < rest.length → c'.prog.getD (c'.pc + k) Nop = rest.getD k Nop := by
      intro c' hp hpc k hk
      rw [hp, hpc, show c.pc + 1 + k = c.pc + (k + 1) from by omega,
        halign (k + 1) (by simp only [List.length_cons]; omega)]
      rfl
    have hlen : c.pc + (t :: rest).length = c.pc + 1 + rest.length := by
      simp only [List.length_cons]
      omega
    have hnj1 : c.prog.getD c.pc Nop ≠ JumpIfZero := by
      rcases hflat t (List.mem_cons_self t rest) with h | h | h | h <;> rw [hop, h] <;> simp
    have hnj2 : c.prog.getD c.pc Nop ≠ JumpUnlessZero := by
      rcases hflat t (List.mem_cons_self t rest) with h | h | h | h <;> rw [hop, h] <;> simp
    obtain ⟨hp, hpc, _, hinl⟩ := slStep_nonjump c hnj1 hnj2
    have hin' : (slStep c).in_loop = true := by
      rw [hinl, hin, hop]
      rcases hflat t (List.mem_cons_self t rest) with h | h | h | h <;> rw [h] <;> rfl
    have hal' := halign' (slStep c) hp hpc
    rcases hflat t (List.mem_cons_self t rest) with h | h | h | h <;> subst h
    · show slIter rest.length (slStep c) = _
      rw [ih (slStep c) hin' hflat' hal', slStep_mr c hop hin, hlen]
      rfl
    · show slIter rest.length (slStep c) = _
      rw [ih (slStep c) hin' hflat' hal', slStep_ml c hop hin, hlen]
      rfl
    · show slIter rest.length (slStep c) = _
      rw [ih (slStep c) hin' hflat' hal', slStep_inc c hop hin, hlen]
      rfl
    · show slIter rest.length (slStep c) = _
      rw [ih (slStep c) hin' hflat' hal', slStep_dec c hop hin, hlen]
      rfl

theorem scan_nojump : ∀ (body : List Instruction) (c : SCfg),
    (∀ t ∈ body, t ≠ JumpIfZero ∧ t ≠ JumpUnlessZero) →
    (∀ k, k < body.length → c.prog.getD (c.pc + k) Nop = body.getD k Nop) →
    (slIter body.length c).prog = c.prog ∧
    (slIter body.length c).pc = c.pc + body.length ∧
    (slIter body.length c).st.start_pc = c.st.start_pc ∧
    (slIter body.length c).in_loop = (c.in_loop && body.all slKeeps) := by
  intro body
  induction body with
  | nil =>
    intro c _ _
    exact ⟨rfl, by simp [slIter], rfl, by simp [slIter]⟩
  | cons t rest ih =>
    intro c hnj halign
    have hop : c.prog.getD c.pc Nop = t := by
      have h0 := halign 0 (by simp)
      simpa using h0
    obtain ⟨h1, h2⟩ := hnj t (List.mem_cons_self t rest)
    obtain ⟨hp, hpc, hst, hinl⟩ := slStep_nonjump c (by rw [hop]; exact h1) (by rw [hop]; exact h2)
    have hnj' : ∀ u ∈ rest, u ≠ JumpIfZero ∧ u ≠ JumpUnlessZero :=
      fun u hu => hnj u (List.mem_cons_of_mem _ hu)
    have halign' : ∀ k, k < rest.length →
        (slStep c).prog.getD ((slStep c).pc + k) Nop = rest.getD k Nop := by
      intro k hk
      rw [hp, hpc, show c.pc + 1 + k = c.pc + (k + 1) from by omega,
        halign (k + 1) (by simp only [List.length_cons]; omega)]
      rfl
    obtain ⟨ih1, ih2, ih3, ih4⟩ := ih (slStep c) hnj' halign'
    refine ⟨?_, ?_, ?_, ?_⟩
    · show (slIter rest.length (slStep c)).prog = c.prog
      rw [ih1, hp]
    · show (slIter rest.length (slStep c)).pc = _
      rw [ih2, hpc]
      simp only [List.length_cons]
      omega
    · show (slIter rest.length (slStep c)).st.start_pc = _
      rw [ih3, hst]
    · show (slIter rest.length (slStep c)).in_loop = _
      rw [ih4, hinl, hop]
      simp [Bool.and_assoc]

/-! ### Positions inside a `pre ++ [ body ] post` program -/

theorem loopP_open (pre body post : List Instruction) :
    (pre ++ (JumpIfZero :: (body ++ (JumpUnlessZero :: post)))).getD pre.length Nop
      = JumpIfZero := by
  have h := getD_append_add pre (JumpIfZero :: (body ++ (JumpUnlessZero :: post))) 0 Nop
  simpa using h

theorem loopP_body (pre body post : List Instruction) (k : Nat) (hk : k < body.length) :
    (pre ++ (JumpIfZero :: (body ++ (JumpUnlessZero :: post)))).getD
      (pre.length + (k + 1)) Nop = body.getD k Nop := by
  rw [getD_append_add, getD_cons_succ]
  exact getD_append_lt body _ k Nop hk

theorem loopP_close (pre body post : List Instruction) :
    (pre ++ (JumpIfZero :: (body ++ (JumpUnlessZero :: post)))).getD
      (pre.length + (body.length + 1)) Nop = JumpUnlessZero := by
  rw [getD_append_add, getD_cons_succ]
  have h := getD_append_add body (JumpUnlessZero :: post) 0 Nop
  simpa using h

theorem loopP_len (pre body post : List Instruction) :
    (pre ++ (JumpIfZero :: (body ++ (JumpUnlessZero :: post)))).length
      = pre.length + (1 + (body.length + (1 + post.length))) := by
  simp only [List.length_append, List.length_cons]
  omega

/-- Phase A of a simplify_loops run: stepping o times from the start keeps the
invariant, lands at pc = o, and leaves all positions at or beyond o untouched. -/
theorem sl_phaseA (P : List Instruction) (o : Nat) :
    SInv (slIter o ⟨P, 0, false, ⟨0, 0, []⟩⟩) ∧
    (slIter o ⟨P, 0, false, ⟨0, 0, []⟩⟩).pc = o ∧
    ∀ i d, o ≤ i → (slIter o ⟨P, 0, false, ⟨0, 0, []⟩⟩).prog.getD i d = P.getD i d := by
  refine ⟨slIter_SInv o _ (SInv_of_false _ rfl), ?_, ?_⟩
  · rw [slIter_pc]
    show 0 + o = o
    omega
  · intro i d hi
    have h := slIter_above o ⟨P, 0, false, ⟨0, 0, []⟩⟩ (SInv_of_false _ rfl) i d
      (by show 0 + o ≤ i; omega)
    rw [h]

/-- C6, counterexample to the original wording: in "[[-]]" the outer bracketed
loop's body [JumpIfZero, Decrement, JumpUnlessZero] contains jump opcodes, yet
simplify_loops rewrites tokens inside the outer loop's range (the inner counted
loop [-] becomes Zero at position 1, Nops at 2 and 3), so a loop whose body
contains another jump is not always left identical. -/
theorem nested_loop_rewrites_cex :
    lex ['[', '[', '-', ']', ']']
      = [JumpIfZero, JumpIfZero, Decrement, JumpUnlessZero, JumpUnlessZero] ∧
    simplify_loops (lex ['[', '[', '-', ']', ']'])
      = [JumpIfZero, Zero, Nop, Nop, JumpUnlessZero] ∧
    (lex ['[', '[', '-', ']', ']']).getD 1 Nop
      ≠ (simplify_loops (lex ['[', '[', '-', ']', ']'])).getD 1 Nop := by
  refine ⟨rfl, ?_, ?_⟩ <;> decide

/-- C6 (amended): a bracketed loop whose body is jump-free and contains a Read
or a Write is never rewritten by the counted-loop pass: every token from its
opening bracket through its closing bracket is identical before and after
simplify_loops; in particular lexing "[->+>.<<]" and applying the pass returns
the token list unchanged. (The original claim's further case of a body
containing another jump opcode is refuted by nesting, where the inner counted
loop is rewritten inside the outer loop's range.) -/
theorem io_loop_not_rewritten :
    (∀ (pre body post : List Instruction),
      (∀ t ∈ body, t ≠ JumpIfZero ∧ t ≠ JumpUnlessZero) →
      (Read ∈ body ∨ Write ∈ body) →
      ∀ j, pre.length ≤ j → j ≤ pre.length + body.length + 1 →
        (simplify_loops (pre ++ (JumpIfZero :: (body ++ (JumpUnlessZero :: post))))).getD j Nop
          = (pre ++ (JumpIfZero :: (body ++ (JumpUnlessZero :: post)))).getD j Nop) ∧
    simplify_loops (lex ['[', '-', '>', '+', '>', '.', '<', '<', ']'])
      = lex ['[', '-', '>', '+', '>', '.', '<', '<', ']'] := by
  constructor
  · intro pre body post hnj hio j hj1 hj2
    set P : List Instruction := pre ++ (JumpIfZero :: (body ++ (JumpUnlessZero :: post)))
      with hP
    obtain ⟨hInvA, hApc, hAprog⟩ := sl_phaseA P pre.length
    set cA : SCfg := slIter pre.length ⟨P, 0, false, ⟨0, 0, []⟩⟩ with hcA
    have hBop : cA.prog.getD cA.pc Nop = JumpIfZero := by
      rw [hApc, hAprog pre.length Nop (Nat.le_refl _), hP]
      exact loopP_open pre body post
    have hBstep : slStep cA = { cA with pc := cA.pc + 1, in_loop := true, st := ⟨cA.pc, 0, []⟩ } :=
      slStep_jiz cA hBop
    have halignC : ∀ k, k < body.length →
        (slStep cA).prog.getD ((slStep cA).pc + k) Nop = body.getD k Nop := by
      intro k hk
      rw [hBstep]
      show cA.prog.getD (cA.pc + 1 + k) Nop = body.getD k Nop
      rw [hApc, show pre.length + 1 + k = pre.length + (k + 1) from by omega,
          hAprog (pre.length + (k + 1)) Nop (by omega), hP]
      exact loopP_body pre body post k hk
    obtain ⟨hCp, hCpc, hCst, hCin⟩ := scan_nojump body (slStep cA) hnj halignC
    set cC : SCfg := slIter body.length (slStep cA) with hcC
    have hallF : body.all slKeeps = false := by
      cases hall : body.all slKeeps
      · rfl
      · exfalso
        have hall' := List.all_eq_true.mp hall
        rcases hio with hio | hio
        · have h := hall' Read hio
          exact Bool.noConfusion h
        · have h := hall' Write hio
          exact Bool.noConfusion h
    have hCinF : cC.in_loop = false := by
      rw [hCin, hallF, Bool.and_false]
    have hCpc' : cC.pc = pre.length + (body.length + 1) := by
      rw [hCpc, hBstep]
      show cA.pc + 1 + body.length = _
      rw [hApc]
      omega
    have hCprog : ∀ i d, pre.length ≤ i → cC.prog.getD i d = P.getD i d := by
      intro i d hi
      rw [hCp, hBstep]
      show cA.prog.getD i d = P.getD i d
      exact hAprog i d hi
    have hDop : cC.prog.getD cC.pc Nop = JumpUnlessZero := by
      rw [hCpc', hCprog _ Nop (by omega), hP]
      exact loopP_close pre body post
    have hDstep : slStep cC = { cC with pc := cC.pc + 1 } := slStep_juz_notin cC hDop hCinF
    have hE : ∀ i d, i < pre.length + (body.length + 1) + 1 →
        (slIter post.length (slStep cC)).prog.getD i d = (slStep cC).prog.getD i d := by
      intro i d hi
      have h1 : pre.length + (body.length + 1) + 1 ≤ (slStep cC).pc := by
        rw [hDstep]
        show _ ≤ cC.pc + 1
        omega
      have h2 : (slStep cC).in_loop = true →
          pre.length + (body.length + 1) + 1 ≤ (slStep cC).st.start_pc := by
        intro hin'
        rw [hDstep] at hin'
        have h3 : cC.in_loop = true := hin'
        rw [hCinF] at h3
        exact Bool.noConfusion h3
      exact slIter_below post.length (slStep cC) _ h1 h2 i d hi
    have hlenP : P.length = pre.length + (1 + (body.length + (1 + post.length))) := by
      rw [hP]
      exact loopP_len pre body post
    have hsplit : simplify_loops P = (slIter post.length (slStep cC)).prog := by
      show (slIter P.length ⟨P, 0, false, ⟨0, 0, []⟩⟩).prog = _
      rw [hlenP, slIter_add, slIter_add, slIter_add, slIter_add, ← hcA, hcC]
      rfl
    rw [hsplit, hE j Nop (by omega), hDstep]
    show cC.prog.getD j Nop = P.getD j Nop
    exact hCprog j Nop hj1
  · decide

/-- Witness for the amended C6 theorem at pre = [], body = [Decrement, Write],
post = [], j = 2. -/
theorem io_loop_not_rewritten_witness :
    (simplify_loops ([] ++ (JumpIfZero :: ([Decrement, Write] ++ (JumpUnlessZero :: []))))).getD
        2 Nop
      = (([] : List Instruction) ++
          (JumpIfZero :: ([Decrement, Write] ++ (JumpUnlessZero :: [])))).getD 2 Nop :=
  io_loop_not_rewritten.1 [] [Decrement, Write] [] (by decide) (by decide) 2
    (by decide) (by decide)

/-- C1: a committed counted loop (flat body of moves and bumps, net head delta
0, offset-0 per-iteration delta v with v = 1 or v = -1) is rewritten by
simplify_loops as follows: starting at the opening bracket come the flattened
Add/Sub copies (for each nonzero offset in increasing key order, |delta| copies
chosen by the sign rule), then exactly one Zero, and the rest of the range up
to the closing bracket is Nop; sortedKeys always lists the offsets in
increasing order; and lexing "[->+<]" and applying the pass yields
[Add 1, Zero, Nop, Nop, Nop, Nop]. -/
theorem counted_loop_commit :
    (∀ (pre body post : List Instruction) (v : Int),
      (∀ t ∈ body, t = MoveRight ∨ t = MoveLeft ∨ t = Increment ∨ t = Decrement) →
      (scanBody 0 [] body).1 = 0 →
      lookupEntry (scanBody 0 [] body).2 0 = some v →
      (v = 1 ∨ v = -1) →
      ((∀ k, k < (flatCopies (decide (v = -1)) (scanBody 0 [] body).2
            (sortedKeys (scanBody 0 [] body).2)).length →
        (simplify_loops (pre ++ (JumpIfZero :: (body ++ (JumpUnlessZero :: post))))).getD
            (pre.length + k) Nop
          = (flatCopies (decide (v = -1)) (scanBody 0 [] body).2
              (sortedKeys (scanBody 0 [] body).2)).getD k Nop) ∧
       (simplify_loops (pre ++ (JumpIfZero :: (body ++ (JumpUnlessZero :: post))))).getD
          (pre.length + (flatCopies (decide (v = -1)) (scanBody 0 [] body).2
            (sortedKeys (scanBody 0 [] body).2)).length) Nop = Instruction.Zero ∧
       (∀ j, pre.length + (flatCopies (decide (v = -1)) (scanBody 0 [] body).2
            (sortedKeys (scanBody 0 [] body).2)).length < j →
          j ≤ pre.length + body.length + 1 →
        (simplify_loops (pre ++ (JumpIfZero :: (body ++ (JumpUnlessZero :: post))))).getD
            j Nop = Nop))) ∧
    (∀ m : List (Int × Int), List.Sorted (fun a b : Int => a ≤ b) (sortedKeys m)) ∧
    simplify_loops (lex ['[', '-', '>', '+', '<', ']'])
      = [Add 1, Zero, Nop, Nop, Nop, Nop] := by
  refine ⟨?_, ?_, by decide⟩
  · intro pre body post v hflat hhd0 hv0 hv1
    set m : List (Int × Int) := (scanBody 0 [] body).2 with hm
    set L : List Instruction := flatCopies (decide (v = -1)) m (sortedKeys m) with hL
    set P : List Instruction := pre ++ (JumpIfZero :: (body ++ (JumpUnlessZero :: post)))
      with hP
    obtain ⟨hInvA, hApc, hAprog⟩ := sl_phaseA P pre.length
    set cA : SCfg := slIter pre.length ⟨P, 0, false, ⟨0, 0, []⟩⟩ with hcA
    have hBop : cA.prog.getD cA.pc Nop = JumpIfZero := by
      rw [hApc, hAprog pre.length Nop (Nat.le_refl _), hP]
      exact loopP_open pre body post
    have hBstep : slStep cA = { cA with pc := cA.pc + 1, in_loop := true, st := ⟨cA.pc, 0, []⟩ } :=
      slStep_jiz cA hBop
    have hBin : (slStep cA).in_loop = true := by rw [hBstep]
    have halignC : ∀ k, k < body.length →
        (slStep cA).prog.getD ((slStep cA).pc + k) Nop = body.getD k Nop := by
      intro k hk
      rw [hBstep]
      show cA.prog.getD (cA.pc + 1 + k) Nop = body.getD k Nop
      rw [hApc, show pre.length + 1 + k = pre.length + (k + 1) from by omega,
          hAprog (pre.length + (k + 1)) Nop (by omega), hP]
      exact loopP_body pre body post k hk
    have hsc := scan_flat body (slStep cA) hBin hflat halignC
    have hCprogeq : (slIter body.length (slStep cA)).prog = cA.prog := by
      rw [hsc, hBstep]
    have hCpc : (slIter body.length (slStep cA)).pc = pre.length + (body.length + 1) := by
      rw [hsc, hBstep]
      show cA.pc + 1 + body.length = _
      rw [hApc]
      omega
    have hCin : (slIter body.length (slStep cA)).in_loop = true := by
      rw [hsc, hBstep]
    have hCst : (slIter body.length (slStep cA)).st.start_pc = pre.length := by
      rw [hsc, hBstep]
      show cA.pc = pre.length
      exact hApc
    have hChd : (slIter body.length (slStep cA)).st.head_delta = 0 := by
      rw [hsc, hBstep]
      show (scanBody 0 [] body).1 = 0
      exact hhd0
    have hCm : (slIter body.length (slStep cA)).st.ptr_changes = m := by
      rw [hsc, hBstep]
    have hInvC : SInv (slIter body.length (slStep cA)) :=
      slIter_SInv body.length (slStep cA) (slStep_SInv cA hInvA)
    obtain ⟨hbound, hnd⟩ := hInvC hCin
    rw [hCst, hCm, hCpc] at hbound
    rw [hCm] at hnd
    have hLlen : L.length ≤ tvList m := by
      rw [hL]
      exact flatLen_le_tv _ m hnd
    have hLb : L.length ≤ body.length := by omega
    have hCop : (slIter body.length (slStep cA)).prog.getD
        (slIter body.length (slStep cA)).pc Nop = JumpUnlessZero := by
      rw [hCprogeq, hCpc, hAprog _ Nop (by omega), hP]
      exact loopP_close pre body post
    have hCv' : lookupEntry (slIter body.length (slStep cA)).st.ptr_changes 0 = some v := by
      rw [hCm]
      exact hv0
    have hDstep := slStep_commit (slIter body.length (slStep cA)) v hCop hCin hChd hCv' hv1
    rw [hCprogeq, hCst, hCpc, hCm, ← hL,
        show pre.length + (body.length + 1) + 1 - pre.length = body.length + 2 from by omega]
      at hDstep
    have hDprog : (slStep (slIter body.length (slStep cA))).prog
        = (setSeq (setRangeNop cA.prog pre.length (body.length + 2)) pre.length L).set
            (pre.length + L.length) Zero := by
      rw [hDstep]
    have hDpc : (slStep (slIter body.length (slStep cA))).pc
        = pre.length + (body.length + 1) + 1 := by
      rw [hDstep]
    have hDin : (slStep (slIter body.length (slStep cA))).in_loop = false := by
      rw [hDstep]
    have hE : ∀ i d, i < pre.length + (body.length + 1) + 1 →
        (slIter post.length (slStep (slIter body.length (slStep cA)))).prog.getD i d
          = (slStep (slIter body.length (slStep cA))).prog.getD i d := by
      intro i d hi
      have h1 : pre.length + (body.length + 1) + 1
          ≤ (slStep (slIter body.length (slStep cA))).pc := by
        rw [hDpc]
      have h2 : (slStep (slIter body.length (slStep cA))).in_loop = true →
          pre.length + (body.length + 1) + 1
            ≤ (slStep (slIter body.length (slStep cA))).st.start_pc := by
        intro hin'
        rw [hDin] at hin'
        exact Bool.noConfusion hin'
      exact slIter_below post.length _ _ h1 h2 i d hi
    have hlenP : P.length = pre.length + (1 + (body.length + (1 + post.length))) := by
      rw [hP]
      exact loopP_len pre body post
    have hsplit : simplify_loops P
        = (slIter post.length (slStep (slIter body.length (slStep cA)))).prog := by
      show (slIter P.length ⟨P, 0, false, ⟨0, 0, []⟩⟩).prog = _
      rw [hlenP, slIter_add, slIter_add, slIter_add, slIter_add, ← hcA]
      rfl
    have hPlen : cA.prog.length = P.length := by
      rw [hcA, length_slIter]
    have hsetlen : (setSeq (setRangeNop cA.prog pre.length (body.length + 2))
        pre.length L).length = P.length := by
      rw [setSeq_length, length_setRangeNop, hPlen]
    refine ⟨?_, ?_, ?_⟩
    · intro k hk
      rw [hsplit, hE _ Nop (by omega), hDprog,
          getD_set_ne _ _ _ _ _ (by omega),
          setSeq_getD_in L _ pre.length k Nop hk
            (by rw [length_setRangeNop, hPlen, hlenP]; omega)]
    · rw [hsplit, hE _ Nop (by omega), hDprog,
          getD_set_eq _ _ _ _ (by rw [hsetlen, hlenP]; omega)]
    · intro j hj1 hj2
      rw [hsplit, hE _ Nop (by omega), hDprog,
          getD_set_ne _ _ _ _ _ (by omega),
          setSeq_getD_ge L _ pre.length j Nop (by omega)]
      exact setRangeNop_getD_in (body.length + 2) cA.prog pre.length j Nop
        (by omega) (by omega) (by rw [hPlen, hlenP]; omega)
  · intro m
    exact List.sorted_insertionSort _ _

/-- Witness for the C1 theorem at pre = [], body = [Decrement, MoveRight,
Increment, MoveLeft], post = [], v = -1: the Zero lands right after the single
Add 1 copy. -/
theorem counted_loop_commit_witness :
    (simplify_loops ([] ++ (JumpIfZero :: ([Decrement, MoveRight, Increment, MoveLeft]
        ++ (JumpUnlessZero :: []))))).getD
      (List.length ([] : List Instruction) +
        (flatCopies (decide ((-1 : Int) = -1))
          (scanBody 0 [] [Decrement, MoveRight, Increment, MoveLeft]).2
          (sortedKeys (scanBody 0 [] [Decrement, MoveRight, Increment, MoveLeft]).2)).length)
      Nop = Instruction.Zero :=
  (counted_loop_commit.1 [] [Decrement, MoveRight, Increment, MoveLeft] [] (-1)
    (by decide) (by decide) (by decide) (by decide)).2.1

/-! ### Dispatch equations and invariants for vectorize_scans -/

theorem vsStep_jiz (c : VCfg) (h : c.prog.getD c.pc Nop = JumpIfZero) :
    vsStep c = { c with
      pc := c.pc + 1,
      in_loop := true,
      head_delta := 0,
      start_pc := c.pc } := by
  unfold vsStep; rw [h]

theorem vsStep_ml (c : VCfg) (h : c.prog.getD c.pc Nop = MoveLeft)
    (hin : c.in_loop = true) :
    vsStep c = { c with pc := c.pc + 1, head_delta := c.head_delta - 1 } := by
  unfold vsStep; rw [h, hin]; rfl

theorem vsStep_mr (c : VCfg) (h : c.prog.getD c.pc Nop = MoveRight)
    (hin : c.in_loop = true) :
    vsStep c = { c with pc := c.pc + 1, head_delta := c.head_delta + 1 } := by
  unfold vsStep; rw [h, hin]; rfl

theorem vsStep_juz_notin (c : VCfg) (h : c.prog.getD c.pc Nop = JumpUnlessZero)
    (hin : c.in_loop = false) :
    vsStep c = { c with pc := c.pc + 1 } := by
  unfold vsStep; rw [h, hin]; rfl

theorem vsStep_juz_zero (c : VCfg) (h : c.prog.getD c.pc Nop = JumpUnlessZero)
    (hin : c.in_loop = true) (hhd : c.head_delta = 0) :
    vsStep c = { c with pc := c.pc + 1, in_loop := false } := by
  unfold vsStep; rw [h, hin, if_pos hhd]; rfl

theorem vsStep_juz_scan (c : VCfg) (h : c.prog.getD c.pc Nop = JumpUnlessZero)
    (hin : c.in_loop = true) (hhd : c.head_delta ≠ 0) :
    vsStep c = { c with
      prog := (setRangeNop c.prog c.start_pc (c.pc + 1 - c.start_pc)).set c.start_pc
        (Scan c.head_delta),
      pc := c.pc + 1,
      in_loop := false } := by
  unfold vsStep; rw [h, hin, if_neg hhd]; rfl

/-- The opcodes that keep the in_loop flag alive in vectorize_scans. -/
def vsKeeps : Instruction → Bool
  | MoveLeft => true
  | MoveRight => true
  | _ => false

theorem vsStep_nonjump (c : VCfg)
    (h1 : c.prog.getD c.pc Nop ≠ JumpIfZero)
    (h2 : c.prog.getD c.pc Nop ≠ JumpUnlessZero) :
    (vsStep c).prog = c.prog ∧ (vsStep c).pc = c.pc + 1 ∧
    (vsStep c).start_pc = c.start_pc ∧
    (vsStep c).in_loop = (c.in_loop && vsKeeps (c.prog.getD c.pc Nop)) := by
  cases hb : c.in_loop <;> cases hop : c.prog.getD c.pc Nop <;>
    first
      | exact absurd hop h1
      | exact absurd hop h2
      | (unfold vsStep; rw [hop, hb]; exact ⟨rfl, rfl, rfl, rfl⟩)

theorem vsStep_pc (c : VCfg) : (vsStep c).pc = c.pc + 1 := by
  unfold vsStep; cases h : c.prog.getD c.pc Nop <;> (repeat' split) <;> simp_all

/-- The invariant of the vectorize_scans loop: while in a loop, the recorded
opening bracket lies strictly before the loop index. -/
def VInv (c : VCfg) : Prop := c.in_loop = true → c.start_pc < c.pc

theorem VInv_of_false (c : VCfg) (h : c.in_loop = false) : VInv c := by
  intro h'
  rw [h] at h'
  exact Bool.noConfusion h'

theorem vsStep_VInv (c : VCfg) (h : VInv c) : VInv (vsStep c) := by
  cases hop : c.prog.getD c.pc Nop
  case JumpIfZero =>
    rw [vsStep_jiz c hop]
    intro _
    show c.pc < c.pc + 1
    omega
  case JumpUnlessZero =>
    cases hb : c.in_loop
    · rw [vsStep_juz_notin c hop hb]
      intro hh
      exact absurd (hb.symm.trans hh) (by simp)
    · by_cases hhd : c.head_delta = 0
      · rw [vsStep_juz_zero c hop hb hhd]; exact VInv_of_false _ rfl
      · rw [vsStep_juz_scan c hop hb hhd]; exact VInv_of_false _ rfl
  case MoveLeft =>
    cases hb : c.in_loop
    · obtain ⟨_, _, _, hin⟩ := vsStep_nonjump c (by rw [hop]; simp) (by rw [hop]; simp)
      exact VInv_of_false _ (by rw [hin, hb]; rfl)
    · rw [vsStep_ml c hop hb]
      intro _
      have h1 := h hb
      show c.start_pc < c.pc + 1
      omega
  case MoveRight =>
    cases hb : c.in_loop
    · obtain ⟨_, _, _, hin⟩ := vsStep_nonjump c (by rw [hop]; simp) (by rw [hop]; simp)
      exact VInv_of_false _ (by rw [hin, hb]; rfl)
    · rw [vsStep_mr c hop hb]
      intro _
      have h1 := h hb
      show c.start_pc < c.pc + 1
      omega
  all_goals
    obtain ⟨_, _, _, hin⟩ := vsStep_nonjump c (by rw [hop]; simp) (by rw [hop]; simp)
    exact VInv_of_false _ (by rw [hin, hop]; simp [vsKeeps])

theorem vsStep_above (c : VCfg) (hInv : VInv c) (i : Nat) (hi : c.pc < i) (d : Instruction) :
    (vsStep c).prog.getD i d = c.prog.getD i d := by
  cases hop : c.prog.getD c.pc Nop
  case JumpIfZero => rw [vsStep_jiz c hop]
  case JumpUnlessZero =>
    cases hb : c.in_loop
    · rw [vsStep_juz_notin c hop hb]
    · by_cases hhd : c.head_delta = 0
      · rw [vsStep_juz_zero c hop hb hhd]
      · rw [vsStep_juz_scan c hop hb hhd]
        have hlt := hInv hb
        show ((setRangeNop c.prog c.start_pc (c.pc + 1 - c.start_pc)).set c.start_pc
          (Scan c.head_delta)).getD i d = _
        rw [getD_set_ne _ _ _ _ _ (by omega)]
        rw [setRangeNop_getD_ge _ _ _ _ _ (by omega)]
  all_goals
    obtain ⟨hp, _, _, _⟩ := vsStep_nonjump c (by rw [hop]; simp) (by rw [hop]; simp)
    rw [hp]

theorem vsStep_below (c : VCfg) (i : Nat) (d : Instruction)
    (h : c.in_loop = false ∨ i < c.start_pc) :
    (vsStep c).prog.getD i d = c.prog.getD i d := by
  cases hop : c.prog.getD c.pc Nop
  case JumpIfZero => rw [vsStep_jiz c hop]
  case JumpUnlessZero =>
    cases hb : c.in_loop
    · rw [vsStep_juz_notin c hop hb]
    · have hi : i < c.start_pc := by
        rcases h with h | h
        · exact absurd (hb.symm.trans h) (by simp)
        · exact h
      by_cases hhd : c.head_delta = 0
      · rw [vsStep_juz_zero c hop hb hhd]
      · rw [vsStep_juz_scan c hop hb hhd]
        show ((setRangeNop c.prog c.start_pc (c.pc + 1 - c.start_pc)).set c.start_pc
          (Scan c.head_delta)).getD i d = _
        rw [getD_set_ne _ _ _ _ _ (by omega)]
        rw [setRangeNop_getD_lt _ _ _ _ _ (by omega)]
  all_goals
    obtain ⟨hp, _, _, _⟩ := vsStep_nonjump c (by rw [hop]; simp) (by rw [hop]; simp)
    rw [hp]

theorem vsStep_start (c : VCfg) (h : (vsStep c).in_loop = true) :
    (vsStep c).start_pc = c.pc ∨
    ((vsStep c).start_pc = c.start_pc ∧ c.in_loop = true) := by
  cases hop : c.prog.getD c.pc Nop
  case JumpIfZero => rw [vsStep_jiz c hop]; left; rfl
  case JumpUnlessZero =>
    cases hb : c.in_loop
    · rw [vsStep_juz_notin c hop hb] at h ⊢
      exact absurd (hb.symm.trans h) (by simp)
    · by_cases hhd : c.head_delta = 0
      · rw [vsStep_juz_zero c hop hb hhd] at h
        exact absurd h (by simp)
      · rw [vsStep_juz_scan c hop hb hhd] at h
        exact absurd h (by simp)
  all_goals
    obtain ⟨_, _, hst, hin⟩ := vsStep_nonjump c (by rw [hop]; simp) (by rw [hop]; simp)
    rw [hin] at h
    right
    exact ⟨hst, by
      cases hb : c.in_loop
      · rw [hb] at h; simp at h
      · rfl⟩

theorem vsIter_add (a b : Nat) (c : VCfg) : vsIter (a + b) c = vsIter b (vsIter a c) := by
  induction a generalizing c with
  | zero => rw [Nat.zero_add]; rfl
  | succ a ih =>
    rw [show a + 1 + b = (a + b) + 1 from by omega]
    show vsIter (a + b) (vsStep c) = _
    rw [ih (vsStep c)]
    rfl

theorem vsIter_pc : ∀ (n : Nat) (c : VCfg), (vsIter n c).pc = c.pc + n := by
  intro n
  induction n with
  | zero => intro c; rfl
  | succ n ih =>
    intro c
    show (vsIter n (vsStep c)).pc = _
    rw [ih (vsStep c), vsStep_pc]
    omega

theorem vsIter_VInv : ∀ (n : Nat) (c : VCfg), VInv c → VInv (vsIter n c) := by
  intro n
  induction n with
  | zero => intro c h; exact h
  | succ n ih => intro c h; exact ih (vsStep c) (vsStep_VInv c h)

theorem vsIter_above : ∀ (n : Nat) (c : VCfg), VInv c → ∀ (i : Nat) (d : Instruction),
    c.pc + n ≤ i → (vsIter n c).prog.getD i d = c.prog.getD i d := by
  intro n
  induction n with
  | zero => intro c _ i d _; rfl
  | succ n ih =>
    intro c h i d hi
    show (vsIter n (vsStep c)).prog.getD i d = _
    rw [ih (vsStep c) (vsStep_VInv c h) i d (by rw [vsStep_pc]; omega)]
    exact vsStep_above c h i (by omega) d

theorem vsIter_below : ∀ (n : Nat) (c : VCfg) (s : Nat), s ≤ c.pc →
    (c.in_loop = true → s ≤ c.start_pc) → ∀ (i : Nat) (d : Instruction), i < s →
    (vsIter n c).prog.getD i d = c.prog.getD i d := by
  intro n
  induction n with
  | zero => intro c s _ _ i d _; rfl
  | succ n ih =>
    intro c s hs hstart i d hi
    show (vsIter n (vsStep c)).prog.getD i d = _
    have hbelow : (vsStep c).prog.getD i d = c.prog.getD i d := by
      apply vsStep_below
      cases hb : c.in_loop
      · left; rfl
      · right
        have := hstart hb
        omega
    rw [ih (vsStep c) s (by rw [vsStep_pc]; omega) ?_ i d hi, hbelow]
    intro hin'
    rcases vsStep_start c hin' with hh | ⟨hh, hb⟩
    · omega
    · rw [hh]
      exact hstart hb

theorem length_vsIter' (n : Nat) (c : VCfg) :
    (vsIter n c).prog.length = c.prog.length := by
  induction n generalizing c with
  | zero => rfl
  | succ n ih => rw [vsIter, ih, length_vsStep]

/-- Phase A of a vectorize_scans run. -/
theorem vs_phaseA (P : List Instruction) (o : Nat) :
    VInv (vsIter o ⟨P, 0, false, 0, 0⟩) ∧
    (vsIter o ⟨P, 0, false, 0, 0⟩).pc = o ∧
    ∀ i d, o ≤ i → (vsIter o ⟨P, 0, false, 0, 0⟩).prog.getD i d = P.getD i d := by
  refine ⟨vsIter_VInv o _ (VInv_of_false _ rfl), ?_, ?_⟩
  · rw [vsIter_pc]
    show 0 + o = o
    omega
  · intro i d hi
    have h := vsIter_above o ⟨P, 0, false, 0, 0⟩ (VInv_of_false _ rfl) i d
      (by show 0 + o ≤ i; omega)
    rw [h]

/-- The head_delta accumulated by vectorize_scans over a run of
MoveRight/MoveLeft tokens while in a loop. -/
def netHead : Int → List Instruction → Int
  | hd, [] => hd
  | hd, MoveLeft :: rest => netHead (hd - 1) rest
  | hd, MoveRight :: rest => netHead (hd + 1) rest
  | hd, _ :: rest => netHead hd rest

theorem vscan_moves : ∀ (body : List Instruction) (c : VCfg),
    c.in_loop = true →
    (∀ t ∈ body, t = MoveRight ∨ t = MoveLeft) →
    (∀ k, k < body.length → c.prog.getD (c.pc + k) Nop = body.getD k Nop) →
    vsIter body.length c = { c with
      pc := c.pc + body.length,
      head_delta := netHead c.head_delta body } := by
  intro body
  induction body with
  | nil =>
    intro c _ _ _
    show c = _
    simp only [List.length_nil, Nat.add_zero, netHead]
  | cons t rest ih =>
    intro c hin hmv halign
    have hop : c.prog.getD c.pc Nop = t := by
      have h0 := halign 0 (by simp)
      simpa using h0
    have hmv' : ∀ u ∈ rest, u = MoveRight ∨ u = MoveLeft :=
      fun u hu => hmv u (List.mem_cons_of_mem _ hu)
    have halign' : ∀ (c' : VCfg), c'.prog = c.prog → c'.pc = c.pc + 1 →
        ∀ k, k < rest.length → c'.prog.getD (c'.pc + k) Nop = rest.getD k Nop := by
      intro c' hp hpc k hk
      rw [hp, hpc, show c.pc + 1 + k = c.pc + (k + 1) from by omega,
        halign (k + 1) (by simp only [List.length_cons]; omega)]
      rfl
    have hlen : c.pc + (t :: rest).length = c.pc + 1 + rest.length := by
      simp only [List.length_cons]
      omega
    have hnj1 : c.prog.getD c.pc Nop ≠ JumpIfZero := by
      rcases hmv t (List.mem_cons_self t rest) with h | h <;> rw [hop, h] <;> simp
    have hnj2 : c.prog.getD c.pc Nop ≠ JumpUnlessZero := by
      rcases hmv t (List.mem_cons_self t rest) with h | h <;> rw [hop, h] <;> simp
    obtain ⟨hp, hpc, _, hinl⟩ := vsStep_nonjump c hnj1 hnj2
    have hin' : (vsStep c).in_loop = true := by
      rw [hinl, hin, hop]
      rcases hmv t (List.mem_cons_self t rest) with h | h <;> rw [h] <;> rfl
    have hal' := halign' (vsStep c) hp hpc
    rcases hmv t (List.mem_cons_self t rest) with h | h <;> subst h
    · show vsIter rest.length (vsStep c) = _
      rw [ih (vsStep c) hin' hmv' hal', vsStep_mr c hop hin, hlen]
      rfl
    · show vsIter rest.length (vsStep c) = _
      rw [ih (vsStep c) hin' hmv' hal', vsStep_ml c hop hin, hlen]
      rfl

theorem vscan_nojump : ∀ (body : List Instruction) (c : VCfg),
    (∀ t ∈ body, t ≠ JumpIfZero ∧ t ≠ JumpUnlessZero) →
    (∀ k, k < body.length → c.prog.getD (c.pc + k) Nop = body.getD k Nop) →
    (vsIter body.length c).prog = c.prog ∧
    (vsIter body.length c).pc = c.pc + body.length ∧
    (vsIter body.length c).start_pc = c.start_pc ∧
    (vsIter body.length c).in_loop = (c.in_loop && body.all vsKeeps) := by
  intro body
  induction body with
  | nil =>
    intro c _ _
    exact ⟨rfl, by simp [vsIter], rfl, by simp [vsIter]⟩
  | cons t rest ih =>
    intro c hnj halign
    have hop : c.prog.getD c.pc Nop = t := by
      have h0 := halign 0 (by simp)
      simpa using h0
    obtain ⟨h1, h2⟩ := hnj t (List.mem_cons_self t rest)
    obtain ⟨hp, hpc, hst, hinl⟩ := vsStep_nonjump c (by rw [hop]; exact h1)
      (by rw [hop]; exact h2)
    have hnj' : ∀ u ∈ rest, u ≠ JumpIfZero ∧ u ≠ JumpUnlessZero :=
      fun u hu => hnj u (List.mem_cons_of_mem _ hu)
    have halign' : ∀ k, k < rest.length →
        (vsStep c).prog.getD ((vsStep c).pc + k) Nop = rest.getD k Nop := by
      intro k hk
      rw [hp, hpc, show c.pc + 1 + k = c.pc + (k + 1) from by omega,
        halign (k + 1) (by simp only [List.length_cons]; omega)]
      rfl
    obtain ⟨ih1, ih2, ih3, ih4⟩ := ih (vsStep c) hnj' halign'
    refine ⟨?_, ?_, ?_, ?_⟩
    · show (vsIter rest.length (vsStep c)).prog = c.prog
      rw [ih1, hp]
    · show (vsIter rest.length (vsStep c)).pc = _
      rw [ih2, hpc]
      simp only [List.length_cons]
      omega
    · show (vsIter rest.length (vsStep c)).start_pc = _
      rw [ih3, hst]
    · show (vsIter rest.length (vsStep c)).in_loop = _
      rw [ih4, hinl, hop]
      simp [Bool.and_assoc]

/-- C4, counterexample to the original wording: in "[[>]]" the outer bracket
pair's body [JumpIfZero, MoveRight, JumpUnlessZero] contains opcodes other
than moves, yet the pass does not leave that loop unchanged: the inner scan
loop is rewritten inside the outer range (Scan 1 at position 1, Nops after). -/
theorem scan_nested_cex :
    lex ['[', '[', '>', ']', ']']
      = [JumpIfZero, JumpIfZero, MoveRight, JumpUnlessZero, JumpUnlessZero] ∧
    vectorize_scans (lex ['[', '[', '>', ']', ']'])
      = [JumpIfZero, Scan 1, Nop, Nop, JumpUnlessZero] ∧
    (lex ['[', '[', '>', ']', ']']).getD 1 Nop
      ≠ (vectorize_scans (lex ['[', '[', '>', ']', ']'])).getD 1 Nop := by
  refine ⟨rfl, ?_, ?_⟩ <;> decide

/-- C4 (amended): the scan-vectorize pass rewrites a bracket pair whose body is
all MoveRight/MoveLeft with nonzero net head delta (Scan(net) at the opening
bracket, Nop through the closing bracket, either sign of delta); a moves-only
body with net delta 0 is left unchanged, and a jump-free body containing any
opcode other than a move is left unchanged. (The original claim's "any other
opcode in the body" also covered jumps; that is refuted by nested scan loops,
which are rewritten inside the outer pair's range.) -/
theorem scan_rewrite :
    (∀ (pre body post : List Instruction),
      (∀ t ∈ body, t = MoveRight ∨ t = MoveLeft) →
      netHead 0 body ≠ 0 →
      ((vectorize_scans (pre ++ (JumpIfZero :: (body ++ (JumpUnlessZero :: post))))).getD
          pre.length Nop = Scan (netHead 0 body) ∧
       ∀ j, pre.length < j → j ≤ pre.length + body.length + 1 →
        (vectorize_scans (pre ++ (JumpIfZero :: (body ++ (JumpUnlessZero :: post))))).getD
            j Nop = Nop)) ∧
    (∀ (pre body post : List Instruction),
      (∀ t ∈ body, t = MoveRight ∨ t = MoveLeft) →
      netHead 0 body = 0 →
      ∀ j, pre.length ≤ j → j ≤ pre.length + body.length + 1 →
        (vectorize_scans (pre ++ (JumpIfZero :: (body ++ (JumpUnlessZero :: post))))).getD
            j Nop
          = (pre ++ (JumpIfZero :: (body ++ (JumpUnlessZero :: post)))).getD j Nop) ∧
    (∀ (pre body post : List Instruction),
      (∀ t ∈ body, t ≠ JumpIfZero ∧ t ≠ JumpUnlessZero) →
      (∃ t ∈ body, t ≠ MoveRight ∧ t ≠ MoveLeft) →
      ∀ j, pre.length ≤ j → j ≤ pre.length + body.length + 1 →
        (vectorize_scans (pre ++ (JumpIfZero :: (body ++ (JumpUnlessZero :: post))))).getD
            j Nop
          = (pre ++ (JumpIfZero :: (body ++ (JumpUnlessZero :: post)))).getD j Nop) := by
  refine ⟨?_, ?_, ?_⟩
  · intro pre body post hmv hnet
    set P : List Instruction := pre ++ (JumpIfZero :: (body ++ (JumpUnlessZero :: post)))
      with hP
    obtain ⟨hInvA, hApc, hAprog⟩ := vs_phaseA P pre.length
    set cA : VCfg := vsIter pre.length ⟨P, 0, false, 0, 0⟩ with hcA
    have hBop : cA.prog.getD cA.pc Nop = JumpIfZero := by
      rw [hApc, hAprog pre.length Nop (Nat.le_refl _), hP]
      exact loopP_open pre body post
    have hBstep := vsStep_jiz cA hBop
    have hBin : (vsStep cA).in_loop = true := by rw [hBstep]
    have halignC : ∀ k, k < body.length →
        (vsStep cA).prog.getD ((vsStep cA).pc + k) Nop = body.getD k Nop := by
      intro k hk
      rw [hBstep]
      show cA.prog.getD (cA.pc + 1 + k) Nop = body.getD k Nop
      rw [hApc, show pre.length + 1 + k = pre.length + (k + 1) from by omega,
          hAprog (pre.length + (k + 1)) Nop (by omega), hP]
      exact loopP_body pre body post k hk
    have hsc := vscan_moves body (vsStep cA) hBin hmv halignC
    have hCprogeq : (vsIter body.length (vsStep cA)).prog = cA.prog := by
      rw [hsc, hBstep]
    have hCpc : (vsIter body.length (vsStep cA)).pc = pre.length + (body.length + 1) := by
      rw [hsc, hBstep]
      show cA.pc + 1 + body.length = _
      rw [hApc]
      omega
    have hCin : (vsIter body.length (vsStep cA)).in_loop = true := by
      rw [hsc, hBstep]
    have hCst : (vsIter body.length (vsStep cA)).start_pc = pre.length := by
      rw [hsc, hBstep]
      show cA.pc = pre.length
      exact hApc
    have hChd : (vsIter body.length (vsStep cA)).head_delta = netHead 0 body := by
      rw [hsc, hBstep]
    have hChd' : (vsIter body.length (vsStep cA)).head_delta ≠ 0 := by
      rw [hChd]
      exact hnet
    have hCop : (vsIter body.length (vsStep cA)).prog.getD
        (vsIter body.length (vsStep cA)).pc Nop = JumpUnlessZero := by
      rw [hCprogeq, hCpc, hAprog _ Nop (by omega), hP]
      exact loopP_close pre body post
    have hDstep := vsStep_juz_scan (vsIter body.length (vsStep cA)) hCop hCin hChd'
    rw [hCprogeq, hCst, hCpc, hChd,
        show pre.length + (body.length + 1) + 1 - pre.length = body.length + 2 from by omega]
      at hDstep
    have hDprog : (vsStep (vsIter body.length (vsStep cA))).prog
        = (setRangeNop cA.prog pre.length (body.length + 2)).set pre.length
            (Scan (netHead 0 body)) := by
      rw [hDstep]
    have hDpc : (vsStep (vsIter body.length (vsStep cA))).pc
        = pre.length + (body.length + 1) + 1 := by
      rw [hDstep]
    have hDin : (vsStep (vsIter body.length (vsStep cA))).in_loop = false := by
      rw [hDstep]
    have hE : ∀ i d, i < pre.length + (body.length + 1) + 1 →
        (vsIter post.length (vsStep (vsIter body.length (vsStep cA)))).prog.getD i d
          = (vsStep (vsIter body.length (vsStep cA))).prog.getD i d := by
      intro i d hi
      have h1 : pre.length + (body.length + 1) + 1
          ≤ (vsStep (vsIter body.length (vsStep cA))).pc := by
        rw [hDpc]
      have h2 : (vsStep (vsIter body.length (vsStep cA))).in_loop = true →
          pre.length + (body.length + 1) + 1
            ≤ (vsStep (vsIter body.length (vsStep cA))).start_pc := by
        intro hin'
        rw [hDin] at hin'
        exact Bool.noConfusion hin'
      exact vsIter_below post.length _ _ h1 h2 i d hi
    have hlenP : P.length = pre.length + (1 + (body.length + (1 + post.length))) := by
      rw [hP]
      exact loopP_len pre body post
    have hsplit : vectorize_scans P
        = (vsIter post.length (vsStep (vsIter body.length (vsStep cA)))).prog := by
      show (vsIter P.length ⟨P, 0, false, 0, 0⟩).prog = _
      rw [hlenP, vsIter_add, vsIter_add, vsIter_add, vsIter_add, ← hcA]
      rfl
    have hPlen : cA.prog.length = P.length := by
      rw [hcA, length_vsIter']
    constructor
    · rw [hsplit, hE _ Nop (by omega), hDprog,
          getD_set_eq _ _ _ _ (by rw [length_setRangeNop, hPlen, hlenP]; omega)]
    · intro j hj1 hj2
      rw [hsplit, hE _ Nop (by omega), hDprog,
          getD_set_ne _ _ _ _ _ (by omega)]
      exact setRangeNop_getD_in (body.length + 2) cA.prog pre.length j Nop
        (by omega) (by omega) (by rw [hPlen, hlenP]; omega)
  · intro pre body post hmv hnet j hj1 hj2
    set P : List Instruction := pre ++ (JumpIfZero :: (body ++ (JumpUnlessZero :: post)))
      with hP
    obtain ⟨hInvA, hApc, hAprog⟩ := vs_phaseA P pre.length
    set cA : VCfg := vsIter pre.length ⟨P, 0, false, 0, 0⟩ with hcA
    have hBop : cA.prog.getD cA.pc Nop = JumpIfZero := by
      rw [hApc, hAprog pre.length Nop (Nat.le_refl _), hP]
      exact loopP_open pre body post
    have hBstep := vsStep_jiz cA hBop
    have hBin : (vsStep cA).in_loop = true := by rw [hBstep]
    have halignC : ∀ k, k < body.length →
        (vsStep cA).prog.getD ((vsStep cA).pc + k) Nop = body.getD k Nop := by
      intro k hk
      rw [hBstep]
      show cA.prog.getD (cA.pc + 1 + k) Nop = body.getD k Nop
      rw [hApc, show pre.length + 1 + k = pre.length + (k + 1) from by omega,
          hAprog (pre.length + (k + 1)) Nop (by omega), hP]
      exact loopP_body pre body post k hk
    have hsc := vscan_moves body (vsStep cA) hBin hmv halignC
    have hCprogeq : (vsIter body.length (vsStep cA)).prog = cA.prog := by
      rw [hsc, hBstep]
    have hCpc : (vsIter body.length (vsStep cA)).pc = pre.length + (body.length + 1) := by
      rw [hsc, hBstep]
      show cA.pc + 1 + body.length = _
      rw [hApc]
      omega
    have hCin : (vsIter body.length (vsStep cA)).in_loop = true := by
      rw [hsc, hBstep]
    have hChd0 : (vsIter body.length (vsStep cA)).head_delta = 0 := by
      rw [hsc, hBstep]
      show netHead 0 body = 0
      exact hnet
    have hCop : (vsIter body.length (vsStep cA)).prog.getD
        (vsIter body.length (vsStep cA)).pc Nop = JumpUnlessZero := by
      rw [hCprogeq, hCpc, hAprog _ Nop (by omega), hP]
      exact loopP_close pre body post
    have hDstep := vsStep_juz_zero (vsIter body.length (vsStep cA)) hCop hCin hChd0
    rw [hCpc] at hDstep
    have hDprog : (vsStep (vsIter body.length (vsStep cA))).prog = cA.prog := by
      rw [hDstep]
      exact hCprogeq
    have hDpc : (vsStep (vsIter body.length (vsStep cA))).pc
        = pre.length + (body.length + 1) + 1 := by
      rw [hDstep]
    have hDin : (vsStep (vsIter body.length (vsStep cA))).in_loop = false := by
      rw [hDstep]
    have hE : ∀ i d, i < pre.length + (body.length + 1) + 1 →
        (vsIter post.length (vsStep (vsIter body.length (vsStep cA)))).prog.getD i d
          = (vsStep (vsIter body.length (vsStep cA))).prog.getD i d := by
      intro i d hi
      have h1 : pre.length + (body.length + 1) + 1
          ≤ (vsStep (vsIter body.length (vsStep cA))).pc := by
        rw [hDpc]
      have h2 : (vsStep (vsIter body.length (vsStep cA))).in_loop = true →
          pre.length + (body.length + 1) + 1
            ≤ (vsStep (vsIter body.length (vsStep cA))).start_pc := by
        intro hin'
        rw [hDin] at hin'
        exact Bool.noConfusion hin'
      exact vsIter_below post.length _ _ h1 h2 i d hi
    have hlenP : P.length = pre.length + (1 + (body.length + (1 + post.length))) := by
      rw [hP]
      exact loopP_len pre body post
    have hsplit : vectorize_scans P
        = (vsIter post.length (vsStep (vsIter body.length (vsStep cA)))).prog := by
      show (vsIter P.length ⟨P, 0, false, 0, 0⟩).prog = _
      rw [hlenP, vsIter_add, vsIter_add, vsIter_add, vsIter_add, ← hcA]
      rfl
    rw [hsplit, hE _ Nop (by omega), hDprog, hAprog j Nop hj1]
  · intro pre body post hnj hex j hj1 hj2
    set P : List Instruction := pre ++ (JumpIfZero :: (body ++ (JumpUnlessZero :: post)))
      with hP
    obtain ⟨hInvA, hApc, hAprog⟩ := vs_phaseA P pre.length
    set cA : VCfg := vsIter pre.length ⟨P, 0, false, 0, 0⟩ with hcA
    have hBop : cA.prog.getD cA.pc Nop = JumpIfZero := by
      rw [hApc, hAprog pre.length Nop (Nat.le_refl _), hP]
      exact loopP_open pre body post
    have hBstep := vsStep_jiz cA hBop
    have halignC : ∀ k, k < body.length →
        (vsStep cA).prog.getD ((vsStep cA).pc + k) Nop = body.getD k Nop := by
      intro k hk
      rw [hBstep]
      show cA.prog.getD (cA.pc + 1 + k) Nop = body.getD k Nop
      rw [hApc, show pre.length + 1 + k = pre.length + (k + 1) from by omega,
          hAprog (pre.length + (k + 1)) Nop (by omega), hP]
      exact loopP_body pre body post k hk
    obtain ⟨hCp, hCpc, hCst, hCin⟩ := vscan_nojump body (vsStep cA) hnj halignC
    have hallF : body.all vsKeeps = false := by
      obtain ⟨t, htmem, ht1, ht2⟩ := hex
      cases hall : body.all vsKeeps
      · rfl
      · exfalso
        have h := List.all_eq_true.mp hall t htmem
        cases t <;> first
          | exact Bool.noConfusion h
          | exact ht1 rfl
          | exact ht2 rfl
    have hCinF : (vsIter body.length (vsStep cA)).in_loop = false := by
      rw [hCin, hallF, Bool.and_false]
    have hCpc' : (vsIter body.length (vsStep cA)).pc = pre.length + (body.length + 1) := by
      rw [hCpc, hBstep]
      show cA.pc + 1 + body.length = _
      rw [hApc]
      omega
    have hCprog : ∀ i d, pre.length ≤ i →
        (vsIter body.length (vsStep cA)).prog.getD i d = P.getD i d := by
      intro i d hi
      rw [hCp, hBstep]
      show cA.prog.getD i d = P.getD i d
      exact hAprog i d hi
    have hDop : (vsIter body.length (vsStep cA)).prog.getD
        (vsIter body.length (vsStep cA)).pc Nop = JumpUnlessZero := by
      rw [hCpc', hCprog _ Nop (by omega), hP]
      exact loopP_close pre body post
    have hDstep := vsStep_juz_notin (vsIter body.length (vsStep cA)) hDop hCinF
    rw [hCpc'] at hDstep
    have hDpc : (vsStep (vsIter body.length (vsStep cA))).pc
        = pre.length + (body.length + 1) + 1 := by
      rw [hDstep]
    have hDin : (vsStep (vsIter body.length (vsStep cA))).in_loop = false := by
      rw [hDstep]
      exact hCinF
    have hE : ∀ i d, i < pre.length + (body.length + 1) + 1 →
        (vsIter post.length (vsStep (vsIter body.length (vsStep cA)))).prog.getD i d
          = (vsStep (vsIter body.length (vsStep cA))).prog.getD i d := by
      intro i d hi
      have h1 : pre.length + (body.length + 1) + 1
          ≤ (vsStep (vsIter body.length (vsStep cA))).pc := by
        rw [hDpc]
      have h2 : (vsStep (vsIter body.length (vsStep cA))).in_loop = true →
          pre.length + (body.length + 1) + 1
            ≤ (vsStep (vsIter body.length (vsStep cA))).start_pc := by
        intro hin'
        rw [hDin] at hin'
        exact Bool.noConfusion hin'
      exact vsIter_below post.length _ _ h1 h2 i d hi
    have hlenP : P.length = pre.length + (1 + (body.length + (1 + post.length))) := by
      rw [hP]
      exact loopP_len pre body post
    have hsplit : vectorize_scans P
        = (vsIter post.length (vsStep (vsIter body.length (vsStep cA)))).prog := by
      show (vsIter P.length ⟨P, 0, false, 0, 0⟩).prog = _
      rw [hlenP, vsIter_add, vsIter_add, vsIter_add, vsIter_add, ← hcA]
      rfl
    have hDprog : (vsStep (vsIter body.length (vsStep cA))).prog
        = (vsIter body.length (vsStep cA)).prog := by
      rw [hDstep]
    rw [hsplit, hE _ Nop (by omega), hDprog, hCprog j Nop hj1]

/-- Witness for the amended C4 theorem at pre = [], body = [MoveRight],
post = []: the opening bracket becomes Scan 1. -/
theorem scan_rewrite_witness :
    (vectorize_scans ([] ++ (JumpIfZero :: ([MoveRight] ++ (JumpUnlessZero :: []))))).getD
        (List.length ([] : List Instruction)) Nop = Scan (netHead 0 [MoveRight]) :=
  (scan_rewrite.1 [] [MoveRight] [] (by decide) (by decide)).1

/-! ### The loop profiler (get_loop_executions, src/interp.rs) -/

/-- LoopExecution of src/interp.rs. -/
structure LoopExecution where
  pc : Nat
  num_times_executed : Nat
  insts : List Instruction
deriving DecidableEq, Repr

/-- The mutable locals of get_loop_executions, plus the loop index pc and the
two result tables. -/
structure PCfg where
  pc : Nat
  curr_loop : Option LoopExecution
  has_io : Bool
  pointer_offset : Int
  pointer_value : Int
  simple_loops : List LoopExecution
  complex_loops : List LoopExecution
deriving DecidableEq, Repr

/-- has_io update of the middle match of the profiler body. -/
def ioStep (t : Instruction) (io : Bool) : Bool :=
  match t with
  | Write => true
  | Read => true
  | _ => io

/-- pointer_offset update of the middle match of the profiler body. -/
def offStep (t : Instruction) (off : Int) : Int :=
  match t with
  | MoveRight => off + 1
  | MoveLeft => off - 1
  | _ => off

/-- pointer_value update of the middle match of the profiler body. -/
def valStep (t : Instruction) (off val : Int) : Int :=
  match t with
  | Increment => if off = 0 then val + 1 else val
  | Decrement => if off = 0 then val - 1 else val
  | _ => val

/-- The first match of the profiler body: push the current opcode onto the
tracked loop's instruction list. -/
def pushInst (inst : Instruction) : Option LoopExecution → Option LoopExecution
  | none => none
  | some l => some { l with insts := l.insts ++ [inst] }

/-- One iteration of `for pc in 0..self.program.len()` in get_loop_executions. -/
def glStep (prog : List Instruction) (counter : List Nat) (c : PCfg) : PCfg :=
  let inst := prog.getD c.pc Nop
  let curr1 := pushInst inst c.curr_loop
  let io1 := ioStep inst c.has_io
  let off1 := offStep inst c.pointer_offset
  let val1 := valStep inst c.pointer_offset c.pointer_value
  match inst with
  | JumpIfZero =>
    { c with
      pc := c.pc + 1,
      curr_loop := some ⟨c.pc, 0, [JumpIfZero]⟩,
      has_io := false,
      pointer_offset := 0,
      pointer_value := 0 }
  | JumpUnlessZero =>
    match curr1 with
    | none =>
      { c with
        pc := c.pc + 1,
        curr_loop := none,
        has_io := io1,
        pointer_offset := off1,
        pointer_value := val1 }
    | some l =>
      if io1 = false ∧ off1 = 0 ∧ val1.natAbs = 1 then
        { c with
          pc := c.pc + 1,
          curr_loop := none,
          has_io := io1,
          pointer_offset := off1,
          pointer_value := val1,
          simple_loops := c.simple_loops ++ [l] }
      else
        { c with
          pc := c.pc + 1,
          curr_loop := none,
          has_io := io1,
          pointer_offset := off1,
          pointer_value := val1,
          complex_loops := c.complex_loops ++ [l] }
  | _ =>
    { c with
      pc := c.pc + 1,
      curr_loop := match curr1 with
        | none => none
        | some l => if l.num_times_executed = 0
            then some { l with num_times_executed := counter.getD c.pc 0 }
            else some l,
      has_io := io1,
      pointer_offset := off1,
      pointer_value := val1 }

/-- Iterating the profiler loop body n times. -/
def glIter (prog : List Instruction) (counter : List Nat) : Nat → PCfg → PCfg
  | 0, c => c
  | n + 1, c => glIter prog counter n (glStep prog counter c)

/-- Vec::sort on LoopExecution, whose Ord compares num_times_executed
descending. -/
def sortLoops (ls : List LoopExecution) : List LoopExecution :=
  List.insertionSort (fun a b => b.num_times_executed ≤ a.num_times_executed) ls

/-- get_loop_executions of src/interp.rs (the program and the per-pc execution
counter are the relevant fields of self). -/
def get_loop_executions (prog : List Instruction) (counter : List Nat) :
    List LoopExecution × List LoopExecution :=
  (sortLoops (glIter prog counter prog.length ⟨0, none, false, 0, 0, [], []⟩).simple_loops,
   sortLoops (glIter prog counter prog.length ⟨0, none, false, 0, 0, [], []⟩).complex_loops)

/-- The profiler's per-body accumulation of (has_io, pointer_offset,
pointer_value) over a run of loop-body tokens. -/
def profAcc : Bool → Int → Int → List Instruction → Bool × Int × Int
  | io, off, val, [] => (io, off, val)
  | io, off, val, t :: rest => profAcc (ioStep t io) (offStep t off) (valStep t off val) rest

theorem profAcc_cons (io : Bool) (off val : Int) (t : Instruction)
    (rest : List Instruction) :
    profAcc io off val (t :: rest)
      = profAcc (ioStep t io) (offStep t off) (valStep t off val) rest := rfl

theorem mem_sortLoops (l : LoopExecution) (ls : List LoopExecution) :
    l ∈ sortLoops ls ↔ l ∈ ls :=
  (List.perm_insertionSort _ _).mem_iff

theorem profAcc_io : ∀ (body : List Instruction) (io : Bool) (off val : Int),
    (profAcc io off val body).1 = false ↔ (io = false ∧ Read ∉ body ∧ Write ∉ body) := by
  intro body
  induction body with
  | nil => intro io off val; simp [profAcc]
  | cons t rest ih =>
    intro io off val
    rw [profAcc_cons, ih]
    cases t <;> simp [ioStep, List.mem_cons]

theorem profAcc_off : ∀ (body : List Instruction) (io : Bool) (off val : Int),
    (profAcc io off val body).2.1
      = off + ((body.count MoveRight : Int) - (body.count MoveLeft : Int)) := by
  intro body
  induction body with
  | nil => intro io off val; simp [profAcc]
  | cons t rest ih =>
    intro io off val
    rw [profAcc_cons, ih]
    cases t <;> simp [offStep, List.count_cons] <;> omega

theorem glStep_jiz (prog : List Instruction) (counter : List Nat) (c : PCfg)
    (hop : prog.getD c.pc Nop = JumpIfZero) :
    glStep prog counter c = { c with
      pc := c.pc + 1,
      curr_loop := some ⟨c.pc, 0, [JumpIfZero]⟩,
      has_io := false,
      pointer_offset := 0,
      pointer_value := 0 } := by
  unfold glStep; rw [hop]

theorem glStep_juz_none (prog : List Instruction) (counter : List Nat) (c : PCfg)
    (hop : prog.getD c.pc Nop = JumpUnlessZero) (hc : c.curr_loop = none) :
    glStep prog counter c = { c with pc := c.pc + 1, curr_loop := none } := by
  unfold glStep; rw [hop, hc]; rfl

theorem glStep_juz_some (prog : List Instruction) (counter : List Nat) (c : PCfg)
    (l : LoopExecution)
    (hop : prog.getD c.pc Nop = JumpUnlessZero) (hc : c.curr_loop = some l) :
    glStep prog counter c =
      (if c.has_io = false ∧ c.pointer_offset = 0 ∧ c.pointer_value.natAbs = 1 then
        { c with
          pc := c.pc + 1,
          curr_loop := none,
          simple_loops := c.simple_loops
            ++ [⟨l.pc, l.num_times_executed, l.insts ++ [JumpUnlessZero]⟩] }
      else
        { c with
          pc := c.pc + 1,
          curr_loop := none,
          complex_loops := c.complex_loops
            ++ [⟨l.pc, l.num_times_executed, l.insts ++ [JumpUnlessZero]⟩] }) := by
  unfold glStep; rw [hop, hc]; rfl

theorem glStep_other (prog : List Instruction) (counter : List Nat) (c : PCfg)
    (h1 : prog.getD c.pc Nop ≠ JumpIfZero) (h2 : prog.getD c.pc Nop ≠ JumpUnlessZero) :
    (glStep prog counter c).pc = c.pc + 1 ∧
    (glStep prog counter c).simple_loops = c.simple_loops ∧
    (glStep prog counter c).complex_loops = c.complex_loops ∧
    (glStep prog counter c).has_io = ioStep (prog.getD c.pc Nop) c.has_io ∧
    (glStep prog counter c).pointer_offset = offStep (prog.getD c.pc Nop) c.pointer_offset ∧
    (glStep prog counter c).pointer_value
      = valStep (prog.getD c.pc Nop) c.pointer_offset c.pointer_value ∧
    (c.curr_loop = none → (glStep prog counter c).curr_loop = none) ∧
    (∀ l0, c.curr_loop = some l0 →
      (glStep prog counter c).curr_loop = if l0.num_times_executed = 0
        then some ⟨l0.pc, counter.getD c.pc 0, l0.insts ++ [prog.getD c.pc Nop]⟩
        else some ⟨l0.pc, l0.num_times_executed, l0.insts ++ [prog.getD c.pc Nop]⟩) := by
  cases hop : prog.getD c.pc Nop <;>
    first
      | exact absurd hop h1
      | exact absurd hop h2
      | (cases hc : c.curr_loop with
          | none =>
            unfold glStep
            rw [hop, hc]
            exact ⟨rfl, rfl, rfl, rfl, rfl, rfl, fun _ => rfl,
              fun l1 hl1 => Option.noConfusion hl1⟩
          | some l0 =>
            unfold glStep
            rw [hop, hc]
            refine ⟨rfl, rfl, rfl, rfl, rfl, rfl, fun hn => Option.noConfusion hn, ?_⟩
            intro l1 hl1
            cases Option.some.inj hl1
            rfl)

theorem glStep_pc (prog : List Instruction) (counter : List Nat) (c : PCfg) :
    (glStep prog counter c).pc = c.pc + 1 := by
  by_cases h1 : prog.getD c.pc Nop = JumpIfZero
  · rw [glStep_jiz prog counter c h1]
  · by_cases h2 : prog.getD c.pc Nop = JumpUnlessZero
    · cases hc : c.curr_loop with
      | none => rw [glStep_juz_none prog counter c h2 hc]
      | some l =>
        rw [glStep_juz_some prog counter c l h2 hc]
        split <;> rfl
    · exact (glStep_other prog counter c h1 h2).1

theorem glStep_new (prog : List Instruction) (counter : List Nat) (c : PCfg) :
    (∀ l, l ∈ (glStep prog counter c).simple_loops →
      l ∈ c.simple_loops ∨ (∃ l0, c.curr_loop = some l0 ∧ l.pc = l0.pc)) ∧
    (∀ l, l ∈ (glStep prog counter c).complex_loops →
      l ∈ c.complex_loops ∨ (∃ l0, c.curr_loop = some l0 ∧ l.pc = l0.pc)) ∧
    (∀ l1, (glStep prog counter c).curr_loop = some l1 →
      (∃ l0, c.curr_loop = some l0 ∧ l1.pc = l0.pc) ∨ l1.pc = c.pc) := by
  by_cases h1 : prog.getD c.pc Nop = JumpIfZero
  · rw [glStep_jiz prog counter c h1]
    refine ⟨fun l hl => Or.inl hl, fun l hl => Or.inl hl, fun l1 hl1 => Or.inr ?_⟩
    have h := Option.some.inj hl1
    rw [← h]
  · by_cases h2 : prog.getD c.pc Nop = JumpUnlessZero
    · cases hc : c.curr_loop with
      | none =>
        rw [glStep_juz_none prog counter c h2 hc]
        exact ⟨fun l hl => Or.inl hl, fun l hl => Or.inl hl,
          fun l1 hl1 => Option.noConfusion hl1⟩
      | some l0 =>
        rw [glStep_juz_some prog counter c l0 h2 hc]
        split
        · refine ⟨fun l hl => ?_, fun l hl => Or.inl hl,
            fun l1 hl1 => Option.noConfusion hl1⟩
          rcases List.mem_append.mp hl with h | h
          · exact Or.inl h
          · refine Or.inr ⟨l0, rfl, ?_⟩
            have := List.mem_singleton.mp h
            rw [this]
        · refine ⟨fun l hl => Or.inl hl, fun l hl => ?_,
            fun l1 hl1 => Option.noConfusion hl1⟩
          rcases List.mem_append.mp hl with h | h
          · exact Or.inl h
          · refine Or.inr ⟨l0, rfl, ?_⟩
            have := List.mem_singleton.mp h
            rw [this]
    · obtain ⟨_, hsim, hcom, _, _, _, hcnone, hcsome⟩ := glStep_other prog counter c h1 h2
      refine ⟨?_, ?_, ?_⟩
      · intro l hl
        rw [hsim] at hl
        exact Or.inl hl
      · intro l hl
        rw [hcom] at hl
        exact Or.inl hl
      · intro l1 hl1
        cases hc : c.curr_loop with
        | none =>
          rw [hcnone hc] at hl1
          exact Option.noConfusion hl1
        | some l0 =>
          left
          refine ⟨l0, rfl, ?_⟩
          rw [hcsome l0 hc] at hl1
          by_cases hn : l0.num_times_executed = 0
          · rw [if_pos hn] at hl1
            have := Option.some.inj hl1
            rw [← this]
          · rw [if_neg hn] at hl1
            have := Option.some.inj hl1
            rw [← this]

theorem glStep_mono (prog : List Instruction) (counter : List Nat) (c : PCfg) :
    (∀ l, l ∈ c.simple_loops → l ∈ (glStep prog counter c).simple_loops) ∧
    (∀ l, l ∈ c.complex_loops → l ∈ (glStep prog counter c).complex_loops) := by
  by_cases h1 : prog.getD c.pc Nop = JumpIfZero
  · rw [glStep_jiz prog counter c h1]
    exact ⟨fun l hl => hl, fun l hl => hl⟩
  · by_cases h2 : prog.getD c.pc Nop = JumpUnlessZero
    · cases hc : c.curr_loop with
      | none =>
        rw [glStep_juz_none prog counter c h2 hc]
        exact ⟨fun l hl => hl, fun l hl => hl⟩
      | some l0 =>
        rw [glStep_juz_some prog counter c l0 h2 hc]
        split
        · exact ⟨fun l hl => List.mem_append_left _ hl, fun l hl => hl⟩
        · exact ⟨fun l hl => hl, fun l hl => List.mem_append_left _ hl⟩
    · obtain ⟨_, hsim, hcom, _⟩ := glStep_other prog counter c h1 h2
      exact ⟨fun l hl => by rw [hsim]; exact hl, fun l hl => by rw [hcom]; exact hl⟩

/-- The profiler invariant: everything recorded so far was opened strictly
before the loop index. -/
def PInv (c : PCfg) : Prop :=
  (∀ l, l ∈ c.simple_loops → l.pc < c.pc) ∧
  (∀ l, l ∈ c.complex_loops → l.pc < c.pc) ∧
  (∀ l, c.curr_loop = some l → l.pc < c.pc)

theorem glStep_PInv (prog : List Instruction) (counter : List Nat) (c : PCfg)
    (h : PInv c) : PInv (glStep prog counter c) := by
  obtain ⟨hs, hc', hcur⟩ := h
  obtain ⟨hns, hnc, hncur⟩ := glStep_new prog counter c
  have hpc := glStep_pc prog counter c
  refine ⟨?_, ?_, ?_⟩
  · intro l hl
    rcases hns l hl with h | ⟨l0, hl0, hpc0⟩
    · have := hs l h
      omega
    · have := hcur l0 hl0
      omega
  · intro l hl
    rcases hnc l hl with h | ⟨l0, hl0, hpc0⟩
    · have := hc' l h
      omega
    · have := hcur l0 hl0
      omega
  · intro l hl
    rcases hncur l hl with ⟨l0, hl0, hpc0⟩ | h
    · have := hcur l0 hl0
      omega
    · omega

theorem glIter_pc : ∀ (n : Nat) (prog : List Instruction) (counter : List Nat) (c : PCfg),
    (glIter prog counter n c).pc = c.pc + n := by
  intro n
  induction n with
  | zero => intro prog counter c; rfl
  | succ n ih =>
    intro prog counter c
    show (glIter prog counter n (glStep prog counter c)).pc = _
    rw [ih, glStep_pc]
    omega

theorem glIter_add (prog : List Instruction) (counter : List Nat) (a b : Nat) (c : PCfg) :
    glIter prog counter (a + b) c = glIter prog counter b (glIter prog counter a c) := by
  induction a generalizing c with
  | zero => rw [Nat.zero_add]; rfl
  | succ a ih =>
    rw [show a + 1 + b = (a + b) + 1 from by omega]
    show glIter prog counter (a + b) (glStep prog counter c) = _
    rw [ih (glStep prog counter c)]
    rfl

theorem glIter_PInv : ∀ (n : Nat) (prog : List Instruction) (counter : List Nat) (c : PCfg),
    PInv c → PInv (glIter prog counter n c) := by
  intro n
  induction n with
  | zero => intro prog counter c h; exact h
  | succ n ih =>
    intro prog counter c h
    exact ih prog counter (glStep prog counter c) (glStep_PInv prog counter c h)

theorem glIter_mono : ∀ (n : Nat) (prog : List Instruction) (counter : List Nat) (c : PCfg),
    (∀ l, l ∈ c.simple_loops → l ∈ (glIter prog counter n c).simple_loops) ∧
    (∀ l, l ∈ c.complex_loops → l ∈ (glIter prog counter n c).complex_loops) := by
  intro n
  induction n with
  | zero => intro prog counter c; exact ⟨fun l hl => hl, fun l hl => hl⟩
  | succ n ih =>
    intro prog counter c
    obtain ⟨ih1, ih2⟩ := ih prog counter (glStep prog counter c)
    obtain ⟨g1, g2⟩ := glStep_mono prog counter c
    exact ⟨fun l hl => ih1 l (g1 l hl), fun l hl => ih2 l (g2 l hl)⟩

theorem glIter_new : ∀ (n : Nat) (prog : List Instruction) (counter : List Nat) (c : PCfg),
    (∀ l, l ∈ (glIter prog counter n c).simple_loops →
      l ∈ c.simple_loops ∨ (∃ l0, c.curr_loop = some l0 ∧ l.pc = l0.pc) ∨ c.pc ≤ l.pc) ∧
    (∀ l, l ∈ (glIter prog counter n c).complex_loops →
      l ∈ c.complex_loops ∨ (∃ l0, c.curr_loop = some l0 ∧ l.pc = l0.pc) ∨ c.pc ≤ l.pc) ∧
    (∀ l1, (glIter prog counter n c).curr_loop = some l1 →
      (∃ l0, c.curr_loop = some l0 ∧ l1.pc = l0.pc) ∨ c.pc ≤ l1.pc) := by
  intro n
  induction n with
  | zero =>
    intro prog counter c
    exact ⟨fun l hl => Or.inl hl, fun l hl => Or.inl hl,
      fun l1 hl1 => Or.inl ⟨l1, hl1, rfl⟩⟩
  | succ n ih =>
    intro prog counter c
    obtain ⟨ihs, ihc, ihcur⟩ := ih prog counter (glStep prog counter c)
    obtain ⟨gs, gc, gcur⟩ := glStep_new prog counter c
    have gpc := glStep_pc prog counter c
    refine ⟨?_, ?_, ?_⟩
    · intro l hl
      rcases ihs l hl with h | ⟨l0, hl0, hpc0⟩ | h
      · rcases gs l h with h' | ⟨l0, hl0, hpc0⟩
        · exact Or.inl h'
        · exact Or.inr (Or.inl ⟨l0, hl0, hpc0⟩)
      · rcases gcur l0 hl0 with ⟨l2, hl2, hpc2⟩ | h2
        · exact Or.inr (Or.inl ⟨l2, hl2, hpc0.trans hpc2⟩)
        · exact Or.inr (Or.inr (le_of_eq (hpc0.trans h2).symm))
      · rw [gpc] at h
        exact Or.inr (Or.inr (by omega))
    · intro l hl
      rcases ihc l hl with h | ⟨l0, hl0, hpc0⟩ | h
      · rcases gc l h with h' | ⟨l0, hl0, hpc0⟩
        · exact Or.inl h'
        · exact Or.inr (Or.inl ⟨l0, hl0, hpc0⟩)
      · rcases gcur l0 hl0 with ⟨l2, hl2, hpc2⟩ | h2
        · exact Or.inr (Or.inl ⟨l2, hl2, hpc0.trans hpc2⟩)
        · exact Or.inr (Or.inr (le_of_eq (hpc0.trans h2).symm))
      · rw [gpc] at h
        exact Or.inr (Or.inr (by omega))
    · intro l1 hl1
      rcases ihcur l1 hl1 with ⟨l0, hl0, hpc0⟩ | h
      · rcases gcur l0 hl0 with ⟨l2, hl2, hpc2⟩ | h2
        · exact Or.inl ⟨l2, hl2, hpc0.trans hpc2⟩
        · exact Or.inr (le_of_eq (hpc0.trans h2).symm)
      · rw [gpc] at h
        exact Or.inr (by omega)

/-- Phase A of a profiler run: after o steps the loop index is o and the
invariant holds. -/
theorem gl_phaseA (prog : List Instruction) (counter : List Nat) (o : Nat) :
    (glIter prog counter o ⟨0, none, false, 0, 0, [], []⟩).pc = o ∧
    PInv (glIter prog counter o ⟨0, none, false, 0, 0, [], []⟩) := by
  constructor
  · rw [glIter_pc]
    show 0 + o = o
    omega
  · refine glIter_PInv o prog counter _ ⟨?_, ?_, ?_⟩
    · intro l hl
      exact absurd hl (List.not_mem_nil l)
    · intro l hl
      exact absurd hl (List.not_mem_nil l)
    · intro l hl
      exact Option.noConfusion hl

theorem profScan : ∀ (body prog : List Instruction) (counter : List Nat)
    (c : PCfg) (l : LoopExecution),
    c.curr_loop = some l →
    (∀ t ∈ body, t ≠ JumpIfZero ∧ t ≠ JumpUnlessZero) →
    (∀ k, k < body.length → prog.getD (c.pc + k) Nop = body.getD k Nop) →
    ∃ nt, glIter prog counter body.length c = { c with
      pc := c.pc + body.length,
      curr_loop := some ⟨l.pc, nt, l.insts ++ body⟩,
      has_io := (profAcc c.has_io c.pointer_offset c.pointer_value body).1,
      pointer_offset := (profAcc c.has_io c.pointer_offset c.pointer_value body).2.1,
      pointer_value := (profAcc c.has_io c.pointer_offset c.pointer_value body).2.2 } := by
  intro body
  induction body with
  | nil =>
    intro prog counter c l hc _ _
    obtain ⟨lp, ln, li⟩ := l
    refine ⟨ln, ?_⟩
    show c = _
    simp only [List.length_nil, Nat.add_zero, List.append_nil, profAcc]
    rw [← hc]
  | cons t rest ih =>
    intro prog counter c l hc hnj halign
    have hop : prog.getD c.pc Nop = t := by
      have h0 := halign 0 (by simp)
      simpa using h0
    obtain ⟨ht1, ht2⟩ := hnj t (List.mem_cons_self t rest)
    have h1 : prog.getD c.pc Nop ≠ JumpIfZero := by rw [hop]; exact ht1
    have h2 : prog.getD c.pc Nop ≠ JumpUnlessZero := by rw [hop]; exact ht2
    obtain ⟨hpc, hsim, hcom, hio, hoff, hval, _, hcsome⟩ := glStep_other prog counter c h1 h2
    rw [hop] at hio hoff hval
    have hcur' := hcsome l hc
    rw [hop] at hcur'
    have hnj' : ∀ u ∈ rest, u ≠ JumpIfZero ∧ u ≠ JumpUnlessZero :=
      fun u hu => hnj u (List.mem_cons_of_mem _ hu)
    have halign' : ∀ k, k < rest.length →
        prog.getD ((glStep prog counter c).pc + k) Nop = rest.getD k Nop := by
      intro k hk
      rw [hpc, show c.pc + 1 + k = c.pc + (k + 1) from by omega,
        halign (k + 1) (by simp only [List.length_cons]; omega)]
      rfl
    have hlen : c.pc + (t :: rest).length = c.pc + 1 + rest.length := by
      simp only [List.length_cons]
      omega
    by_cases hn : l.num_times_executed = 0
    · rw [if_pos hn] at hcur'
      obtain ⟨nt, hrec⟩ := ih prog counter (glStep prog counter c)
        ⟨l.pc, counter.getD c.pc 0, l.insts ++ [t]⟩ hcur' hnj' halign'
      refine ⟨nt, ?_⟩
      show glIter prog counter rest.length (glStep prog counter c) = _
      rw [hrec, hpc, hsim, hcom, hio, hoff, hval, hlen, profAcc_cons,
        List.append_assoc]
      rfl
    · rw [if_neg hn] at hcur'
      obtain ⟨nt, hrec⟩ := ih prog counter (glStep prog counter c)
        ⟨l.pc, l.num_times_executed, l.insts ++ [t]⟩ hcur' hnj' halign'
      refine ⟨nt, ?_⟩
      show glIter prog counter rest.length (glStep prog counter c) = _
      rw [hrec, hpc, hsim, hcom, hio, hoff, hval, hlen, profAcc_cons,
        List.append_assoc]
      rfl

/-- C5: over a flat (jump-free) loop body, the profiler records the loop as
simple exactly when the body's accumulated profile (has_io, net head offset,
and the offset-0 index delta) satisfies no-IO, offset 0 and |index delta| = 1,
and as complex exactly otherwise; the accumulated has_io flag is false exactly
when the body holds no Read or Write, and the accumulated offset is the count
of MoveRight minus the count of MoveLeft. -/
theorem loop_classification :
    (∀ (pre body post : List Instruction) (counter : List Nat),
      (∀ t ∈ body, t ≠ JumpIfZero ∧ t ≠ JumpUnlessZero) →
      (((∃ l ∈ (get_loop_executions
            (pre ++ (JumpIfZero :: (body ++ (JumpUnlessZero :: post)))) counter).1,
          l.pc = pre.length) ↔
        ((profAcc false 0 0 body).1 = false ∧ (profAcc false 0 0 body).2.1 = 0 ∧
         (profAcc false 0 0 body).2.2.natAbs = 1)) ∧
       ((∃ l ∈ (get_loop_executions
            (pre ++ (JumpIfZero :: (body ++ (JumpUnlessZero :: post)))) counter).2,
          l.pc = pre.length) ↔
        ¬((profAcc false 0 0 body).1 = false ∧ (profAcc false 0 0 body).2.1 = 0 ∧
          (profAcc false 0 0 body).2.2.natAbs = 1)))) ∧
    (∀ (body : List Instruction) (io : Bool) (off val : Int),
      (profAcc io off val body).1 = false ↔ (io = false ∧ Read ∉ body ∧ Write ∉ body)) ∧
    (∀ (body : List Instruction) (io : Bool) (off val : Int),
      (profAcc io off val body).2.1
        = off + ((body.count MoveRight : Int) - (body.count MoveLeft : Int))) := by
  refine ⟨?_, profAcc_io, profAcc_off⟩
  intro pre body post counter hnj
  set P : List Instruction := pre ++ (JumpIfZero :: (body ++ (JumpUnlessZero :: post)))
    with hP
  obtain ⟨hApc, hAInv⟩ := gl_phaseA P counter pre.length
  set cA : PCfg := glIter P counter pre.length ⟨0, none, false, 0, 0, [], []⟩ with hcA
  have hBop : P.getD cA.pc Nop = JumpIfZero := by
    rw [hApc, hP]
    exact loopP_open pre body post
  have hBstep := glStep_jiz P counter cA hBop
  have hBc : (glStep P counter cA).curr_loop = some ⟨cA.pc, 0, [JumpIfZero]⟩ := by
    rw [hBstep]
  have halignC : ∀ k, k < body.length →
      P.getD ((glStep P counter cA).pc + k) Nop = body.getD k Nop := by
    intro k hk
    have hpcB : (glStep P counter cA).pc = cA.pc + 1 := by rw [hBstep]
    rw [hpcB, hApc, show pre.length + 1 + k = pre.length + (k + 1) from by omega, hP]
    exact loopP_body pre body post k hk
  obtain ⟨nt, hrec⟩ := profScan body P counter (glStep P counter cA)
    ⟨cA.pc, 0, [JumpIfZero]⟩ hBc hnj halignC
  have hCpc : (glIter P counter body.length (glStep P counter cA)).pc
      = pre.length + (body.length + 1) := by
    rw [hrec, hBstep]
    show cA.pc + 1 + body.length = _
    rw [hApc]
    omega
  have hCcur : (glIter P counter body.length (glStep P counter cA)).curr_loop
      = some ⟨pre.length, nt, JumpIfZero :: body⟩ := by
    rw [hrec, hBstep]
    show (some ⟨cA.pc, nt, [JumpIfZero] ++ body⟩ : Option LoopExecution)
      = some ⟨pre.length, nt, JumpIfZero :: body⟩
    rw [hApc]
    rfl
  have hCio : (glIter P counter body.length (glStep P counter cA)).has_io
      = (profAcc false 0 0 body).1 := by
    rw [hrec, hBstep]
  have hCoff : (glIter P counter body.length (glStep P counter cA)).pointer_offset
      = (profAcc false 0 0 body).2.1 := by
    rw [hrec, hBstep]
  have hCval : (glIter P counter body.length (glStep P counter cA)).pointer_value
      = (profAcc false 0 0 body).2.2 := by
    rw [hrec, hBstep]
  have hCsim : (glIter P counter body.length (glStep P counter cA)).simple_loops
      = cA.simple_loops := by
    rw [hrec, hBstep]
  have hCcom : (glIter P counter body.length (glStep P counter cA)).complex_loops
      = cA.complex_loops := by
    rw [hrec, hBstep]
  have hDop : P.getD (glIter P counter body.length (glStep P counter cA)).pc Nop
      = JumpUnlessZero := by
    rw [hCpc, hP]
    exact loopP_close pre body post
  have hDstep := glStep_juz_some P counter
    (glIter P counter body.length (glStep P counter cA))
    ⟨pre.length, nt, JumpIfZero :: body⟩ hDop hCcur
  rw [hCio, hCoff, hCval, hCpc, hCsim, hCcom] at hDstep
  have hlenP : P.length = pre.length + (1 + (body.length + (1 + post.length))) := by
    rw [hP]
    exact loopP_len pre body post
  have hsplit : glIter P counter P.length ⟨0, none, false, 0, 0, [], []⟩
      = glIter P counter post.length (glStep P counter
          (glIter P counter body.length (glStep P counter cA))) := by
    rw [hlenP, glIter_add, glIter_add, glIter_add, glIter_add, ← hcA]
    rfl
  have hget1 : ∀ l, l ∈ (get_loop_executions P counter).1 ↔
      l ∈ (glIter P counter post.length (glStep P counter
        (glIter P counter body.length (glStep P counter cA)))).simple_loops := by
    intro l
    show l ∈ sortLoops (glIter P counter P.length
      ⟨0, none, false, 0, 0, [], []⟩).simple_loops ↔ _
    rw [hsplit]
    exact mem_sortLoops l _
  have hget2 : ∀ l, l ∈ (get_loop_executions P counter).2 ↔
      l ∈ (glIter P counter post.length (glStep P counter
        (glIter P counter body.length (glStep P counter cA)))).complex_loops := by
    intro l
    show l ∈ sortLoops (glIter P counter P.length
      ⟨0, none, false, 0, 0, [], []⟩).complex_loops ↔ _
    rw [hsplit]
    exact mem_sortLoops l _
  obtain ⟨hs0, hc0, _⟩ := hAInv
  rw [hApc] at hs0 hc0
  obtain ⟨hm1, hm2⟩ := glIter_mono post.length P counter
    (glStep P counter (glIter P counter body.length (glStep P counter cA)))
  obtain ⟨hn1, hn2, _⟩ := glIter_new post.length P counter
    (glStep P counter (glIter P counter body.length (glStep P counter cA)))
  by_cases hcond : ((profAcc false 0 0 body).1 = false ∧
      (profAcc false 0 0 body).2.1 = 0 ∧ (profAcc false 0 0 body).2.2.natAbs = 1)
  · rw [if_pos hcond] at hDstep
    have hDcurN : (glStep P counter
        (glIter P counter body.length (glStep P counter cA))).curr_loop = none := by
      rw [hDstep]
    have hDpc : (glStep P counter
        (glIter P counter body.length (glStep P counter cA))).pc
        = pre.length + (body.length + 1) + 1 := by
      rw [hDstep]
    have hDsim : (glStep P counter
        (glIter P counter body.length (glStep P counter cA))).simple_loops
        = cA.simple_loops ++ [⟨pre.length, nt, (JumpIfZero :: body) ++ [JumpUnlessZero]⟩] := by
      rw [hDstep]
    have hDcom : (glStep P counter
        (glIter P counter body.length (glStep P counter cA))).complex_loops
        = cA.complex_loops := by
      rw [hDstep]
    constructor
    · constructor
      · intro _
        exact hcond
      · intro _
        refine ⟨⟨pre.length, nt, (JumpIfZero :: body) ++ [JumpUnlessZero]⟩, ?_, rfl⟩
        rw [hget1]
        apply hm1
        rw [hDsim]
        exact List.mem_append_right _ (List.mem_singleton.mpr rfl)
    · constructor
      · intro ⟨l, hl, hlpc⟩
        exfalso
        rw [hget2] at hl
        rcases hn2 l hl with h | ⟨l0, hl0, _⟩ | h
        · rw [hDcom] at h
          have := hc0 l h
          omega
        · rw [hDcurN] at hl0
          exact Option.noConfusion hl0
        · rw [hDpc] at h
          omega
      · intro hn
        exact absurd hcond hn
  · rw [if_neg hcond] at hDstep
    have hDcurN : (glStep P counter
        (glIter P counter body.length (glStep P counter cA))).curr_loop = none := by
      rw [hDstep]
    have hDpc : (glStep P counter
        (glIter P counter body.length (glStep P counter cA))).pc
        = pre.length + (body.length + 1) + 1 := by
      rw [hDstep]
    have hDsim : (glStep P counter
        (glIter P counter body.length (glStep P counter cA))).simple_loops
        = cA.simple_loops := by
      rw [hDstep]
    have hDcom : (glStep P counter
        (glIter P counter body.length (glStep P counter cA))).complex_loops
        = cA.complex_loops ++ [⟨pre.length, nt, (JumpIfZero :: body) ++ [JumpUnlessZero]⟩] := by
      rw [hDstep]
    constructor
    · constructor
      · intro ⟨l, hl, hlpc⟩
        exfalso
        rw [hget1] at hl
        rcases hn1 l hl with h | ⟨l0, hl0, _⟩ | h
        · rw [hDsim] at h
          have := hs0 l h
          omega
        · rw [hDcurN] at hl0
          exact Option.noConfusion hl0
        · rw [hDpc] at h
          omega
      · intro hcond'
        exact absurd hcond' hcond
    · constructor
      · intro _
        exact hcond
      · intro _
        refine ⟨⟨pre.length, nt, (JumpIfZero :: body) ++ [JumpUnlessZero]⟩, ?_, rfl⟩
        rw [hget2]
        apply hm2
        rw [hDcom]
        exact List.mem_append_right _ (List.mem_singleton.mpr rfl)

/-- Witness for the C5 theorem at pre = [], body = [Decrement], post = [],
empty counter: the loop of "[-]" is recorded as simple. -/
theorem loop_classification_witness :
    ∃ l ∈ (get_loop_executions
        ([] ++ (JumpIfZero :: ([Decrement] ++ (JumpUnlessZero :: [])))) []).1,
      l.pc = List.length ([] : List Instruction) :=
  ((loop_classification.1 [] [Decrement] [] [] (by decide)).1).mpr (by decide)

theorem bv_eq_zero (i : Instruction) (h1 : i ≠ JumpIfZero) (h2 : i ≠ JumpUnlessZero) :
    bv i = 0 := by
  cases i <;> first | rfl | exact absurd rfl h1 | exact absurd rfl h2

theorem sumBv_const (prog : List Instruction) :
    ∀ (n a : Nat), a + n ≤ prog.length →
      (∀ r, a ≤ r → r < a + n → bv (prog.getD r Nop) = 0) →
      sumBv prog (a + n) = sumBv prog a := by
  intro n
  induction n with
  | zero => intro a _ _; rfl
  | succ n ih =>
    intro a h hz
    rw [show a + (n + 1) = (a + n) + 1 from rfl, sumBv_succ prog (a + n) (by omega),
        hz (a + n) (by omega) (by omega),
        ih a (by omega) (fun r hr1 hr2 => hz r hr1 (by omega))]
    omega

theorem exists_least_hit (Q : Nat → Prop) [DecidablePred Q] :
    ∀ (t : Nat), Q t → ∃ q, q ≤ t ∧ Q q ∧ ∀ r, r < q → ¬Q r := by
  intro t
  induction t using Nat.strong_induction_on with
  | _ t ih =>
    intro hQ
    by_cases h : ∃ r, r < t ∧ Q r
    · obtain ⟨r, hr, hQr⟩ := h
      obtain ⟨q, hq1, hq2, hq3⟩ := ih r hr hQr
      exact ⟨q, by omega, hq2, hq3⟩
    · exact ⟨t, Nat.le_refl t, hQ, fun r hr hQr => h ⟨r, hr, hQr⟩⟩

theorem glIter_nobracket : ∀ (n : Nat) (prog : List Instruction) (counter : List Nat)
    (c : PCfg),
    (∀ k, k < n → prog.getD (c.pc + k) Nop ≠ JumpIfZero ∧
      prog.getD (c.pc + k) Nop ≠ JumpUnlessZero) →
    (glIter prog counter n c).simple_loops = c.simple_loops ∧
    (glIter prog counter n c).complex_loops = c.complex_loops := by
  intro n
  induction n with
  | zero => intro prog counter c _; exact ⟨rfl, rfl⟩
  | succ n ih =>
    intro prog counter c hnb
    have h0 := hnb 0 (by omega)
    rw [Nat.add_zero] at h0
    obtain ⟨hpc, hsim, hcom, _⟩ := glStep_other prog counter c h0.1 h0.2
    have hnb' : ∀ k, k < n → prog.getD ((glStep prog counter c).pc + k) Nop ≠ JumpIfZero ∧
        prog.getD ((glStep prog counter c).pc + k) Nop ≠ JumpUnlessZero := by
      intro k hk
      rw [hpc, show c.pc + 1 + k = c.pc + (k + 1) from by omega]
      exact hnb (k + 1) (by omega)
    obtain ⟨ih1, ih2⟩ := ih prog counter (glStep prog counter c) hnb'
    constructor
    · show (glIter prog counter n (glStep prog counter c)).simple_loops = _
      rw [ih1, hsim]
    · show (glIter prog counter n (glStep prog counter c)).complex_loops = _
      rw [ih2, hcom]

/-- C10: the profiler records only the innermost loop of a nest: if the body of
a bracket pair (from JumpIfZero at s to its computed match at e) contains
another bracket, then no entry of either result table of get_loop_executions
carries pc = s — the tracking record for s is discarded at the inner opening
bracket, so the enclosing loop is never pushed. -/
theorem innermost_only :
    ∀ (prog : List Instruction) (counter : List Nat) (s e : Nat),
      prog.getD s Nop = JumpIfZero →
      jumpDest prog s = some e →
      (∃ t, s < t ∧ t < e ∧
        (prog.getD t Nop = JumpIfZero ∨ prog.getD t Nop = JumpUnlessZero)) →
      (∀ l ∈ (get_loop_executions prog counter).1, l.pc ≠ s) ∧
      (∀ l ∈ (get_loop_executions prog counter).2, l.pc ≠ s) := by
  intro prog counter s e hs hjd hex
  have hfc : fcAux prog prog.length (s + 1) 1 = some e := by
    unfold jumpDest at hjd
    rw [hs] at hjd
    exact hjd
  obtain ⟨he1, he2, he3, he4⟩ := fcAux_inv prog prog.length (s + 1) 1 e hfc
  obtain ⟨t0, ht0s, ht0e, ht0b⟩ := hex
  obtain ⟨q, hqle, ⟨hqs, hqb⟩, hqmin⟩ := exists_least_hit
    (fun r => s < r ∧ (prog.getD r Nop = JumpIfZero ∨ prog.getD r Nop = JumpUnlessZero))
    t0 ⟨ht0s, ht0b⟩
  have hqe : q < e := by omega
  have hnobr : ∀ r, s < r → r < q →
      prog.getD r Nop ≠ JumpIfZero ∧ prog.getD r Nop ≠ JumpUnlessZero := by
    intro r h1 h2
    have hmin := hqmin r h2
    constructor
    · intro hb
      exact hmin ⟨h1, Or.inl hb⟩
    · intro hb
      exact hmin ⟨h1, Or.inr hb⟩
  have hqop : prog.getD q Nop = JumpIfZero := by
    rcases hqb with h | h
    · exact h
    · exfalso
      have hconst := sumBv_const prog (q - (s + 1)) (s + 1) (by omega)
        (fun r hr1 hr2 =>
          bv_eq_zero _ (hnobr r (by omega) (by omega)).1 (hnobr r (by omega) (by omega)).2)
      rw [show s + 1 + (q - (s + 1)) = q from by omega] at hconst
      have hstep := sumBv_succ prog q (by omega)
      rw [h] at hstep
      have hzero : 1 + (sumBv prog (q + 1) - sumBv prog (s + 1)) = 0 := by
        rw [hstep, hconst]
        simp only [bv]
        omega
      exact he4 q (by omega) (by omega) hzero
  obtain ⟨m, hm⟩ : ∃ m, q = s + 1 + m := ⟨q - (s + 1), by omega⟩
  obtain ⟨N, hN⟩ : ∃ N, prog.length = s + (1 + (m + (1 + N))) :=
    ⟨prog.length - (q + 1), by omega⟩
  obtain ⟨hApc, hAInv⟩ := gl_phaseA prog counter s
  set cA : PCfg := glIter prog counter s ⟨0, none, false, 0, 0, [], []⟩ with hcA
  have hBop : prog.getD cA.pc Nop = JumpIfZero := by
    rw [hApc]
    exact hs
  have hBstep := glStep_jiz prog counter cA hBop
  have hpcB : (glStep prog counter cA).pc = cA.pc + 1 := by rw [hBstep]
  have hnb : ∀ k, k < m → prog.getD ((glStep prog counter cA).pc + k) Nop ≠ JumpIfZero ∧
      prog.getD ((glStep prog counter cA).pc + k) Nop ≠ JumpUnlessZero := by
    intro k hk
    rw [hpcB, hApc]
    exact hnobr (s + 1 + k) (by omega) (by omega)
  obtain ⟨hCsim, hCcom⟩ := glIter_nobracket m prog counter (glStep prog counter cA) hnb
  have hCpc : (glIter prog counter m (glStep prog counter cA)).pc = q := by
    rw [glIter_pc, hpcB, hApc]
    omega
  have hDop : prog.getD (glIter prog counter m (glStep prog counter cA)).pc Nop
      = JumpIfZero := by
    rw [hCpc]
    exact hqop
  have hDstep := glStep_jiz prog counter (glIter prog counter m (glStep prog counter cA)) hDop
  have hDcurq : ∀ l0,
      (glStep prog counter (glIter prog counter m (glStep prog counter cA))).curr_loop
        = some l0 → l0.pc = q := by
    intro l0 h
    rw [hDstep] at h
    have h2 := Option.some.inj h
    rw [← h2]
    exact hCpc
  have hDsim : (glStep prog counter
      (glIter prog counter m (glStep prog counter cA))).simple_loops
      = cA.simple_loops := by
    rw [hDstep]
    show (glIter prog counter m (glStep prog counter cA)).simple_loops = _
    rw [hCsim, hBstep]
  have hDcom : (glStep prog counter
      (glIter prog counter m (glStep prog counter cA))).complex_loops
      = cA.complex_loops := by
    rw [hDstep]
    show (glIter prog counter m (glStep prog counter cA)).complex_loops = _
    rw [hCcom, hBstep]
  have hDpc : (glStep prog counter
      (glIter prog counter m (glStep prog counter cA))).pc = q + 1 := by
    rw [hDstep]
    show (glIter prog counter m (glStep prog counter cA)).pc + 1 = q + 1
    rw [hCpc]
  have hsplit : glIter prog counter prog.length ⟨0, none, false, 0, 0, [], []⟩
      = glIter prog counter N (glStep prog counter
          (glIter prog counter m (glStep prog counter cA))) := by
    rw [hN, glIter_add, glIter_add, glIter_add, glIter_add, ← hcA]
    rfl
  have hget1 : ∀ l, l ∈ (get_loop_executions prog counter).1 ↔
      l ∈ (glIter prog counter N (glStep prog counter
        (glIter prog counter m (glStep prog counter cA)))).simple_loops := by
    intro l
    show l ∈ sortLoops (glIter prog counter prog.length
      ⟨0, none, false, 0, 0, [], []⟩).simple_loops ↔ _
    rw [hsplit]
    exact mem_sortLoops l _
  have hget2 : ∀ l, l ∈ (get_loop_executions prog counter).2 ↔
      l ∈ (glIter prog counter N (glStep prog counter
        (glIter prog counter m (glStep prog counter cA)))).complex_loops := by
    intro l
    show l ∈ sortLoops (glIter prog counter prog.length
      ⟨0, none, false, 0, 0, [], []⟩).complex_loops ↔ _
    rw [hsplit]
    exact mem_sortLoops l _
  obtain ⟨hs0, hc0, _⟩ := hAInv
  rw [hApc] at hs0 hc0
  obtain ⟨hn1, hn2, _⟩ := glIter_new N prog counter
    (glStep prog counter (glIter prog counter m (glStep prog counter cA)))
  constructor
  · intro l hl hlpc
    rw [hget1] at hl
    rcases hn1 l hl with h | ⟨l0, hl0, hpc0⟩ | h
    · rw [hDsim] at h
      have := hs0 l h
      omega
    · have := hDcurq l0 hl0
      omega
    · rw [hDpc] at h
      omega
  · intro l hl hlpc
    rw [hget2] at hl
    rcases hn2 l hl with h | ⟨l0, hl0, hpc0⟩ | h
    · rw [hDcom] at h
      have := hc0 l h
      omega
    · have := hDcurq l0 hl0
      omega
    · rw [hDpc] at h
      omega

/-- Witness for the C10 theorem on "[[-]]": the outer pair spans 0..4, its body
contains the inner bracket at 1, and no recorded loop carries pc = 0. -/
theorem innermost_only_witness :
    (∀ l ∈ (get_loop_executions (lex ['[', '[', '-', ']', ']']) []).1, l.pc ≠ 0) ∧
    (∀ l ∈ (get_loop_executions (lex ['[', '[', '-', ']', ']']) []).2, l.pc ≠ 0) :=
  innermost_only (lex ['[', '[', '-', ']', ']']) [] 0 4 (by decide) (by decide)
    ⟨1, by decide, by decide, by decide⟩
